import Mathlib

/-!
# Fieldscale: field-based adaptive rescaling of thermal images

A shallow embedding of `src/cpp/Fieldscale.cpp`.

Modelling conventions.

* A single-channel `cv::Mat` is a pair of dimensions together with an element
  accessor `at_ y x` (row first, as in `m.at<double>(y, x)`).  The code reads a
  matrix only at in-bounds positions, so every statement below speaks about
  in-bounds cells.
* `double` samples are exact rationals: sums, means and products are the exact
  ones (no rounding error, no NaN, no infinity).  The constant `1e-6` is the
  rational `1/1000000`.
* Where the truth of a statement depends on how a mean is rounded, the two grid
  passes are used in their second embedding, in the namespace `Binary64`: the
  same loops with every sum, difference and quotient rounded to the nearest
  binary64 number, ties to even (`Binary64.round`), which is what `double`
  arithmetic returns below the overflow threshold.  Comparisons are exact in
  both embeddings.
* `int` indices are unbounded integers (signed overflow is undefined behaviour
  in C++, so only the overflow-free runs are modelled).
* The OpenCV primitives the code calls (8-bit conversion, bilinear resize,
  `pow`, CLAHE, region minimum and maximum) are either written out or taken as
  parameters; each such place is marked.
-/

namespace cv

/-! ## Matrices -/

/-- Single-channel matrix: `rows`, `cols` and the element accessor
`at_ y x` standing for `m.at<T>(y, x)`. -/
structure Mat (α : Type) where
  rows : Nat
  cols : Nat
  at_ : Nat → Nat → α

namespace Mat

/-- Default-constructed `cv::Mat()`: no rows, no columns. -/
def nil : Mat ℚ := ⟨0, 0, fun _ _ => 0⟩

/-- The matrix `Mat(rows, cols, CV_64F, Scalar(c))` with every sample equal to `c`. -/
def const (rows cols : Nat) (c : ℚ) : Mat ℚ := ⟨rows, cols, fun _ _ => c⟩

/-- Test `m.empty()`: the matrix holds no element. -/
def empty {α : Type} (m : Mat α) : Bool := m.rows * m.cols == 0

/-- Test `a.size() == b.size()`. -/
def sameSize {α β : Type} (a : Mat α) (b : Mat β) : Bool :=
  a.rows == b.rows && a.cols == b.cols

/-- Elementwise unary operation, the shape is kept. -/
def map {α β : Type} (f : α → β) (m : Mat α) : Mat β :=
  ⟨m.rows, m.cols, fun y x => f (m.at_ y x)⟩

/-- Elementwise binary operation on two matrices of one shape. -/
def zipWith {α β γ : Type} (f : α → β → γ) (a : Mat α) (b : Mat β) : Mat γ :=
  ⟨a.rows, a.cols, fun y x => f (a.at_ y x) (b.at_ y x)⟩

/-- Elementwise minimum `cv::min(a, b)`. -/
def min (a b : Mat ℚ) : Mat ℚ := zipWith (fun p q => if q < p then q else p) a b

/-- Elementwise maximum `cv::max(a, b)`. -/
def max (a b : Mat ℚ) : Mat ℚ := zipWith (fun p q => if p < q then q else p) a b

/-- Elementwise difference `a - b`. -/
def sub (a b : Mat ℚ) : Mat ℚ := zipWith (fun p q => p - q) a b

/-- Elementwise sum `a + b`. -/
def add (a b : Mat ℚ) : Mat ℚ := zipWith (fun p q => p + q) a b

/-- Elementwise product `a.mul(b)`. -/
def mul (a b : Mat ℚ) : Mat ℚ := zipWith (fun p q => p * q) a b

/-- Scaling `m * s` (also `s * m`) by a scalar. -/
def scale (m : Mat ℚ) (s : ℚ) : Mat ℚ := map (fun p => p * s) m

/-- Elementwise quotient `s / m` of a scalar by a matrix. -/
def recip (s : ℚ) (m : Mat ℚ) : Mat ℚ := map (fun p => s / p) m

/-- Comparison mask `m < s`. -/
def ltScalar (m : Mat ℚ) (s : ℚ) : Mat Bool := map (fun p => decide (p < s)) m

/-- Masked assignment `m.setTo(v, mask)`. -/
def setTo (m : Mat ℚ) (v : ℚ) (mask : Mat Bool) : Mat ℚ :=
  zipWith (fun p b => if b then v else p) m mask

end Mat

/-! ## Conversion to 8 bit -/

/-- Modelled from the spec: the rounding of OpenCV's 8-bit conversion
("rounding to nearest integer"), with a tie going to the even neighbour as
`cvRound` does. -/
def cvRound (x : ℚ) : ℤ :=
  let f := ⌊x⌋
  let d := x - f
  if d < 1 / 2 then f
  else if 1 / 2 < d then f + 1
  else if f % 2 = 0 then f else f + 1

/-- Modelled from the spec: the saturation of OpenCV's 8-bit conversion
("saturating to [0,255]"), `saturate_cast<uchar>(int)`. -/
def saturate_cast (v : ℤ) : ℤ :=
  if 0 ≤ v ∧ v ≤ 255 then v else if 0 < v then 255 else 0

/-- Conversion `m.convertTo(dst, CV_8U)`. -/
def convertTo8U (m : Mat ℚ) : Mat ℤ := Mat.map (fun p => saturate_cast (cvRound p)) m

end cv

/-! ## The pipeline object -/

/-- The class `Fieldscale`: the six configuration members fixed by the
constructor and the two fields kept from the previous frame. -/
structure Fieldscale where
  maxDiff_ : ℚ
  minDiff_ : ℚ
  iterations_ : ℤ
  gamma_ : ℚ
  clahe_ : Bool
  video_ : Bool
  prevMinField_ : cv.Mat ℚ
  prevMaxField_ : cv.Mat ℚ

/-- The OpenCV routines `process` delegates to, taken as parameters.
`resize g rows cols` is the sampler of `cv::resize(g, dst, Size(cols, rows), 0, 0,
INTER_LINEAR)`, `pow b e` is the elementwise power and `clahe m` the sampler
of `createCLAHE(2.0, Size(8, 8))->apply(m, dst)`. -/
structure Primitives where
  resize : cv.Mat ℚ → Nat → Nat → Nat → Nat → ℚ
  pow : ℚ → ℚ → ℚ
  clahe : cv.Mat ℤ → Nat → Nat → ℤ

namespace Fieldscale

open cv

/-- The constructor `Fieldscale::Fieldscale`: both previous fields start empty. -/
def new (maxDiff minDiff : ℚ) (iterations : ℤ) (gamma : ℚ) (clahe video : Bool) :
    Fieldscale :=
  ⟨maxDiff, minDiff, iterations, gamma, clahe, video, Mat.nil, Mat.nil⟩

/-! ## Grid statistics -/

/-- The samples of `img(Rect(x0, y0, w, h))`, row by row. -/
def roi (img : Mat ℚ) (x0 y0 w h : Nat) : List ℚ :=
  (List.range h).flatMap fun dy => (List.range w).map fun dx => img.at_ (y0 + dy) (x0 + dx)

/-- Modelled from the spec: the minimum that `cv::minMaxLoc` reports for a
region ("minimum sample in that patch"); `0` for a region without samples. -/
def minVal : List ℚ → ℚ
  | [] => 0
  | v :: vs => vs.foldl (fun best w => if w < best then w else best) v

/-- Modelled from the spec: the maximum that `cv::minMaxLoc` reports for a
region ("maximum sample in that patch"); `0` for a region without samples. -/
def maxVal : List ℚ → ℚ
  | [] => 0
  | v :: vs => vs.foldl (fun best w => if best < w then w else best) v

/-- Embedding of `Fieldscale::gridwiseMin` for a grid of `gridW` columns and
`gridH` rows. -/
def gridwiseMin (img : Mat ℚ) (gridW gridH : Nat) : Mat ℚ :=
  let patchW := img.cols / gridW
  let patchH := img.rows / gridH
  ⟨gridH, gridW, fun y x =>
    if y < gridH ∧ x < gridW then minVal (roi img (x * patchW) (y * patchH) patchW patchH)
    else 0⟩

/-- Embedding of `Fieldscale::gridwiseMax` for a grid of `gridW` columns and
`gridH` rows. -/
def gridwiseMax (img : Mat ℚ) (gridW gridH : Nat) : Mat ℚ :=
  let patchW := img.cols / gridW
  let patchH := img.rows / gridH
  ⟨gridH, gridW, fun y x =>
    if y < gridH ∧ x < gridW then maxVal (roi img (x * patchW) (y * patchH) patchW patchH)
    else 0⟩

/-- The pixel `(y, x)` lies in the patch of the grid cell `(gy, gx)`:
`gx * patchW ≤ x < (gx + 1) * patchW` and `gy * patchH ≤ y < (gy + 1) * patchH`
with `patchW = floor (W / gridW)` and `patchH = floor (H / gridH)`. -/
def inPatch (img : Mat ℚ) (gridW gridH gy gx y x : Nat) : Prop :=
  gy * (img.rows / gridH) ≤ y ∧ y < (gy + 1) * (img.rows / gridH)
    ∧ gx * (img.cols / gridW) ≤ x ∧ x < (gx + 1) * (img.cols / gridW)

instance (img : Mat ℚ) (gridW gridH gy gx y x : Nat) :
    Decidable (inPatch img gridW gridH gy gx y x) := by
  unfold inPatch
  infer_instance

/-- The largest cell value of a grid: the maximum `cv::minMaxLoc` reports for
the whole matrix. -/
def largest (grid : Mat ℚ) : ℚ := maxVal (roi grid 0 0 grid.cols grid.rows)

/-- The smallest cell value of a grid: the minimum `cv::minMaxLoc` reports for
the whole matrix. -/
def smallest (grid : Mat ℚ) : ℚ := minVal (roi grid 0 0 grid.cols grid.rows)

/-! ## Neighbourhoods -/

/-- The values a loop `for (int d = -distance; d <= distance; ++d)` runs through. -/
def offsets (distance : ℤ) : List ℤ :=
  (List.range (2 * distance + 1).toNat).map fun (i : Nat) => -distance + (i : ℤ)

/-- The vector `neighbors` both grid passes collect for the cell `(y, x)`: the
in-bounds cells of the square of radius `distance` around it, the cell itself
left out, in the order of the two nested loops. -/
def neighbors (grid : Mat ℚ) (distance : ℤ) (y x : Nat) : List ℚ :=
  (offsets distance).flatMap fun dy =>
    (offsets distance).filterMap fun dx =>
      if dx = 0 ∧ dy = 0 then none
      else
        let ny : ℤ := (y : ℤ) + dy
        let nx : ℤ := (x : ℤ) + dx
        if 0 ≤ ny ∧ ny < grid.rows ∧ 0 ≤ nx ∧ nx < grid.cols then
          some (grid.at_ ny.toNat nx.toNat)
        else none

/-- The cell `(ny, nx)` is a neighbour of `(y, x)` within Chebyshev radius
`distance`: an in-bounds cell other than `(y, x)` whose row and column differ
from it by at most `distance`. -/
def isNeighbor (grid : Mat ℚ) (distance : ℤ) (y x ny nx : Nat) : Prop :=
  ny < grid.rows ∧ nx < grid.cols
    ∧ |(ny : ℤ) - (y : ℤ)| ≤ distance ∧ |(nx : ℤ) - (x : ℤ)| ≤ distance
    ∧ ¬(ny = y ∧ nx = x)

instance (grid : Mat ℚ) (distance : ℤ) (y x ny nx : Nat) :
    Decidable (isNeighbor grid distance y x ny nx) := by
  unfold isNeighbor
  infer_instance

/-- The cells whose values the two nested loops push onto `neighbors`, in the
order of the loops. -/
def neighborCells (grid : Mat ℚ) (distance : ℤ) (y x : Nat) : List (Nat × Nat) :=
  (offsets distance).flatMap fun dy =>
    (offsets distance).filterMap fun dx =>
      if dx = 0 ∧ dy = 0 then none
      else
        let ny : ℤ := (y : ℤ) + dy
        let nx : ℤ := (x : ℤ) + dx
        if 0 ≤ ny ∧ ny < grid.rows ∧ 0 ≤ nx ∧ nx < grid.cols then
          some (ny.toNat, nx.toNat)
        else none

/-- The set `N` of the specification: the in-bounds cells other than `(y, x)`
within Chebyshev distance `distance` of `(y, x)`. -/
def neighborhood (grid : Mat ℚ) (distance : ℤ) (y x : Nat) : Finset (Nat × Nat) :=
  ((Finset.range grid.rows) ×ˢ (Finset.range grid.cols)).filter
    fun p => isNeighbor grid distance y x p.1 p.2

/-- The cell `(by, bx)` lies in the in-bounds 3x3 block around `(y, x)`. -/
def inBlock (grid : Mat ℚ) (y x by_ bx : Nat) : Prop :=
  by_ < grid.rows ∧ bx < grid.cols
    ∧ |(by_ : ℤ) - (y : ℤ)| ≤ 1 ∧ |(bx : ℤ) - (x : ℤ)| ≤ 1

instance (grid : Mat ℚ) (y x by_ bx : Nat) : Decidable (inBlock grid y x by_ bx) := by
  unfold inBlock
  infer_instance

/-- The left fold `std::accumulate(first, last, init)`. -/
def accumulate (l : List ℚ) (init : ℚ) : ℚ := l.foldl (fun acc v => acc + v) init

/-- The value `*std::max_element(first, last)` of a non-empty range. -/
def max_element : List ℚ → ℚ
  | [] => 0
  | v :: vs => vs.foldl (fun best w => if best < w then w else best) v

/-- The value `*std::min_element(first, last)` of a non-empty range. -/
def min_element : List ℚ → ℚ
  | [] => 0
  | v :: vs => vs.foldl (fun best w => if w < best then w else best) v

/-! ## Extrema suppression -/

/-- The "manual mean" of `localExtremaSuppression`:
`std::accumulate(neighbors.begin(), neighbors.end(), 0.0) / neighbors.size()`. -/
def meanVal (neighbors : List ℚ) : ℚ := accumulate neighbors 0 / (neighbors.length : ℚ)

/-- The body of the two cell loops of `localExtremaSuppression`: the value
the result holds at `(y, x)`. -/
def suppressCell (grid : Mat ℚ) (distance : ℤ) (threshold : ℚ) (extrema : String)
    (y x : Nat) : ℚ :=
  let neighbors := neighbors grid distance y x
  if neighbors.isEmpty then grid.at_ y x
  else
    let meanVal := meanVal neighbors
    let current := grid.at_ y x
    if extrema = "max" then
      let neighborMax := max_element neighbors
      if current ≥ neighborMax ∧ current - meanVal > threshold then meanVal + threshold
      else current
    else
      let neighborMin := min_element neighbors
      if current ≤ neighborMin ∧ meanVal - current > threshold then meanVal - threshold
      else current

/-- The matrix `result` of `localExtremaSuppression` when its loops end. -/
def suppressed (grid : Mat ℚ) (distance : ℤ) (threshold : ℚ) (extrema : String) : Mat ℚ :=
  ⟨grid.rows, grid.cols, fun y x =>
    if y < grid.rows ∧ x < grid.cols then suppressCell grid distance threshold extrema y x
    else grid.at_ y x⟩

/-- Embedding of `Fieldscale::localExtremaSuppression`; `none` when the
`CV_Assert` on the mode fails. -/
def localExtremaSuppression (grid : Mat ℚ) (distance : ℤ) (threshold : ℚ)
    (extrema : String) : Option (Mat ℚ) :=
  if extrema = "max" ∨ extrema = "min" then some (suppressed grid distance threshold extrema)
  else none

/-! ## Diffusion -/

/-- The body of the two cell loops of `messagePassing`: the value the new
grid holds at `(y, x)`. -/
def passCell (grid : Mat ℚ) (direction : String) (y x : Nat) : ℚ :=
  let neighbors := neighbors grid 1 y x
  let val := grid.at_ y x
  if neighbors.isEmpty then val
  else
    let sum := accumulate neighbors 0 + val
    let meanVal := sum / ((neighbors.length + 1 : Nat) : ℚ)
    let bigger := if meanVal < val then val else meanVal
    let smaller := if val < meanVal then val else meanVal
    if direction = "increase" then bigger else smaller

/-- The matrix `newGrid` of `messagePassing` when its loops end. -/
def passed (grid : Mat ℚ) (direction : String) : Mat ℚ :=
  ⟨grid.rows, grid.cols, fun y x =>
    if y < grid.rows ∧ x < grid.cols then passCell grid direction y x
    else grid.at_ y x⟩

/-- Embedding of `Fieldscale::messagePassing`; `none` when the `CV_Assert`
on the direction fails. -/
def messagePassing (grid : Mat ℚ) (direction : String) : Option (Mat ℚ) :=
  if direction = "increase" ∨ direction = "decrease" then some (passed grid direction)
  else none

/-- The grid after `n` successive `messagePassing` steps in one direction. -/
def messagePassingN (direction : String) : Nat → Mat ℚ → Option (Mat ℚ)
  | 0, grid => some grid
  | n + 1, grid => (messagePassing grid direction).bind (messagePassingN direction n)

/-! ## The Rescaler -/

/-- The threshold `1e-6` below which a field range counts as zero. -/
def epsilon : ℚ := 1 / 1000000

/-- The local `minF` of `rescaleImageWithFields`: `min(minField, maxField, minF)`. -/
def minF (minField maxField : Mat ℚ) : Mat ℚ := Mat.min minField maxField

/-- The local `maxF` of `rescaleImageWithFields`: `max(minField, maxField, maxF)`. -/
def maxF (minField maxField : Mat ℚ) : Mat ℚ := Mat.max minField maxField

/-- The local `clipped` of `rescaleImageWithFields` after both assignments. -/
def clipped (image minField maxField : Mat ℚ) : Mat ℚ :=
  let floatImg := image
  let clipped := Mat.max floatImg (minF minField maxField)
  Mat.min clipped (maxF minField maxField)

/-- The local `denom` of `rescaleImageWithFields` after `denom.setTo(1.0, mask)`. -/
def denom (minField maxField : Mat ℚ) : Mat ℚ :=
  let denom := Mat.sub (maxF minField maxField) (minF minField maxField)
  let mask := Mat.ltScalar denom epsilon
  Mat.setTo denom 1 mask

/-- The local `normalized` of `rescaleImageWithFields` before the conversion
to 8 bit. -/
def normalized (image minField maxField : Mat ℚ) : Mat ℚ :=
  Mat.scale
    (Mat.mul (Mat.sub (clipped image minField maxField) (minF minField maxField))
      (Mat.recip 1 (denom minField maxField)))
    255

/-- Embedding of `Fieldscale::rescaleImageWithFields`; `none` when the
`CV_Assert` on the sizes fails. -/
def rescaleImageWithFields (image minField maxField : Mat ℚ) : Option (Mat ℤ) :=
  if Mat.sameSize image minField && Mat.sameSize image maxField then
    some (convertTo8U (normalized image minField maxField))
  else
    none

/-! ## The pipeline -/

/-- The loop `for (int i = 0; i < iterations_; ++i)` of `process`, run `n`
times on the pair `(minGrid, maxGrid)`. -/
def diffuse : Nat → Mat ℚ × Mat ℚ → Option (Mat ℚ × Mat ℚ)
  | 0, grids => some grids
  | n + 1, (minGrid, maxGrid) =>
    (messagePassing minGrid "decrease").bind fun minGrid =>
      (messagePassing maxGrid "increase").bind fun maxGrid =>
        diffuse n (minGrid, maxGrid)

/-- The call `resize(grid, field, input.size(), 0, 0, INTER_LINEAR)`: a matrix
of the size of the input whose samples the resize primitive provides. -/
def resize (P : Primitives) (grid : Mat ℚ) (rows cols : Nat) : Mat ℚ :=
  ⟨rows, cols, P.resize grid rows cols⟩

/-- The first half of `process`, up to the two `resize` calls: the raw
upsampled pair `(minField, maxField)` of a frame. -/
def rawFields (P : Primitives) (self : Fieldscale) (input : Mat ℚ) :
    Option (Mat ℚ × Mat ℚ) :=
  let input64 := input
  let minGrid := gridwiseMin input64 8 8
  let maxGrid := gridwiseMax input64 8 8
  (localExtremaSuppression maxGrid 2 self.maxDiff_ "max").bind fun maxGrid =>
    (localExtremaSuppression maxGrid 2 self.minDiff_ "min").bind fun maxGrid =>
      (diffuse self.iterations_.toNat (minGrid, maxGrid)).bind fun grids =>
        some (resize P grids.1 input.rows input.cols, resize P grids.2 input.rows input.cols)

/-- The matrix expression `0.1 * field + 0.9 * prev`; `none` when the two
sizes differ (OpenCV raises an error). -/
def blend (field prev : Mat ℚ) : Option (Mat ℚ) :=
  if Mat.sameSize field prev then
    some (Mat.add (Mat.scale field (1 / 10)) (Mat.scale prev (9 / 10)))
  else none

/-- The temporal step of `process`: the pair `(minField, maxField)` handed to
the Rescaler and stored as the previous fields. -/
def blendedFields (self : Fieldscale) (raw : Mat ℚ × Mat ℚ) : Option (Mat ℚ × Mat ℚ) :=
  if self.video_ && !self.prevMinField_.empty then
    (blend raw.1 self.prevMinField_).bind fun minField =>
      (blend raw.2 self.prevMaxField_).bind fun maxField =>
        some (minField, maxField)
  else some raw

/-- The gamma branch of `process`: scale to `[0,1]`, raise to `gamma_`, scale
back and convert to 8 bit. -/
def gammaCorrect (P : Primitives) (gamma : ℚ) (result : Mat ℤ) : Mat ℤ :=
  let result := Mat.map (fun v : ℤ => (v : ℚ) * (1 / 255)) result
  let result := Mat.map (fun v => P.pow v gamma) result
  let result := Mat.scale result 255
  convertTo8U result

/-- The call `claheObj->apply(result, result)`. -/
def claheApply (P : Primitives) (result : Mat ℤ) : Mat ℤ :=
  ⟨result.rows, result.cols, P.clahe result⟩

/-- The second half of `process`, from the Rescaler on. -/
def finish (P : Primitives) (self : Fieldscale) (input : Mat ℚ) (fields : Mat ℚ × Mat ℚ) :
    Option (Mat ℤ) :=
  (rescaleImageWithFields input fields.1 fields.2).bind fun result =>
    let result := if self.gamma_ > 0 then gammaCorrect P self.gamma_ result else result
    let result := if self.clahe_ then claheApply P result else result
    some result

/-- Embedding of `Fieldscale::process`: the returned image together with the
object after the call; `none` when an assertion fails. -/
def process (P : Primitives) (self : Fieldscale) (input : Mat ℚ) :
    Option (Mat ℤ × Fieldscale) :=
  if input.empty then none
  else
    (rawFields P self input).bind fun raw =>
      (blendedFields self raw).bind fun fields =>
        let self1 := { self with prevMinField_ := fields.1, prevMaxField_ := fields.2 }
        (finish P self input fields).bind fun result =>
          some (result, self1)

/-! ## The grid passes in binary64 arithmetic -/

namespace Binary64

/-- The exponent of the last place of the binary64 number nearest to `x`: 52
places below the leading bit, and never below the subnormal step `2 ^ (-1074)`. -/
def exponent (x : ℚ) : ℤ := max (Int.log 2 |x| - 52) (-1074)

/-- The binary64 number nearest to `x`, a tie going to the even significand
(the rounding every `double` operation of the code ends with); `x` is taken
below the overflow threshold. -/
def round (x : ℚ) : ℚ :=
  if x = 0 then 0 else (cvRound (x / (2 : ℚ) ^ exponent x) : ℚ) * (2 : ℚ) ^ exponent x

/-- The `double` sum `a + b`. -/
def add (a b : ℚ) : ℚ := round (a + b)

/-- The `double` difference `a - b`. -/
def sub (a b : ℚ) : ℚ := round (a - b)

/-- The `double` quotient `a / b`. -/
def div (a b : ℚ) : ℚ := round (a / b)

/-- The left fold `std::accumulate(first, last, init)` over `double`. -/
def accumulate (l : List ℚ) (init : ℚ) : ℚ := l.foldl add init

/-- The "manual mean" of `localExtremaSuppression` as `double` arithmetic
computes it: the accumulated sum divided by `neighbors.size()`. -/
def meanVal (neighbors : List ℚ) : ℚ := div (accumulate neighbors 0) (neighbors.length : ℚ)

/-- The body of the two cell loops of `localExtremaSuppression`, every sum,
difference and quotient rounded to binary64. -/
def suppressCell (grid : Mat ℚ) (distance : ℤ) (threshold : ℚ) (extrema : String)
    (y x : Nat) : ℚ :=
  let neighbors := neighbors grid distance y x
  if neighbors.isEmpty then grid.at_ y x
  else
    let meanVal := meanVal neighbors
    let current := grid.at_ y x
    if extrema = "max" then
      let neighborMax := max_element neighbors
      if current ≥ neighborMax ∧ sub current meanVal > threshold then add meanVal threshold
      else current
    else
      let neighborMin := min_element neighbors
      if current ≤ neighborMin ∧ sub meanVal current > threshold then sub meanVal threshold
      else current

/-- The matrix `result` of `localExtremaSuppression` when its loops end. -/
def suppressed (grid : Mat ℚ) (distance : ℤ) (threshold : ℚ) (extrema : String) : Mat ℚ :=
  ⟨grid.rows, grid.cols, fun y x =>
    if y < grid.rows ∧ x < grid.cols then suppressCell grid distance threshold extrema y x
    else grid.at_ y x⟩

/-- Embedding of `Fieldscale::localExtremaSuppression` in binary64 arithmetic;
`none` when the `CV_Assert` on the mode fails. -/
def localExtremaSuppression (grid : Mat ℚ) (distance : ℤ) (threshold : ℚ)
    (extrema : String) : Option (Mat ℚ) :=
  if extrema = "max" ∨ extrema = "min" then some (suppressed grid distance threshold extrema)
  else none

/-- The body of the two cell loops of `messagePassing`, the sum and the
quotient rounded to binary64. -/
def passCell (grid : Mat ℚ) (direction : String) (y x : Nat) : ℚ :=
  let neighbors := neighbors grid 1 y x
  let val := grid.at_ y x
  if neighbors.isEmpty then val
  else
    let sum := add (accumulate neighbors 0) val
    let meanVal := div sum ((neighbors.length + 1 : Nat) : ℚ)
    let bigger := if meanVal < val then val else meanVal
    let smaller := if val < meanVal then val else meanVal
    if direction = "increase" then bigger else smaller

/-- The matrix `newGrid` of `messagePassing` when its loops end. -/
def passed (grid : Mat ℚ) (direction : String) : Mat ℚ :=
  ⟨grid.rows, grid.cols, fun y x =>
    if y < grid.rows ∧ x < grid.cols then passCell grid direction y x
    else grid.at_ y x⟩

/-- Embedding of `Fieldscale::messagePassing` in binary64 arithmetic; `none`
when the `CV_Assert` on the direction fails. -/
def messagePassing (grid : Mat ℚ) (direction : String) : Option (Mat ℚ) :=
  if direction = "increase" ∨ direction = "decrease" then some (passed grid direction)
  else none

/-- The grid after `n` successive `messagePassing` steps in one direction. -/
def messagePassingN (direction : String) : Nat → Mat ℚ → Option (Mat ℚ)
  | 0, grid => some grid
  | n + 1, grid => (messagePassing grid direction).bind (messagePassingN direction n)

/-- The loop `for (int i = 0; i < iterations_; ++i)` of `process`, run `n`
times on the pair `(minGrid, maxGrid)`. -/
def diffuse : Nat → Mat ℚ × Mat ℚ → Option (Mat ℚ × Mat ℚ)
  | 0, grids => some grids
  | n + 1, (minGrid, maxGrid) =>
    (messagePassing minGrid "decrease").bind fun minGrid =>
      (messagePassing maxGrid "increase").bind fun maxGrid =>
        diffuse n (minGrid, maxGrid)

/-- The first half of `process`, up to the two `resize` calls, with the grid
passes in binary64 arithmetic. -/
def rawFields (P : Primitives) (self : Fieldscale) (input : Mat ℚ) :
    Option (Mat ℚ × Mat ℚ) :=
  let input64 := input
  let minGrid := gridwiseMin input64 8 8
  let maxGrid := gridwiseMax input64 8 8
  (localExtremaSuppression maxGrid 2 self.maxDiff_ "max").bind fun maxGrid =>
    (localExtremaSuppression maxGrid 2 self.minDiff_ "min").bind fun maxGrid =>
      (diffuse self.iterations_.toNat (minGrid, maxGrid)).bind fun grids =>
        some (resize P grids.1 input.rows input.cols, resize P grids.2 input.rows input.cols)

end Binary64

/-! ## Sample data -/

/-- The binary64 number nearest to `0.1`. -/
def tenth : ℚ := 3602879701896397 / 36028797018963968

/-- The binary64 number nearest to `0.7`. -/
def sevenTenths : ℚ := 3152519739159347 / 4503599627370496

/-- A 2x2 grid of `tenth` with 1000 in its first cell. -/
def tenthSpike : Mat ℚ := ⟨2, 2, fun y x => if y = 0 ∧ x = 0 then 1000 else tenth⟩


/-- A concrete choice of the primitives for evaluating the pipeline: nearest
sample for `resize`, the base itself for `pow`, and the identity for CLAHE. -/
def samplePrimitives : Primitives where
  resize := fun g rows cols y x => g.at_ (y * g.rows / rows) (x * g.cols / cols)
  pow := fun b _ => b
  clahe := fun m y x => m.at_ y x

/-- A 5x5 grid of value 10 with 1000 at the centre. -/
def spikeGrid : Mat ℚ := ⟨5, 5, fun y x => if y = 2 ∧ x = 2 then 1000 else 10⟩

/-- A 4x6 image whose sample at `(y, x)` is `6 * y + x`. -/
def rampImage : Mat ℚ := ⟨4, 6, fun y x => ((6 * y + x : Nat) : ℚ)⟩

/-- A 5x5 image of value 1 whose last row and last column hold 7. -/
def fringeImage : Mat ℚ := ⟨5, 5, fun y x => if y = 4 ∨ x = 4 then 7 else 1⟩

/-! # Theorems -/

/-! ## Facts about the 8-bit conversion -/

theorem saturate_cast_range (v : ℤ) : 0 ≤ saturate_cast v ∧ saturate_cast v ≤ 255 := by
  unfold saturate_cast
  split_ifs <;> omega

theorem saturate_cast_of_range {v : ℤ} (h0 : 0 ≤ v) (h1 : v ≤ 255) : saturate_cast v = v := by
  unfold saturate_cast
  rw [if_pos ⟨h0, h1⟩]

theorem cvRound_intCast (n : ℤ) : cvRound (n : ℚ) = n := by
  simp [cvRound]

theorem cvRound_small {x : ℚ} (h0 : 0 ≤ x) (h1 : x < 1 / 2) : cvRound x = 0 := by
  have hf : ⌊x⌋ = 0 := by
    rw [Int.floor_eq_iff]
    constructor
    · simpa using h0
    · have : x < 1 := by linarith
      simpa using this
  simp only [cvRound, hf]
  rw [if_pos]
  simpa using h1

/-! ## Facts about the Rescaler -/

theorem Mat_min_at (a b : Mat ℚ) (y x : Nat) :
    (Mat.min a b).at_ y x = min (a.at_ y x) (b.at_ y x) := by
  simp only [Mat.min, Mat.zipWith]
  split_ifs with h
  · exact (min_eq_right h.le).symm
  · exact (min_eq_left (not_lt.mp h)).symm

theorem Mat_max_at (a b : Mat ℚ) (y x : Nat) :
    (Mat.max a b).at_ y x = max (a.at_ y x) (b.at_ y x) := by
  simp only [Mat.max, Mat.zipWith]
  split_ifs with h
  · exact (max_eq_right h.le).symm
  · exact (max_eq_left (not_lt.mp h)).symm

theorem minF_at (a b : Mat ℚ) (y x : Nat) :
    (minF a b).at_ y x = min (a.at_ y x) (b.at_ y x) := Mat_min_at a b y x

theorem maxF_at (a b : Mat ℚ) (y x : Nat) :
    (maxF a b).at_ y x = max (a.at_ y x) (b.at_ y x) := Mat_max_at a b y x

theorem clipped_at (image a b : Mat ℚ) (y x : Nat) :
    (clipped image a b).at_ y x
      = min (max (image.at_ y x) ((minF a b).at_ y x)) ((maxF a b).at_ y x) := by
  simp only [clipped, Mat_min_at, Mat_max_at]

theorem denom_at (a b : Mat ℚ) (y x : Nat) :
    (denom a b).at_ y x
      = if (maxF a b).at_ y x - (minF a b).at_ y x < epsilon then 1
        else (maxF a b).at_ y x - (minF a b).at_ y x := by
  simp [denom, Mat.setTo, Mat.ltScalar, Mat.sub, Mat.zipWith, Mat.map]

theorem normalized_at (image a b : Mat ℚ) (y x : Nat) :
    (normalized image a b).at_ y x
      = ((clipped image a b).at_ y x - (minF a b).at_ y x)
          * (1 / (denom a b).at_ y x) * 255 := by
  simp [normalized, Mat.scale, Mat.mul, Mat.sub, Mat.recip, Mat.zipWith, Mat.map]

theorem minF_le_maxF (a b : Mat ℚ) (y x : Nat) :
    (minF a b).at_ y x ≤ (maxF a b).at_ y x := by
  rw [minF_at, maxF_at]
  exact le_trans (min_le_left _ _) (le_max_left _ _)

theorem minF_le_clipped (image a b : Mat ℚ) (y x : Nat) :
    (minF a b).at_ y x ≤ (clipped image a b).at_ y x := by
  rw [clipped_at]
  exact le_min (le_max_right _ _) (minF_le_maxF a b y x)

theorem clipped_le_maxF (image a b : Mat ℚ) (y x : Nat) :
    (clipped image a b).at_ y x ≤ (maxF a b).at_ y x := by
  rw [clipped_at]
  exact min_le_right _ _

theorem rescale_eq_some {image a b : Mat ℚ} (ha : Mat.sameSize image a = true)
    (hb : Mat.sameSize image b = true) :
    rescaleImageWithFields image a b = some (convertTo8U (normalized image a b)) := by
  simp [rescaleImageWithFields, ha, hb]

theorem convertTo8U_at (m : Mat ℚ) (y x : Nat) :
    (convertTo8U m).at_ y x = saturate_cast (cvRound (m.at_ y x)) := rfl

theorem epsilon_le_denom (a b : Mat ℚ) (y x : Nat) : epsilon ≤ (denom a b).at_ y x := by
  rw [denom_at]
  split_ifs with h
  · norm_num [epsilon]
  · exact not_lt.mp h

theorem denom_pos (a b : Mat ℚ) (y x : Nat) : 0 < (denom a b).at_ y x :=
  lt_of_lt_of_le (by norm_num [epsilon]) (epsilon_le_denom a b y x)

theorem clipped_sub_le_denom (image a b : Mat ℚ) (y x : Nat) :
    (clipped image a b).at_ y x - (minF a b).at_ y x ≤ (denom a b).at_ y x := by
  have h1 := clipped_le_maxF image a b y x
  rw [denom_at]
  split_ifs with h
  · have : epsilon < 1 := by norm_num [epsilon]
    linarith
  · linarith

theorem normalized_nonneg (image a b : Mat ℚ) (y x : Nat) :
    0 ≤ (normalized image a b).at_ y x := by
  rw [normalized_at]
  have h1 := minF_le_clipped image a b y x
  have h2 := denom_pos a b y x
  have h3 : 0 ≤ 1 / (denom a b).at_ y x := by positivity
  have h4 : 0 ≤ (clipped image a b).at_ y x - (minF a b).at_ y x := by linarith
  positivity

theorem normalized_le (image a b : Mat ℚ) (y x : Nat) :
    (normalized image a b).at_ y x ≤ 255 := by
  rw [normalized_at]
  have h2 := denom_pos a b y x
  have h3 := clipped_sub_le_denom image a b y x
  have h4 : ((clipped image a b).at_ y x - (minF a b).at_ y x) * (1 / (denom a b).at_ y x) ≤ 1 := by
    rw [mul_one_div, div_le_one h2]
    exact h3
  linarith

theorem dark_of_small_range (image a b : Mat ℚ) (y x : Nat)
    (h : (maxF a b).at_ y x - (minF a b).at_ y x < epsilon) :
    (convertTo8U (normalized image a b)).at_ y x = 0 := by
  have hd : (denom a b).at_ y x = 1 := by rw [denom_at, if_pos h]
  have h1 := minF_le_clipped image a b y x
  have h2 := clipped_le_maxF image a b y x
  have he : epsilon = 1 / 1000000 := rfl
  rw [convertTo8U_at, normalized_at, hd]
  rw [cvRound_small (by nlinarith) (by linarith)]
  rfl

/-! ## The claims on the Rescaler -/

/-- C5. Ordering invariant of the Rescaler: whatever the two fields are
(ordered or inverted), at every pixel the corrected fields satisfy
`minF ≤ maxF`, and the clipped image lies between them. -/
theorem ordering_invariant (image minField maxField : Mat ℚ) (y x : Nat) :
    (minF minField maxField).at_ y x = min (minField.at_ y x) (maxField.at_ y x)
      ∧ (maxF minField maxField).at_ y x = max (minField.at_ y x) (maxField.at_ y x)
      ∧ (minF minField maxField).at_ y x ≤ (maxF minField maxField).at_ y x
      ∧ (minF minField maxField).at_ y x ≤ (clipped image minField maxField).at_ y x
      ∧ (clipped image minField maxField).at_ y x ≤ (maxF minField maxField).at_ y x :=
  ⟨minF_at _ _ y x, maxF_at _ _ y x, minF_le_maxF _ _ y x, minF_le_clipped _ _ _ y x,
    clipped_le_maxF _ _ _ y x⟩

/-- C6. Near-zero field range renders dark: with fields of the size of the
image the Rescaler returns an image; the denominator is never below `1e-6`;
and at every pixel whose corrected range `maxF - minF` is below `1e-6` the
denominator is exactly `1` and the output sample is `0`, whatever the image
sample is. -/
theorem near_zero_range_renders_dark (image minField maxField : Mat ℚ)
    (hmin : Mat.sameSize image minField = true) (hmax : Mat.sameSize image maxField = true) :
    (∀ y x, epsilon ≤ (denom minField maxField).at_ y x)
      ∧ ∃ out, rescaleImageWithFields image minField maxField = some out
          ∧ ∀ y x, (maxF minField maxField).at_ y x - (minF minField maxField).at_ y x < epsilon →
              (denom minField maxField).at_ y x = 1 ∧ out.at_ y x = 0 := by
  refine ⟨epsilon_le_denom _ _, _, rescale_eq_some hmin hmax, ?_⟩
  intro y x h
  exact ⟨by rw [denom_at, if_pos h], dark_of_small_range image minField maxField y x h⟩

/-- C6, at a concrete input: a 2x2 image of value 5 between fields both equal to 3. -/
theorem near_zero_range_renders_dark_witness :
    (denom (Mat.const 2 2 3) (Mat.const 2 2 3)).at_ 0 0 = 1
      ∧ ∃ out, rescaleImageWithFields (Mat.const 2 2 5) (Mat.const 2 2 3) (Mat.const 2 2 3)
            = some out ∧ out.at_ 0 0 = 0 := by
  obtain ⟨_, out, ho, h⟩ :=
    near_zero_range_renders_dark (Mat.const 2 2 5) (Mat.const 2 2 3) (Mat.const 2 2 3) rfl rfl
  have h00 := h 0 0 (by norm_num [maxF, minF, Mat.max, Mat.min, Mat.zipWith, Mat.const, epsilon])
  exact ⟨h00.1, out, ho, h00.2⟩

/-- C7. No-op rescale: when the image samples are integers in `[0,255]`, the
min field is `0` and the max field is `255` at every pixel, the Rescaler
returns an image of the same size that equals the input sample for sample. -/
theorem noop_rescale (image minField maxField : Mat ℚ)
    (hmin : Mat.sameSize image minField = true) (hmax : Mat.sameSize image maxField = true)
    (himg : ∀ y x, y < image.rows → x < image.cols →
      ∃ n : ℤ, 0 ≤ n ∧ n ≤ 255 ∧ image.at_ y x = (n : ℚ))
    (h0 : ∀ y x, y < image.rows → x < image.cols → minField.at_ y x = 0)
    (h255 : ∀ y x, y < image.rows → x < image.cols → maxField.at_ y x = 255) :
    ∃ out, rescaleImageWithFields image minField maxField = some out
      ∧ out.rows = image.rows ∧ out.cols = image.cols
      ∧ ∀ y x, y < image.rows → x < image.cols → (out.at_ y x : ℚ) = image.at_ y x := by
  refine ⟨_, rescale_eq_some hmin hmax, rfl, rfl, ?_⟩
  intro y x hy hx
  obtain ⟨n, hn0, hn1, hn⟩ := himg y x hy hx
  have hn0q : (0 : ℚ) ≤ (n : ℚ) := by exact_mod_cast hn0
  have hn1q : (n : ℚ) ≤ 255 := by exact_mod_cast hn1
  have e1 : (minF minField maxField).at_ y x = 0 := by
    rw [minF_at, h0 y x hy hx, h255 y x hy hx]; norm_num
  have e2 : (maxF minField maxField).at_ y x = 255 := by
    rw [maxF_at, h0 y x hy hx, h255 y x hy hx]; norm_num
  have e3 : (clipped image minField maxField).at_ y x = (n : ℚ) := by
    rw [clipped_at, e1, e2, hn, max_eq_left hn0q, min_eq_left hn1q]
  have e4 : (denom minField maxField).at_ y x = 255 := by
    rw [denom_at, e1, e2]; norm_num [epsilon]
  have e5 : (normalized image minField maxField).at_ y x = (n : ℚ) := by
    rw [normalized_at, e1, e3, e4]; ring
  rw [convertTo8U_at, e5, cvRound_intCast, saturate_cast_of_range hn0 hn1, hn]

/-- C7, at a concrete input: a 2x2 image of value 200. -/
theorem noop_rescale_witness :
    ∃ out, rescaleImageWithFields (Mat.const 2 2 200) (Mat.const 2 2 0) (Mat.const 2 2 255)
        = some out
      ∧ out.rows = 2 ∧ out.cols = 2
      ∧ ∀ y x, y < 2 → x < 2 → (out.at_ y x : ℚ) = 200 :=
  noop_rescale (Mat.const 2 2 200) (Mat.const 2 2 0) (Mat.const 2 2 255) rfl rfl
    (fun _ _ _ _ => ⟨200, by norm_num, by norm_num, by norm_num [Mat.const]⟩)
    (fun _ _ _ _ => rfl) (fun _ _ _ _ => rfl)

/-! ## Facts about the pipeline -/

theorem localExtremaSuppression_max (g : Mat ℚ) (d : ℤ) (t : ℚ) :
    localExtremaSuppression g d t "max" = some (suppressed g d t "max") := by
  simp [localExtremaSuppression]

theorem localExtremaSuppression_min (g : Mat ℚ) (d : ℤ) (t : ℚ) :
    localExtremaSuppression g d t "min" = some (suppressed g d t "min") := by
  simp [localExtremaSuppression]

theorem messagePassing_increase (g : Mat ℚ) :
    messagePassing g "increase" = some (passed g "increase") := by
  simp [messagePassing]

theorem messagePassing_decrease (g : Mat ℚ) :
    messagePassing g "decrease" = some (passed g "decrease") := by
  simp [messagePassing]

theorem diffuse_some (n : Nat) (minGrid maxGrid : Mat ℚ) :
    ∃ a b, diffuse n (minGrid, maxGrid) = some (a, b)
      ∧ messagePassingN "decrease" n minGrid = some a
      ∧ messagePassingN "increase" n maxGrid = some b := by
  induction n generalizing minGrid maxGrid with
  | zero => exact ⟨minGrid, maxGrid, rfl, rfl, rfl⟩
  | succ n ih =>
    obtain ⟨a, b, h, ha, hb⟩ := ih (passed minGrid "decrease") (passed maxGrid "increase")
    refine ⟨a, b, ?_, ?_, ?_⟩
    · simp [diffuse, messagePassing_decrease, messagePassing_increase, h]
    · simp [messagePassingN, messagePassing_decrease, ha]
    · simp [messagePassingN, messagePassing_increase, hb]

theorem rawFields_some (P : Primitives) (self : Fieldscale) (input : Mat ℚ) :
    ∃ raw, rawFields P self input = some raw
      ∧ Mat.sameSize input raw.1 = true ∧ Mat.sameSize input raw.2 = true := by
  obtain ⟨a, b, h, -, -⟩ := diffuse_some self.iterations_.toNat (gridwiseMin input 8 8)
    (suppressed (suppressed (gridwiseMax input 8 8) 2 self.maxDiff_ "max") 2 self.minDiff_ "min")
  refine ⟨(resize P a input.rows input.cols, resize P b input.rows input.cols), ?_, ?_, ?_⟩
  · simp [rawFields, localExtremaSuppression_max, localExtremaSuppression_min, h]
  · simp [Mat.sameSize, resize]
  · simp [Mat.sameSize, resize]

theorem blend_sameSize {field prev out : Mat ℚ} (h : blend field prev = some out) :
    out.rows = field.rows ∧ out.cols = field.cols := by
  unfold blend at h
  split_ifs at h
  cases h
  exact ⟨rfl, rfl⟩

theorem blendedFields_sameSize {self : Fieldscale} {raw fields : Mat ℚ × Mat ℚ}
    (h : blendedFields self raw = some fields) :
    fields.1.rows = raw.1.rows ∧ fields.1.cols = raw.1.cols
      ∧ fields.2.rows = raw.2.rows ∧ fields.2.cols = raw.2.cols := by
  unfold blendedFields at h
  split_ifs at h
  · cases h1 : blend raw.1 self.prevMinField_ with
    | none => simp [h1] at h
    | some a =>
      cases h2 : blend raw.2 self.prevMaxField_ with
      | none => simp [h1, h2] at h
      | some b =>
        simp [h1, h2] at h
        subst h
        exact ⟨(blend_sameSize h1).1, (blend_sameSize h1).2, (blend_sameSize h2).1,
          (blend_sameSize h2).2⟩
  · cases h
    exact ⟨rfl, rfl, rfl, rfl⟩

theorem convertTo8U_range (m : Mat ℚ) (y x : Nat) :
    0 ≤ (convertTo8U m).at_ y x ∧ (convertTo8U m).at_ y x ≤ 255 :=
  saturate_cast_range _

theorem finish_range (P : Primitives)
    (hclahe : ∀ m : Mat ℤ, (∀ y x, 0 ≤ m.at_ y x ∧ m.at_ y x ≤ 255) →
      ∀ y x, 0 ≤ P.clahe m y x ∧ P.clahe m y x ≤ 255)
    (self : Fieldscale) (input : Mat ℚ) (fields : Mat ℚ × Mat ℚ) (out : Mat ℤ)
    (h : finish P self input fields = some out) (y x : Nat) :
    0 ≤ out.at_ y x ∧ out.at_ y x ≤ 255 := by
  unfold finish at h
  cases hr : rescaleImageWithFields input fields.1 fields.2 with
  | none => simp [hr] at h
  | some r =>
    have hrr : ∀ y x, 0 ≤ r.at_ y x ∧ r.at_ y x ≤ 255 := by
      unfold rescaleImageWithFields at hr
      split_ifs at hr
      cases hr
      exact convertTo8U_range _
    have hg : ∀ y x, 0 ≤ (if self.gamma_ > 0 then gammaCorrect P self.gamma_ r else r).at_ y x
        ∧ (if self.gamma_ > 0 then gammaCorrect P self.gamma_ r else r).at_ y x ≤ 255 := by
      intro y x
      split_ifs
      · exact convertTo8U_range _ y x
      · exact hrr y x
    simp only [hr, Option.some_bind] at h
    cases h
    by_cases hc : self.clahe_ = true
    · rw [if_pos hc]
      exact hclahe _ hg y x
    · rw [if_neg hc]
      exact hg y x

theorem finish_some (P : Primitives) (self : Fieldscale) (input : Mat ℚ)
    (fields : Mat ℚ × Mat ℚ) (h1 : Mat.sameSize input fields.1 = true)
    (h2 : Mat.sameSize input fields.2 = true) :
    ∃ out, finish P self input fields = some out := by
  simp [finish, rescale_eq_some h1 h2]

theorem process_eq (P : Primitives) (self : Fieldscale) (input : Mat ℚ)
    (hin : input.empty = false) :
    process P self input
      = (rawFields P self input).bind fun raw =>
          (blendedFields self raw).bind fun fields =>
            (finish P self input fields).bind fun result =>
              some (result, { self with prevMinField_ := fields.1, prevMaxField_ := fields.2 }) := by
  simp [process, hin]

theorem blendedFields_some (self : Fieldscale) (raw : Mat ℚ × Mat ℚ)
    (h : self.video_ = false ∨ self.prevMinField_.empty = true
      ∨ (Mat.sameSize raw.1 self.prevMinField_ = true
          ∧ Mat.sameSize raw.2 self.prevMaxField_ = true)) :
    ∃ fields, blendedFields self raw = some fields := by
  unfold blendedFields
  split_ifs with hc
  · rcases h with h | h | ⟨h1, h2⟩
    · simp [h] at hc
    · simp [h] at hc
    · simp [blend, h1, h2]
  · exact ⟨raw, rfl⟩

theorem process_some (P : Primitives) (self : Fieldscale) (input : Mat ℚ)
    (hin : input.empty = false)
    (h : self.video_ = false ∨ self.prevMinField_.empty = true
      ∨ (Mat.sameSize input self.prevMinField_ = true
          ∧ Mat.sameSize input self.prevMaxField_ = true)) :
    ∃ out self1, process P self input = some (out, self1) := by
  obtain ⟨raw, hraw, hs1, hs2⟩ := rawFields_some P self input
  have hb : ∃ fields, blendedFields self raw = some fields := by
    apply blendedFields_some
    rcases h with h | h | ⟨h1, h2⟩
    · exact Or.inl h
    · exact Or.inr (Or.inl h)
    · refine Or.inr (Or.inr ⟨?_, ?_⟩)
      · simp only [Mat.sameSize, Bool.and_eq_true, beq_iff_eq] at *
        exact ⟨hs1.1.symm.trans h1.1, hs1.2.symm.trans h1.2⟩
      · simp only [Mat.sameSize, Bool.and_eq_true, beq_iff_eq] at *
        exact ⟨hs2.1.symm.trans h2.1, hs2.2.symm.trans h2.2⟩
  obtain ⟨fields, hf⟩ := hb
  obtain ⟨e1, e2, e3, e4⟩ := blendedFields_sameSize hf
  have hf1 : Mat.sameSize input fields.1 = true := by
    simp only [Mat.sameSize, Bool.and_eq_true, beq_iff_eq] at *
    exact ⟨hs1.1.trans e1.symm, hs1.2.trans e2.symm⟩
  have hf2 : Mat.sameSize input fields.2 = true := by
    simp only [Mat.sameSize, Bool.and_eq_true, beq_iff_eq] at *
    exact ⟨hs2.1.trans e3.symm, hs2.2.trans e4.symm⟩
  obtain ⟨out, ho⟩ := finish_some P self input fields hf1 hf2
  refine ⟨out, { self with prevMinField_ := fields.1, prevMaxField_ := fields.2 }, ?_⟩
  simp [process_eq P self input hin, hraw, hf, ho]

theorem process_range (P : Primitives)
    (hclahe : ∀ m : Mat ℤ, (∀ y x, 0 ≤ m.at_ y x ∧ m.at_ y x ≤ 255) →
      ∀ y x, 0 ≤ P.clahe m y x ∧ P.clahe m y x ≤ 255)
    (self : Fieldscale) (input : Mat ℚ) (out : Mat ℤ) (self1 : Fieldscale)
    (h : process P self input = some (out, self1)) (y x : Nat) :
    0 ≤ out.at_ y x ∧ out.at_ y x ≤ 255 := by
  unfold process at h
  split_ifs at h
  cases hraw : rawFields P self input with
  | none => simp [hraw] at h
  | some raw =>
    cases hf : blendedFields self raw with
    | none => simp [hraw, hf] at h
    | some fields =>
      cases ho : finish P self input fields with
      | none => simp [hraw, hf, ho] at h
      | some r =>
        simp [hraw, hf, ho] at h
        rw [← h.1]
        exact finish_range P hclahe self input fields r ho y x

/-! ## The range claim -/

/-- C1. Range property: the Rescaler, given fields of the size of the image,
returns an image whose samples are integers in `[0,255]`; every image
`process` returns has its samples in `[0,255]` for every configuration and
state, provided the CLAHE primitive maps 8-bit images to 8-bit images; and
`process` does return an image for a non-empty input whenever the stored
fields are not blended, are empty, or have the size of the input. -/
theorem range_property (P : Primitives)
    (hclahe : ∀ m : Mat ℤ, (∀ y x, 0 ≤ m.at_ y x ∧ m.at_ y x ≤ 255) →
      ∀ y x, 0 ≤ P.clahe m y x ∧ P.clahe m y x ≤ 255) :
    (∀ image minField maxField : Mat ℚ, Mat.sameSize image minField = true →
        Mat.sameSize image maxField = true →
        ∃ out, rescaleImageWithFields image minField maxField = some out
          ∧ ∀ y x, 0 ≤ out.at_ y x ∧ out.at_ y x ≤ 255)
      ∧ (∀ (self : Fieldscale) (input : Mat ℚ) (out : Mat ℤ) (self1 : Fieldscale),
          process P self input = some (out, self1) →
          ∀ y x, 0 ≤ out.at_ y x ∧ out.at_ y x ≤ 255)
      ∧ (∀ (self : Fieldscale) (input : Mat ℚ), input.empty = false →
          (self.video_ = false ∨ self.prevMinField_.empty = true
            ∨ (Mat.sameSize input self.prevMinField_ = true
                ∧ Mat.sameSize input self.prevMaxField_ = true)) →
          ∃ out self1, process P self input = some (out, self1)) :=
  ⟨fun _ _ _ h1 h2 => ⟨_, rescale_eq_some h1 h2, convertTo8U_range _⟩,
    fun self input out self1 h => process_range P hclahe self input out self1 h,
    fun self input hin h => process_some P self input hin h⟩

/-- C1, at a concrete input: the default configuration on an 8x8 image of
value 1000 with the sample primitives. -/
theorem range_property_witness :
    ∃ out self1,
      process samplePrimitives (new 400 400 7 (3 / 2) true false) (Mat.const 8 8 1000)
        = some (out, self1)
      ∧ ∀ y x, 0 ≤ out.at_ y x ∧ out.at_ y x ≤ 255 := by
  have hcl : ∀ m : Mat ℤ, (∀ y x, 0 ≤ m.at_ y x ∧ m.at_ y x ≤ 255) →
      ∀ y x, 0 ≤ samplePrimitives.clahe m y x ∧ samplePrimitives.clahe m y x ≤ 255 :=
    fun m hm y x => hm y x
  obtain ⟨out, self1, h⟩ :=
    (range_property samplePrimitives hcl).2.2 (new 400 400 7 (3 / 2) true false)
      (Mat.const 8 8 1000) rfl (Or.inl rfl)
  exact ⟨out, self1, h, (range_property samplePrimitives hcl).2.1 _ _ out self1 h⟩

/-! ## Diffusion never moves a cell the wrong way -/

theorem passCell_increase_ge (g : Mat ℚ) (y x : Nat) :
    g.at_ y x ≤ passCell g "increase" y x := by
  simp only [passCell]
  split_ifs with h1 h2
  · exact le_refl _
  · exact le_refl _
  · exact not_lt.mp h2

theorem passCell_decrease_le (g : Mat ℚ) (y x : Nat) :
    passCell g "decrease" y x ≤ g.at_ y x := by
  have hd : ¬ ("decrease" = "increase") := by decide
  simp only [passCell, hd, if_false]
  split_ifs with h1 h2
  · exact le_refl _
  · exact le_refl _
  · exact not_lt.mp h2

theorem passed_increase_ge (g : Mat ℚ) (y x : Nat) :
    g.at_ y x ≤ (passed g "increase").at_ y x := by
  simp only [passed]
  split_ifs
  · exact passCell_increase_ge g y x
  · exact le_refl _

theorem passed_decrease_le (g : Mat ℚ) (y x : Nat) :
    (passed g "decrease").at_ y x ≤ g.at_ y x := by
  simp only [passed]
  split_ifs
  · exact passCell_decrease_le g y x
  · exact le_refl _

theorem messagePassingN_increase_ge (n : Nat) (g : Mat ℚ) :
    ∃ gn, messagePassingN "increase" n g = some gn ∧ ∀ y x, g.at_ y x ≤ gn.at_ y x := by
  induction n generalizing g with
  | zero => exact ⟨g, rfl, fun _ _ => le_refl _⟩
  | succ n ih =>
    obtain ⟨gn, h, hle⟩ := ih (passed g "increase")
    refine ⟨gn, ?_, fun y x => le_trans (passed_increase_ge g y x) (hle y x)⟩
    simp [messagePassingN, messagePassing_increase, h]

theorem messagePassingN_decrease_le (n : Nat) (g : Mat ℚ) :
    ∃ gn, messagePassingN "decrease" n g = some gn ∧ ∀ y x, gn.at_ y x ≤ g.at_ y x := by
  induction n generalizing g with
  | zero => exact ⟨g, rfl, fun _ _ => le_refl _⟩
  | succ n ih =>
    obtain ⟨gn, h, hle⟩ := ih (passed g "decrease")
    refine ⟨gn, ?_, fun y x => le_trans (hle y x) (passed_decrease_le g y x)⟩
    simp [messagePassingN, messagePassing_decrease, h]

/-- C2. Diffusion monotonicity: one `increase` step returns a grid that is at
every cell at least the input, one `decrease` step a grid that is at every
cell at most the input; hence `n` successive `increase` steps never lower a
cell and `n` successive `decrease` steps never raise one. -/
theorem diffusion_monotonicity (g : Mat ℚ) :
    (∃ g1, messagePassing g "increase" = some g1 ∧ ∀ y x, g.at_ y x ≤ g1.at_ y x)
      ∧ (∃ g1, messagePassing g "decrease" = some g1 ∧ ∀ y x, g1.at_ y x ≤ g.at_ y x)
      ∧ (∀ n, ∃ gn, messagePassingN "increase" n g = some gn ∧ ∀ y x, g.at_ y x ≤ gn.at_ y x)
      ∧ (∀ n, ∃ gn, messagePassingN "decrease" n g = some gn ∧ ∀ y x, gn.at_ y x ≤ g.at_ y x) :=
  ⟨⟨_, messagePassing_increase g, passed_increase_ge g⟩,
    ⟨_, messagePassing_decrease g, passed_decrease_le g⟩,
    fun n => messagePassingN_increase_ge n g,
    fun n => messagePassingN_decrease_le n g⟩

/-! ## Facts about neighbourhoods -/

theorem mem_offsets (distance z : ℤ) :
    z ∈ offsets distance ↔ -distance ≤ z ∧ z ≤ distance := by
  simp only [offsets, List.mem_map, List.mem_range]
  constructor
  · rintro ⟨i, hi, rfl⟩
    omega
  · rintro ⟨h1, h2⟩
    exact ⟨(z + distance).toNat, by omega, by omega⟩

theorem mem_neighbors (g : Mat ℚ) (distance : ℤ) (y x : Nat) (v : ℚ) :
    v ∈ neighbors g distance y x
      ↔ ∃ ny nx, isNeighbor g distance y x ny nx ∧ g.at_ ny nx = v := by
  simp only [neighbors, List.mem_flatMap, List.mem_filterMap, mem_offsets, isNeighbor]
  constructor
  · rintro ⟨dy, hdy, dx, hdx, h⟩
    split_ifs at h with h1 h2
    · cases h
      refine ⟨((y : ℤ) + dy).toNat, ((x : ℤ) + dx).toNat, ⟨?_, ?_, ?_, ?_, ?_⟩, rfl⟩
      · omega
      · omega
      · rw [abs_le]; omega
      · rw [abs_le]; omega
      · omega
  · rintro ⟨ny, nx, ⟨h1, h2, h3, h4, h5⟩, rfl⟩
    rw [abs_le] at h3 h4
    refine ⟨(ny : ℤ) - y, by omega, (nx : ℤ) - x, by omega, ?_⟩
    have e1 : ¬((nx : ℤ) - x = 0 ∧ (ny : ℤ) - y = 0) := by omega
    have e2 : 0 ≤ (y : ℤ) + ((ny : ℤ) - y) ∧ (y : ℤ) + ((ny : ℤ) - y) < g.rows
        ∧ 0 ≤ (x : ℤ) + ((nx : ℤ) - x) ∧ (x : ℤ) + ((nx : ℤ) - x) < g.cols := by omega
    rw [if_neg e1, if_pos e2]
    have e3 : ((y : ℤ) + ((ny : ℤ) - y)).toNat = ny := by omega
    have e4 : ((x : ℤ) + ((nx : ℤ) - x)).toNat = nx := by omega
    simp only [e3, e4]

theorem foldl_max_spec (l : List ℚ) (v : ℚ) :
    (v ≤ l.foldl (fun best w => if best < w then w else best) v)
      ∧ (∀ w ∈ l, w ≤ l.foldl (fun best w => if best < w then w else best) v)
      ∧ (l.foldl (fun best w => if best < w then w else best) v = v
          ∨ l.foldl (fun best w => if best < w then w else best) v ∈ l) := by
  induction l generalizing v with
  | nil => simp
  | cons a l ih =>
    simp only [List.foldl_cons, List.mem_cons, forall_eq_or_imp]
    obtain ⟨h1, h2, h3⟩ := ih (if v < a then a else v)
    refine ⟨?_, ⟨?_, h2⟩, ?_⟩
    · refine le_trans ?_ h1
      split_ifs with h
      · exact h.le
      · exact le_refl _
    · refine le_trans ?_ h1
      split_ifs with h
      · exact le_refl _
      · exact not_lt.mp h
    · rcases h3 with h3 | h3
      · rw [h3]
        split_ifs with h
        · exact Or.inr (Or.inl rfl)
        · exact Or.inl rfl
      · exact Or.inr (Or.inr h3)

theorem foldl_min_spec (l : List ℚ) (v : ℚ) :
    (l.foldl (fun best w => if w < best then w else best) v ≤ v)
      ∧ (∀ w ∈ l, l.foldl (fun best w => if w < best then w else best) v ≤ w)
      ∧ (l.foldl (fun best w => if w < best then w else best) v = v
          ∨ l.foldl (fun best w => if w < best then w else best) v ∈ l) := by
  induction l generalizing v with
  | nil => simp
  | cons a l ih =>
    simp only [List.foldl_cons, List.mem_cons, forall_eq_or_imp]
    obtain ⟨h1, h2, h3⟩ := ih (if a < v then a else v)
    refine ⟨?_, ⟨?_, h2⟩, ?_⟩
    · refine le_trans h1 ?_
      split_ifs with h
      · exact h.le
      · exact le_refl _
    · refine le_trans h1 ?_
      split_ifs with h
      · exact le_refl _
      · exact not_lt.mp h
    · rcases h3 with h3 | h3
      · rw [h3]
        split_ifs with h
        · exact Or.inr (Or.inl rfl)
        · exact Or.inl rfl
      · exact Or.inr (Or.inr h3)

theorem max_element_mem {l : List ℚ} (hne : l ≠ []) : max_element l ∈ l := by
  cases l with
  | nil => exact absurd rfl hne
  | cons a l =>
    rcases (foldl_max_spec l a).2.2 with h | h
    · simp only [max_element, h, List.mem_cons, true_or]
    · exact List.mem_cons_of_mem a h

theorem le_max_element {l : List ℚ} {w : ℚ} (hw : w ∈ l) : w ≤ max_element l := by
  cases l with
  | nil => simp at hw
  | cons a l =>
    rcases List.mem_cons.mp hw with h | h
    · rw [h]; exact (foldl_max_spec l a).1
    · exact (foldl_max_spec l a).2.1 w h

theorem min_element_mem {l : List ℚ} (hne : l ≠ []) : min_element l ∈ l := by
  cases l with
  | nil => exact absurd rfl hne
  | cons a l =>
    rcases (foldl_min_spec l a).2.2 with h | h
    · simp only [min_element, h, List.mem_cons, true_or]
    · exact List.mem_cons_of_mem a h

theorem min_element_le {l : List ℚ} {w : ℚ} (hw : w ∈ l) : min_element l ≤ w := by
  cases l with
  | nil => simp at hw
  | cons a l =>
    rcases List.mem_cons.mp hw with h | h
    · rw [h]; exact (foldl_min_spec l a).1
    · exact (foldl_min_spec l a).2.1 w h

theorem max_element_le_iff {l : List ℚ} (hne : l ≠ []) (v : ℚ) :
    max_element l ≤ v ↔ ∀ w ∈ l, w ≤ v :=
  ⟨fun h _ hw => le_trans (le_max_element hw) h, fun h => h _ (max_element_mem hne)⟩

theorem neighbors_ne_nil_iff (g : Mat ℚ) (distance : ℤ) (y x : Nat) :
    neighbors g distance y x ≠ [] ↔ ∃ ny nx, isNeighbor g distance y x ny nx := by
  constructor
  · intro h
    obtain ⟨w, hw⟩ := List.exists_mem_of_ne_nil _ h
    obtain ⟨ny, nx, hn, -⟩ := (mem_neighbors g distance y x w).mp hw
    exact ⟨ny, nx, hn⟩
  · rintro ⟨ny, nx, hn⟩
    exact List.ne_nil_of_mem ((mem_neighbors g distance y x _).mpr ⟨ny, nx, hn, rfl⟩)

theorem exists_neighbor_of_size (g : Mat ℚ) (distance : ℤ) {y x : Nat}
    (hy : y < g.rows) (hx : x < g.cols) (hd : 1 ≤ distance)
    (hsize : 1 < g.rows ∨ 1 < g.cols) :
    ∃ ny nx, isNeighbor g distance y x ny nx := by
  rcases hsize with h | h
  · by_cases h0 : y = 0
    · refine ⟨1, x, h, hx, ?_, ?_, ?_⟩
      · rw [abs_le]; omega
      · rw [abs_le]; omega
      · omega
    · refine ⟨y - 1, x, by omega, hx, ?_, ?_, ?_⟩
      · rw [abs_le]; omega
      · rw [abs_le]; omega
      · omega
  · by_cases h0 : x = 0
    · refine ⟨y, 1, hy, h, ?_, ?_, ?_⟩
      · rw [abs_le]; omega
      · rw [abs_le]; omega
      · omega
    · refine ⟨y, x - 1, hy, by omega, ?_, ?_, ?_⟩
      · rw [abs_le]; omega
      · rw [abs_le]; omega
      · omega

/-! ## Uniform images -/

theorem mem_roi {img : Mat ℚ} {x0 y0 w h : Nat} {v : ℚ} (hv : v ∈ roi img x0 y0 w h) :
    ∃ dy dx, dy < h ∧ dx < w ∧ v = img.at_ (y0 + dy) (x0 + dx) := by
  simp only [roi, List.mem_flatMap, List.mem_map, List.mem_range] at hv
  obtain ⟨dy, hdy, dx, hdx, rfl⟩ := hv
  exact ⟨dy, dx, hdy, hdx, rfl⟩

theorem roi_ne_nil (img : Mat ℚ) (x0 y0 : Nat) {w h : Nat} (hw : 0 < w) (hh : 0 < h) :
    roi img x0 y0 w h ≠ [] := by
  have : img.at_ (y0 + 0) (x0 + 0) ∈ roi img x0 y0 w h := by
    simp only [roi, List.mem_flatMap, List.mem_map, List.mem_range]
    exact ⟨0, hh, 0, hw, rfl⟩
  exact List.ne_nil_of_mem this

theorem minVal_eq_min_element (l : List ℚ) : minVal l = min_element l := by
  cases l <;> rfl

theorem maxVal_eq_max_element (l : List ℚ) : maxVal l = max_element l := by
  cases l <;> rfl

theorem patch_in_bounds {n y dy : Nat} (hy : y < 8) (hdy : dy < n / 8) : y * (n / 8) + dy < n := by
  have h1 : 8 * (n / 8) ≤ n := Nat.mul_div_le n 8
  have h2 : y * (n / 8) + (n / 8) ≤ 8 * (n / 8) := by
    have : (y + 1) * (n / 8) ≤ 8 * (n / 8) := Nat.mul_le_mul_right _ (by omega)
    linarith
  omega

theorem roi_uniform {img : Mat ℚ} {c : ℚ}
    (himg : ∀ y x, y < img.rows → x < img.cols → img.at_ y x = c) {y x : Nat}
    (hy : y < 8) (hx : x < 8) :
    ∀ v ∈ roi img (x * (img.cols / 8)) (y * (img.rows / 8)) (img.cols / 8) (img.rows / 8),
      v = c := by
  intro v hv
  obtain ⟨dy, dx, hdy, hdx, rfl⟩ := mem_roi hv
  exact himg _ _ (patch_in_bounds hy hdy) (patch_in_bounds hx hdx)

theorem gridwiseMin_uniform {img : Mat ℚ} {c : ℚ} (hrows : 8 ≤ img.rows) (hcols : 8 ≤ img.cols)
    (himg : ∀ y x, y < img.rows → x < img.cols → img.at_ y x = c) {y x : Nat}
    (hy : y < 8) (hx : x < 8) : (gridwiseMin img 8 8).at_ y x = c := by
  have hne := roi_ne_nil img (x * (img.cols / 8)) (y * (img.rows / 8))
    (Nat.div_pos hcols (by norm_num)) (Nat.div_pos hrows (by norm_num))
  simp only [gridwiseMin, hy, hx, and_self, if_true, minVal_eq_min_element]
  exact roi_uniform himg hy hx _ (min_element_mem hne)

theorem gridwiseMax_uniform {img : Mat ℚ} {c : ℚ} (hrows : 8 ≤ img.rows) (hcols : 8 ≤ img.cols)
    (himg : ∀ y x, y < img.rows → x < img.cols → img.at_ y x = c) {y x : Nat}
    (hy : y < 8) (hx : x < 8) : (gridwiseMax img 8 8).at_ y x = c := by
  have hne := roi_ne_nil img (x * (img.cols / 8)) (y * (img.rows / 8))
    (Nat.div_pos hcols (by norm_num)) (Nat.div_pos hrows (by norm_num))
  simp only [gridwiseMax, hy, hx, and_self, if_true, maxVal_eq_max_element]
  exact roi_uniform himg hy hx _ (max_element_mem hne)

theorem neighbors_uniform {g : Mat ℚ} {c : ℚ}
    (hg : ∀ y x, y < g.rows → x < g.cols → g.at_ y x = c) (distance : ℤ) (y x : Nat) :
    ∀ w ∈ neighbors g distance y x, w = c := by
  intro w hw
  obtain ⟨ny, nx, ⟨h1, h2, -⟩, rfl⟩ := (mem_neighbors g distance y x w).mp hw
  exact hg ny nx h1 h2

/-! ## State carried between calls -/

theorem blend_at {field prev out : Mat ℚ} (h : blend field prev = some out) (y x : Nat) :
    out.at_ y x = 1 / 10 * field.at_ y x + 9 / 10 * prev.at_ y x := by
  unfold blend at h
  split_ifs at h
  cases h
  simp only [Mat.add, Mat.scale, Mat.zipWith, Mat.map]
  ring

theorem blend_some {field prev : Mat ℚ} (h : Mat.sameSize field prev = true) :
    ∃ out, blend field prev = some out := by
  simp [blend, h]

theorem blendedFields_first {self : Fieldscale} (h : self.prevMinField_.empty = true)
    (raw : Mat ℚ × Mat ℚ) : blendedFields self raw = some raw := by
  simp [blendedFields, h]

theorem blendedFields_off {self : Fieldscale} (h : self.video_ = false)
    (raw : Mat ℚ × Mat ℚ) : blendedFields self raw = some raw := by
  simp [blendedFields, h]

theorem blendedFields_later {self : Fieldscale} (hv : self.video_ = true)
    (h : self.prevMinField_.empty = false) {raw : Mat ℚ × Mat ℚ}
    (h1 : Mat.sameSize raw.1 self.prevMinField_ = true)
    (h2 : Mat.sameSize raw.2 self.prevMaxField_ = true) :
    ∃ fields, blendedFields self raw = some fields
      ∧ blend raw.1 self.prevMinField_ = some fields.1
      ∧ blend raw.2 self.prevMaxField_ = some fields.2 := by
  obtain ⟨a, ha⟩ := blend_some h1
  obtain ⟨b, hb⟩ := blend_some h2
  exact ⟨(a, b), by simp [blendedFields, hv, h, ha, hb], ha, hb⟩

theorem sameSize_symm_trans {a b c : Mat ℚ} (h1 : Mat.sameSize a b = true)
    (h2 : Mat.sameSize a c = true) : Mat.sameSize b c = true := by
  simp only [Mat.sameSize, Bool.and_eq_true, beq_iff_eq] at *
  exact ⟨h1.1.symm.trans h2.1, h1.2.symm.trans h2.2⟩

theorem process_of_fields (P : Primitives) (self : Fieldscale) (input : Mat ℚ)
    (hin : input.empty = false) {raw fields : Mat ℚ × Mat ℚ}
    (hraw : rawFields P self input = some raw)
    (hf : blendedFields self raw = some fields)
    (h1 : Mat.sameSize input fields.1 = true) (h2 : Mat.sameSize input fields.2 = true) :
    ∃ out, finish P self input fields = some out
      ∧ process P self input
          = some (out, { self with prevMinField_ := fields.1, prevMaxField_ := fields.2 }) := by
  obtain ⟨out, ho⟩ := finish_some P self input fields h1 h2
  exact ⟨out, ho, by simp [process_eq P self input hin, hraw, hf, ho]⟩

theorem process_state (P : Primitives) (self : Fieldscale) (input : Mat ℚ)
    {out : Mat ℤ} {self1 : Fieldscale} (h : process P self input = some (out, self1)) :
    input.empty = false
      ∧ ∃ raw fields, rawFields P self input = some raw
          ∧ blendedFields self raw = some fields
          ∧ finish P self input fields = some out
          ∧ self1 = { self with prevMinField_ := fields.1, prevMaxField_ := fields.2 } := by
  unfold process at h
  split_ifs at h with hin
  refine ⟨by simpa using hin, ?_⟩
  cases hraw : rawFields P self input with
  | none => simp [hraw] at h
  | some raw =>
    cases hf : blendedFields self raw with
    | none => simp [hraw, hf] at h
    | some fields =>
      cases ho : finish P self input fields with
      | none => simp [hraw, hf, ho] at h
      | some r =>
        simp [hraw, hf, ho] at h
        exact ⟨raw, fields, rfl, hf, by rw [ho, h.1], h.2.symm⟩

/-- C9. Temporal blend recurrence, for an instance with video mode enabled
and a non-empty frame.  On the first call (no stored field) the fields handed
to the Rescaler are the raw upsampled fields.  On a later call (stored fields
of the size of the frame) they are `0.1 * raw + 0.9 * stored` sample for
sample, for both fields.  In both cases `process` returns, and the instance
after the call stores exactly the fields that were handed to the Rescaler.
After any call that returns, video mode is still on and the stored fields
are non-empty and of the size of the frame, so the next frame of that size is
a later call blending against the fields used in this one. -/
theorem temporal_blend (P : Primitives) (self : Fieldscale) (input : Mat ℚ)
    (hvideo : self.video_ = true) (hin : input.empty = false) :
    (self.prevMinField_.empty = true →
        ∃ raw out, rawFields P self input = some raw
          ∧ blendedFields self raw = some raw
          ∧ finish P self input raw = some out
          ∧ process P self input
              = some (out, { self with prevMinField_ := raw.1, prevMaxField_ := raw.2 }))
      ∧ (self.prevMinField_.empty = false →
          Mat.sameSize input self.prevMinField_ = true →
          Mat.sameSize input self.prevMaxField_ = true →
          ∃ raw fields out, rawFields P self input = some raw
            ∧ blendedFields self raw = some fields
            ∧ (∀ y x, fields.1.at_ y x
                = 1 / 10 * raw.1.at_ y x + 9 / 10 * self.prevMinField_.at_ y x)
            ∧ (∀ y x, fields.2.at_ y x
                = 1 / 10 * raw.2.at_ y x + 9 / 10 * self.prevMaxField_.at_ y x)
            ∧ finish P self input fields = some out
            ∧ process P self input
                = some (out, { self with prevMinField_ := fields.1, prevMaxField_ := fields.2 }))
      ∧ (∀ out self1, process P self input = some (out, self1) →
          self1.video_ = true ∧ self1.prevMinField_.empty = false
            ∧ Mat.sameSize input self1.prevMinField_ = true
            ∧ Mat.sameSize input self1.prevMaxField_ = true) := by
  obtain ⟨raw, hraw, hs1, hs2⟩ := rawFields_some P self input
  refine ⟨?_, ?_, ?_⟩
  · intro hprev
    have hf := blendedFields_first hprev raw
    obtain ⟨out, ho, hp⟩ := process_of_fields P self input hin hraw hf hs1 hs2
    exact ⟨raw, out, hraw, hf, ho, hp⟩
  · intro hprev h1 h2
    obtain ⟨fields, hf, hb1, hb2⟩ := blendedFields_later hvideo hprev
      (sameSize_symm_trans hs1 h1) (sameSize_symm_trans hs2 h2)
    obtain ⟨e1, e2, e3, e4⟩ := blendedFields_sameSize hf
    have hf1 : Mat.sameSize input fields.1 = true := by
      simp only [Mat.sameSize, Bool.and_eq_true, beq_iff_eq] at *
      exact ⟨hs1.1.trans e1.symm, hs1.2.trans e2.symm⟩
    have hf2 : Mat.sameSize input fields.2 = true := by
      simp only [Mat.sameSize, Bool.and_eq_true, beq_iff_eq] at *
      exact ⟨hs2.1.trans e3.symm, hs2.2.trans e4.symm⟩
    obtain ⟨out, ho, hp⟩ := process_of_fields P self input hin hraw hf hf1 hf2
    exact ⟨raw, fields, out, hraw, hf, blend_at hb1, blend_at hb2, ho, hp⟩
  · intro out self1 hp
    obtain ⟨-, raw1, fields, hraw1, hf, -, rfl⟩ := process_state P self input hp
    rw [hraw] at hraw1
    cases hraw1
    obtain ⟨e1, e2, e3, e4⟩ := blendedFields_sameSize hf
    simp only [Mat.sameSize, Mat.empty, Bool.and_eq_true, beq_iff_eq, beq_eq_false_iff_ne,
      ne_eq, Nat.mul_eq_zero, not_or] at *
    exact ⟨hvideo, ⟨by omega, by omega⟩, ⟨by omega, by omega⟩, ⟨by omega, by omega⟩⟩

/-- C9, at a concrete input: two 8x8 frames fed to a fresh instance with
video mode on; the second call blends against the fields stored by the first. -/
theorem temporal_blend_witness :
    ∃ raw1 out1 self1 raw2 out2 self2,
      rawFields samplePrimitives (new 400 400 7 (3 / 2) true true) (Mat.const 8 8 1000)
          = some raw1
        ∧ process samplePrimitives (new 400 400 7 (3 / 2) true true) (Mat.const 8 8 1000)
          = some (out1, self1)
        ∧ self1.prevMinField_ = raw1.1 ∧ self1.prevMaxField_ = raw1.2
        ∧ rawFields samplePrimitives self1 (Mat.const 8 8 2000) = some raw2
        ∧ process samplePrimitives self1 (Mat.const 8 8 2000) = some (out2, self2)
        ∧ (∀ y x, self2.prevMinField_.at_ y x
            = 1 / 10 * raw2.1.at_ y x + 9 / 10 * self1.prevMinField_.at_ y x)
        ∧ (∀ y x, self2.prevMaxField_.at_ y x
            = 1 / 10 * raw2.2.at_ y x + 9 / 10 * self1.prevMaxField_.at_ y x) := by
  obtain ⟨raw1, out1, hraw1, -, -, hp1⟩ :=
    (temporal_blend samplePrimitives (new 400 400 7 (3 / 2) true true) (Mat.const 8 8 1000)
      rfl rfl).1 rfl
  obtain ⟨hv, hne, hs1, hs2⟩ :=
    (temporal_blend samplePrimitives (new 400 400 7 (3 / 2) true true) (Mat.const 8 8 1000)
      rfl rfl).2.2 _ _ hp1
  obtain ⟨raw2, fields, out2, hraw2, -, hb1, hb2, -, hp2⟩ :=
    (temporal_blend samplePrimitives _ (Mat.const 8 8 2000) hv rfl).2.1 hne hs1 hs2
  exact ⟨raw1, out1, _, raw2, out2, _, hraw1, hp1, rfl, rfl, hraw2, hp2, hb1, hb2⟩

/-- C10. Non-video pipelines carry no cross-call state: with video mode off,
for a non-empty input and any two stored states (empty or fields of any
size), `process` returns an image, and it returns the same image from both
states. -/
theorem no_cross_call_state (P : Primitives) (self : Fieldscale) (input : Mat ℚ)
    (hvideo : self.video_ = false) (hin : input.empty = false)
    (prevMin1 prevMax1 prevMin2 prevMax2 : Mat ℚ) :
    ∃ out self1 self2,
      process P { self with prevMinField_ := prevMin1, prevMaxField_ := prevMax1 } input
          = some (out, self1)
        ∧ process P { self with prevMinField_ := prevMin2, prevMaxField_ := prevMax2 } input
          = some (out, self2) := by
  obtain ⟨raw, hraw, hs1, hs2⟩ := rawFields_some P self input
  have hraw1 : rawFields P { self with prevMinField_ := prevMin1, prevMaxField_ := prevMax1 }
      input = some raw := hraw
  have hraw2 : rawFields P { self with prevMinField_ := prevMin2, prevMaxField_ := prevMax2 }
      input = some raw := hraw
  obtain ⟨out1, ho1, hp1⟩ := process_of_fields P _ input hin hraw1
    (blendedFields_off (by exact hvideo) raw) hs1 hs2
  obtain ⟨out2, ho2, hp2⟩ := process_of_fields P _ input hin hraw2
    (blendedFields_off (by exact hvideo) raw) hs1 hs2
  have : out1 = out2 := by
    have e : finish P { self with prevMinField_ := prevMin1, prevMaxField_ := prevMax1 } input raw
        = finish P { self with prevMinField_ := prevMin2, prevMaxField_ := prevMax2 } input raw :=
      rfl
    rw [ho1, ho2] at e
    exact Option.some.inj e
  subst this
  exact ⟨out1, _, _, hp1, hp2⟩

/-- C10, at a concrete input: the default configuration on an 8x8 frame, once
from the fresh state and once with stored fields of sizes 3x3 and 2x7. -/
theorem no_cross_call_state_witness :
    ∃ out self1 self2,
      process samplePrimitives (new 400 400 7 (3 / 2) true false) (Mat.const 8 8 1000)
          = some (out, self1)
        ∧ process samplePrimitives
            { new 400 400 7 (3 / 2) true false with
              prevMinField_ := Mat.const 3 3 5, prevMaxField_ := Mat.const 2 7 9 }
            (Mat.const 8 8 1000)
          = some (out, self2) :=
  no_cross_call_state samplePrimitives (new 400 400 7 (3 / 2) true false) (Mat.const 8 8 1000)
    rfl rfl Mat.nil Mat.nil (Mat.const 3 3 5) (Mat.const 2 7 9)

/-! ## Grid statistics -/

theorem mem_roi_of_lt (img : Mat ℚ) (x0 y0 : Nat) {w h dy dx : Nat} (hdy : dy < h)
    (hdx : dx < w) : img.at_ (y0 + dy) (x0 + dx) ∈ roi img x0 y0 w h := by
  simp only [roi, List.mem_flatMap, List.mem_map, List.mem_range]
  exact ⟨dy, hdy, dx, hdx, rfl⟩

theorem roi_congr {img1 img2 : Mat ℚ} {x0 y0 w h : Nat}
    (hag : ∀ dy dx, dy < h → dx < w → img1.at_ (y0 + dy) (x0 + dx) = img2.at_ (y0 + dy) (x0 + dx)) :
    roi img1 x0 y0 w h = roi img2 x0 y0 w h := by
  unfold roi
  apply List.flatMap_congr
  intro dy hdy
  apply List.map_congr_left
  intro dx hdx
  exact hag dy dx (List.mem_range.mp hdy) (List.mem_range.mp hdx)

theorem cell_patch_le {g p n i : Nat} (hi : i < g) (hp : p = n / g) : (i + 1) * p ≤ n := by
  have h1 : g * (n / g) ≤ n := Nat.mul_div_le n g
  have h2 : (i + 1) * (n / g) ≤ g * (n / g) := Nat.mul_le_mul_right _ (by omega)
  rw [hp]
  omega

theorem minVal_le_of_mem {l : List ℚ} {w : ℚ} (hw : w ∈ l) : minVal l ≤ w := by
  rw [minVal_eq_min_element]
  exact min_element_le hw

theorem le_maxVal_of_mem {l : List ℚ} {w : ℚ} (hw : w ∈ l) : w ≤ maxVal l := by
  rw [maxVal_eq_max_element]
  exact le_max_element hw

theorem minVal_mem {l : List ℚ} (hne : l ≠ []) : minVal l ∈ l := by
  rw [minVal_eq_min_element]
  exact min_element_mem hne

theorem maxVal_mem {l : List ℚ} (hne : l ≠ []) : maxVal l ∈ l := by
  rw [maxVal_eq_max_element]
  exact max_element_mem hne

theorem gridwiseMin_at (img : Mat ℚ) {gridW gridH gy gx : Nat} (hy : gy < gridH)
    (hx : gx < gridW) :
    (gridwiseMin img gridW gridH).at_ gy gx
      = minVal (roi img (gx * (img.cols / gridW)) (gy * (img.rows / gridH))
          (img.cols / gridW) (img.rows / gridH)) := by
  simp [gridwiseMin, hy, hx]

theorem gridwiseMax_at (img : Mat ℚ) {gridW gridH gy gx : Nat} (hy : gy < gridH)
    (hx : gx < gridW) :
    (gridwiseMax img gridW gridH).at_ gy gx
      = maxVal (roi img (gx * (img.cols / gridW)) (gy * (img.rows / gridH))
          (img.cols / gridW) (img.rows / gridH)) := by
  simp [gridwiseMax, hy, hx]

theorem patch_offset {p i y : Nat} (h1 : i * p ≤ y) (h2 : y < (i + 1) * p) :
    ∃ d, d < p ∧ y = i * p + d := by
  refine ⟨y - i * p, ?_, by omega⟩
  have : (i + 1) * p = i * p + p := by ring
  omega

theorem inPatch_bounds {img : Mat ℚ} {gridW gridH gy gx y x : Nat} (hy : gy < gridH)
    (hx : gx < gridW) (h : inPatch img gridW gridH gy gx y x) :
    y < img.rows ∧ x < img.cols :=
  ⟨lt_of_lt_of_le h.2.1 (cell_patch_le hy rfl), lt_of_lt_of_le h.2.2.2 (cell_patch_le hx rfl)⟩

theorem inPatch_mem_roi {img : Mat ℚ} {gridW gridH gy gx y x : Nat}
    (h : inPatch img gridW gridH gy gx y x) :
    img.at_ y x ∈ roi img (gx * (img.cols / gridW)) (gy * (img.rows / gridH))
      (img.cols / gridW) (img.rows / gridH) := by
  obtain ⟨dy, hdy, rfl⟩ := patch_offset h.1 h.2.1
  obtain ⟨dx, hdx, rfl⟩ := patch_offset h.2.2.1 h.2.2.2
  exact mem_roi_of_lt img _ _ hdy hdx

theorem mem_roi_inPatch {img : Mat ℚ} {gridW gridH gy gx : Nat} {v : ℚ}
    (hv : v ∈ roi img (gx * (img.cols / gridW)) (gy * (img.rows / gridH))
      (img.cols / gridW) (img.rows / gridH)) :
    ∃ y x, inPatch img gridW gridH gy gx y x ∧ v = img.at_ y x := by
  obtain ⟨dy, dx, hdy, hdx, rfl⟩ := mem_roi hv
  refine ⟨_, _, ⟨by omega, ?_, by omega, ?_⟩, rfl⟩
  · have : (gy + 1) * (img.rows / gridH) = gy * (img.rows / gridH) + img.rows / gridH := by ring
    omega
  · have : (gx + 1) * (img.cols / gridW) = gx * (img.cols / gridW) + img.cols / gridW := by ring
    omega

/-- C11. GridStatistics correctness: for `gridW > 0`, `gridH > 0`, `W ≥ gridW`
and `H ≥ gridH`, `gridwiseMin` and `gridwiseMax` return grids with `gridH` rows
and `gridW` columns; every pixel of the patch of a cell lies inside the
image; the min cell is at most every sample of its patch and equals one of
them, the max cell is at least every sample of its patch and equals one of
them; and the min cell is at most the max cell. -/
theorem grid_statistics (img : Mat ℚ) (gridW gridH : Nat) (hW : 0 < gridW) (hH : 0 < gridH)
    (hcols : gridW ≤ img.cols) (hrows : gridH ≤ img.rows) :
    ((gridwiseMin img gridW gridH).rows = gridH ∧ (gridwiseMin img gridW gridH).cols = gridW)
      ∧ ((gridwiseMax img gridW gridH).rows = gridH
          ∧ (gridwiseMax img gridW gridH).cols = gridW)
      ∧ ∀ gy gx, gy < gridH → gx < gridW →
          (∀ y x, inPatch img gridW gridH gy gx y x →
              y < img.rows ∧ x < img.cols
                ∧ (gridwiseMin img gridW gridH).at_ gy gx ≤ img.at_ y x
                ∧ img.at_ y x ≤ (gridwiseMax img gridW gridH).at_ gy gx)
            ∧ (∃ y x, inPatch img gridW gridH gy gx y x
                ∧ (gridwiseMin img gridW gridH).at_ gy gx = img.at_ y x)
            ∧ (∃ y x, inPatch img gridW gridH gy gx y x
                ∧ (gridwiseMax img gridW gridH).at_ gy gx = img.at_ y x)
            ∧ (gridwiseMin img gridW gridH).at_ gy gx
                ≤ (gridwiseMax img gridW gridH).at_ gy gx := by
  refine ⟨⟨rfl, rfl⟩, ⟨rfl, rfl⟩, ?_⟩
  intro gy gx hy hx
  have hne := roi_ne_nil img (gx * (img.cols / gridW)) (gy * (img.rows / gridH))
    (Nat.div_pos hcols hW) (Nat.div_pos hrows hH)
  rw [gridwiseMin_at img hy hx, gridwiseMax_at img hy hx]
  refine ⟨?_, ?_, ?_, ?_⟩
  · intro y x hp
    have hb := inPatch_bounds hy hx hp
    exact ⟨hb.1, hb.2, minVal_le_of_mem (inPatch_mem_roi hp),
      le_maxVal_of_mem (inPatch_mem_roi hp)⟩
  · exact mem_roi_inPatch (minVal_mem hne)
  · exact mem_roi_inPatch (maxVal_mem hne)
  · exact le_trans (minVal_le_of_mem (minVal_mem hne)) (le_maxVal_of_mem (minVal_mem hne))

/-- C11, at a concrete input: the 4x6 ramp image on a grid of 2 columns and 2
rows (patches of 3 columns and 2 rows); the cell `(1, 1)` covers the samples
15, 16, 17, 21, 22, 23. -/
theorem grid_statistics_witness :
    (gridwiseMin rampImage 2 2).rows = 2 ∧ (gridwiseMin rampImage 2 2).cols = 2
      ∧ (gridwiseMin rampImage 2 2).at_ 1 1 ≤ rampImage.at_ 2 3
      ∧ rampImage.at_ 3 5 ≤ (gridwiseMax rampImage 2 2).at_ 1 1
      ∧ (gridwiseMin rampImage 2 2).at_ 1 1 ≤ (gridwiseMax rampImage 2 2).at_ 1 1 := by
  have h := grid_statistics rampImage 2 2 (by decide) (by decide) (by decide) (by decide)
  have h11 := h.2.2 1 1 (by decide) (by decide)
  exact ⟨h.1.1, h.1.2, (h11.1 2 3 (by decide)).2.2.1, (h11.1 3 5 (by decide)).2.2.2,
    h11.2.2.2⟩

theorem roi_agree {img1 img2 : Mat ℚ} {gridW gridH gy gx : Nat}
    (hr : img1.rows = img2.rows) (hc : img1.cols = img2.cols)
    (hag : ∀ y x, y < img1.rows / gridH * gridH → x < img1.cols / gridW * gridW →
      img1.at_ y x = img2.at_ y x) (hy : gy < gridH) (hx : gx < gridW) :
    roi img1 (gx * (img1.cols / gridW)) (gy * (img1.rows / gridH))
        (img1.cols / gridW) (img1.rows / gridH)
      = roi img2 (gx * (img2.cols / gridW)) (gy * (img2.rows / gridH))
        (img2.cols / gridW) (img2.rows / gridH) := by
  rw [← hr, ← hc]
  apply roi_congr
  intro dy dx hdy hdx
  apply hag
  · have h1 : (gy + 1) * (img1.rows / gridH) ≤ img1.rows / gridH * gridH := by
      rw [mul_comm (img1.rows / gridH)]
      exact Nat.mul_le_mul_right _ (by omega)
    have h2 : (gy + 1) * (img1.rows / gridH)
        = gy * (img1.rows / gridH) + img1.rows / gridH := by ring
    omega
  · have h1 : (gx + 1) * (img1.cols / gridW) ≤ img1.cols / gridW * gridW := by
      rw [mul_comm (img1.cols / gridW)]
      exact Nat.mul_le_mul_right _ (by omega)
    have h2 : (gx + 1) * (img1.cols / gridW)
        = gx * (img1.cols / gridW) + img1.cols / gridW := by ring
    omega

/-- C12. Remainder pixels are excluded: two images of one size that agree on
every pixel with `y < floor (H / gridH) * gridH` and
`x < floor (W / gridW) * gridW` get the same grid from `gridwiseMin` and the
same grid from `gridwiseMax`, however they differ on the remaining right and
bottom pixels. -/
theorem remainder_excluded (img1 img2 : Mat ℚ) (gridW gridH : Nat)
    (hr : img1.rows = img2.rows) (hc : img1.cols = img2.cols)
    (hag : ∀ y x, y < img1.rows / gridH * gridH → x < img1.cols / gridW * gridW →
      img1.at_ y x = img2.at_ y x) :
    gridwiseMin img1 gridW gridH = gridwiseMin img2 gridW gridH
      ∧ gridwiseMax img1 gridW gridH = gridwiseMax img2 gridW gridH := by
  constructor
  · simp only [gridwiseMin, Mat.mk.injEq, true_and]
    funext y x
    split_ifs with hb
    · rw [roi_agree hr hc hag hb.1 hb.2]
    · rfl
  · simp only [gridwiseMax, Mat.mk.injEq, true_and]
    funext y x
    split_ifs with hb
    · rw [roi_agree hr hc hag hb.1 hb.2]
    · rfl

/-- C12, at a concrete input: on a grid of 2 columns and 2 rows the 5x5 image
of value 1 and the 5x5 image that holds 7 in its last row and column (which
no patch covers) get the same grids. -/
theorem remainder_excluded_witness :
    fringeImage.at_ 4 4 ≠ (Mat.const 5 5 1).at_ 4 4
      ∧ gridwiseMin fringeImage 2 2 = gridwiseMin (Mat.const 5 5 1) 2 2
      ∧ gridwiseMax fringeImage 2 2 = gridwiseMax (Mat.const 5 5 1) 2 2 := by
  refine ⟨by norm_num [fringeImage, Mat.const], ?_⟩
  apply remainder_excluded fringeImage (Mat.const 5 5 1) 2 2 rfl rfl
  intro y x hy hx
  have hy4 : y < 4 := hy
  have hx4 : x < 4 := hx
  have h : ¬(y = 4 ∨ x = 4) := by omega
  simp only [fringeImage, Mat.const, if_neg h]

/-! ## Failing preconditions -/

theorem localExtremaSuppression_none_iff (g : Mat ℚ) (d : ℤ) (t : ℚ) (extrema : String) :
    localExtremaSuppression g d t extrema = none ↔ ¬(extrema = "max" ∨ extrema = "min") := by
  unfold localExtremaSuppression
  split_ifs with h
  · simp [h]
  · simp [h]

theorem messagePassing_none_iff (g : Mat ℚ) (direction : String) :
    messagePassing g direction = none
      ↔ ¬(direction = "increase" ∨ direction = "decrease") := by
  unfold messagePassing
  split_ifs with h
  · simp [h]
  · simp [h]

theorem rescale_none_iff (image minField maxField : Mat ℚ) :
    rescaleImageWithFields image minField maxField = none
      ↔ ¬(image.rows = minField.rows ∧ image.cols = minField.cols)
          ∨ ¬(image.rows = maxField.rows ∧ image.cols = maxField.cols) := by
  unfold rescaleImageWithFields
  split_ifs with h
  · simp only [Mat.sameSize, Bool.and_eq_true, beq_iff_eq] at h
    constructor
    · intro hc
      cases hc
    · rintro (hc | hc)
      · exact absurd h.1 hc
      · exact absurd h.2 hc
  · simp only [Mat.sameSize, Bool.and_eq_true, beq_iff_eq] at h
    simp only [true_iff]
    by_contra hc
    push_neg at hc
    exact h ⟨hc.1, hc.2⟩

/-- C13. Precondition violations fail: `localExtremaSuppression` returns no
grid exactly when its mode is neither `max` nor `min`; `messagePassing`
returns no grid exactly when its direction is neither `increase` nor
`decrease`; `rescaleImageWithFields` returns no image exactly when the size of
`minField` or of `maxField` differs from the size of the image; and `process`
returns nothing on an empty input. -/
theorem precondition_violations :
    (∀ (g : Mat ℚ) (d : ℤ) (t : ℚ) (extrema : String),
        localExtremaSuppression g d t extrema = none
          ↔ ¬(extrema = "max" ∨ extrema = "min"))
      ∧ (∀ (g : Mat ℚ) (direction : String),
          messagePassing g direction = none
            ↔ ¬(direction = "increase" ∨ direction = "decrease"))
      ∧ (∀ image minField maxField : Mat ℚ,
          rescaleImageWithFields image minField maxField = none
            ↔ ¬(image.rows = minField.rows ∧ image.cols = minField.cols)
                ∨ ¬(image.rows = maxField.rows ∧ image.cols = maxField.cols))
      ∧ (∀ (P : Primitives) (self : Fieldscale) (input : Mat ℚ),
          input.empty = true → process P self input = none) :=
  ⟨localExtremaSuppression_none_iff, messagePassing_none_iff, rescale_none_iff,
    fun P self input h => by simp [process, h]⟩

/-! ## Composition of the pipeline -/

/-- C14. Pipeline composition: the min grid that `process` upsamples is
`gridwiseMin` of the input on the 8x8 grid after `iterations_` steps of
`messagePassing` in `decrease` direction, with no suppression; the max grid
it upsamples is `gridwiseMax` of the input after suppression in `max` mode
with `maxDiff_` and radius 2, then suppression in `min` mode with `minDiff_`
and radius 2, then `iterations_` steps of `messagePassing` in `increase`
direction; with `iterations_ ≤ 0` no step is applied; and whenever `process`
returns, its image comes from the fields obtained from these two upsampled
grids. -/
theorem pipeline_composition (P : Primitives) (self : Fieldscale) (input : Mat ℚ) :
    ∃ s1 s2 a b,
      localExtremaSuppression (gridwiseMax input 8 8) 2 self.maxDiff_ "max" = some s1
        ∧ localExtremaSuppression s1 2 self.minDiff_ "min" = some s2
        ∧ messagePassingN "decrease" self.iterations_.toNat (gridwiseMin input 8 8) = some a
        ∧ messagePassingN "increase" self.iterations_.toNat s2 = some b
        ∧ rawFields P self input
            = some (resize P a input.rows input.cols, resize P b input.rows input.cols)
        ∧ (self.iterations_ ≤ 0 → a = gridwiseMin input 8 8 ∧ b = s2)
        ∧ (∀ out self1, process P self input = some (out, self1) →
            ∃ fields,
              blendedFields self
                  (resize P a input.rows input.cols, resize P b input.rows input.cols)
                = some fields
              ∧ finish P self input fields = some out
              ∧ self1.prevMinField_ = fields.1 ∧ self1.prevMaxField_ = fields.2) := by
  obtain ⟨a, b, hd, ha, hb⟩ := diffuse_some self.iterations_.toNat (gridwiseMin input 8 8)
    (suppressed (suppressed (gridwiseMax input 8 8) 2 self.maxDiff_ "max") 2 self.minDiff_ "min")
  have hraw : rawFields P self input
      = some (resize P a input.rows input.cols, resize P b input.rows input.cols) := by
    simp [rawFields, localExtremaSuppression_max, localExtremaSuppression_min, hd]
  refine ⟨_, _, a, b, localExtremaSuppression_max _ _ _, localExtremaSuppression_min _ _ _,
    ha, hb, hraw, ?_, ?_⟩
  · intro hle
    have h0 : self.iterations_.toNat = 0 := by omega
    rw [h0] at ha hb
    simp only [messagePassingN, Option.some.injEq] at ha hb
    exact ⟨ha.symm, hb.symm⟩
  · intro out self1 hp
    obtain ⟨-, raw, fields, hraw1, hf, ho, rfl⟩ := process_state P self input hp
    rw [hraw] at hraw1
    cases hraw1
    exact ⟨fields, hf, ho, rfl, rfl⟩

/-! ## The neighbour vector as a set of cells -/

theorem neighbors_eq_map (g : Mat ℚ) (distance : ℤ) (y x : Nat) :
    neighbors g distance y x
      = (neighborCells g distance y x).map fun p => g.at_ p.1 p.2 := by
  simp only [neighbors, neighborCells, List.map_flatMap, List.map_filterMap]
  apply List.flatMap_congr
  intro dy _
  congr 1
  funext dx
  split_ifs <;> rfl

theorem mem_neighborCells (g : Mat ℚ) (distance : ℤ) (y x : Nat) (p : Nat × Nat) :
    p ∈ neighborCells g distance y x ↔ isNeighbor g distance y x p.1 p.2 := by
  simp only [neighborCells, List.mem_flatMap, List.mem_filterMap, mem_offsets, isNeighbor]
  constructor
  · rintro ⟨dy, hdy, dx, hdx, h⟩
    split_ifs at h with h1 h2
    cases h
    refine ⟨?_, ?_, ?_, ?_, ?_⟩
    · show ((y : ℤ) + dy).toNat < g.rows
      omega
    · show ((x : ℤ) + dx).toNat < g.cols
      omega
    · show |((((y : ℤ) + dy).toNat : Nat) : ℤ) - (y : ℤ)| ≤ distance
      rw [abs_le]; omega
    · show |((((x : ℤ) + dx).toNat : Nat) : ℤ) - (x : ℤ)| ≤ distance
      rw [abs_le]; omega
    · show ¬(((y : ℤ) + dy).toNat = y ∧ ((x : ℤ) + dx).toNat = x)
      omega
  · rintro ⟨h1, h2, h3, h4, h5⟩
    rw [abs_le] at h3 h4
    refine ⟨(p.1 : ℤ) - y, by omega, (p.2 : ℤ) - x, by omega, ?_⟩
    have e1 : ¬((p.2 : ℤ) - x = 0 ∧ (p.1 : ℤ) - y = 0) := by omega
    have e2 : 0 ≤ (y : ℤ) + ((p.1 : ℤ) - y) ∧ (y : ℤ) + ((p.1 : ℤ) - y) < g.rows
        ∧ 0 ≤ (x : ℤ) + ((p.2 : ℤ) - x) ∧ (x : ℤ) + ((p.2 : ℤ) - x) < g.cols := by omega
    rw [if_neg e1, if_pos e2]
    have e3 : ((y : ℤ) + ((p.1 : ℤ) - y)).toNat = p.1 := by omega
    have e4 : ((x : ℤ) + ((p.2 : ℤ) - x)).toNat = p.2 := by omega
    simp only [e3, e4]

theorem offsets_nodup (distance : ℤ) : (offsets distance).Nodup := by
  unfold offsets
  apply List.Nodup.map _ (List.nodup_range _)
  intro a b h
  simpa using h

theorem neighborCells_nodup (g : Mat ℚ) (distance : ℤ) (y x : Nat) :
    (neighborCells g distance y x).Nodup := by
  unfold neighborCells
  rw [List.nodup_flatMap]
  constructor
  · intro dy _
    apply List.Nodup.filterMap _ (offsets_nodup distance)
    intro a a' b ha ha'
    simp only [Option.mem_def] at ha ha'
    split_ifs at ha ha' with h1 h2 h3 h4
    cases ha
    have := congrArg Prod.snd (Option.some.inj ha')
    simp only at this
    omega
  · apply List.Pairwise.imp _ (offsets_nodup distance)
    intro a b hab
    simp only [Function.onFun]
    rw [List.disjoint_left]
    intro p hpa hpb
    simp only [List.mem_filterMap] at hpa hpb
    obtain ⟨dx, -, hdx⟩ := hpa
    obtain ⟨dx', -, hdx'⟩ := hpb
    split_ifs at hdx hdx' with h1 h2 h3 h4
    cases hdx
    have := congrArg Prod.fst (Option.some.inj hdx')
    simp only at this
    apply hab
    omega

theorem neighborCells_toFinset (g : Mat ℚ) (distance : ℤ) (y x : Nat) :
    (neighborCells g distance y x).toFinset = neighborhood g distance y x := by
  ext p
  simp only [List.mem_toFinset, mem_neighborCells, neighborhood, Finset.mem_filter,
    Finset.mem_product, Finset.mem_range]
  constructor
  · intro h
    exact ⟨⟨h.1, h.2.1⟩, h⟩
  · intro h
    exact h.2

theorem neighbors_length (g : Mat ℚ) (distance : ℤ) (y x : Nat) :
    (neighbors g distance y x).length = (neighborhood g distance y x).card := by
  rw [neighbors_eq_map, List.length_map, ← neighborCells_toFinset,
    List.toFinset_card_of_nodup (neighborCells_nodup g distance y x)]

theorem mem_neighborhood (g : Mat ℚ) (distance : ℤ) (y x : Nat) (p : Nat × Nat) :
    p ∈ neighborhood g distance y x ↔ isNeighbor g distance y x p.1 p.2 := by
  rw [← neighborCells_toFinset, List.mem_toFinset, mem_neighborCells]

theorem span_eq_Icc (n y : Nat) (hy : y < n) :
    (Finset.range n).filter (fun i : Nat => |(i : ℤ) - (y : ℤ)| ≤ 1)
      = Finset.Icc (y - 1) (min (y + 1) (n - 1)) := by
  ext i
  simp only [Finset.mem_filter, Finset.mem_range, Finset.mem_Icc, abs_le]
  omega

theorem span_card_le (n y : Nat) (hy : y < n) :
    ((Finset.range n).filter (fun i : Nat => |(i : ℤ) - (y : ℤ)| ≤ 1)).card ≤ 3 := by
  rw [span_eq_Icc n y hy, Nat.card_Icc]
  omega

theorem span_card_border (n y : Nat) (hn : 2 ≤ n) (hb : y = 0 ∨ y + 1 = n) :
    ((Finset.range n).filter (fun i : Nat => |(i : ℤ) - (y : ℤ)| ≤ 1)).card = 2 := by
  rw [span_eq_Icc n y (by omega), Nat.card_Icc]
  omega

theorem span_card_inner (n y : Nat) (h0 : 0 < y) (h1 : y + 1 < n) :
    ((Finset.range n).filter (fun i : Nat => |(i : ℤ) - (y : ℤ)| ≤ 1)).card = 3 := by
  rw [span_eq_Icc n y (by omega), Nat.card_Icc]
  omega

theorem neighborhood_card (g : Mat ℚ) {y x : Nat} (hy : y < g.rows) (hx : x < g.cols) :
    (neighborhood g 1 y x).card + 1
      = ((Finset.range g.rows).filter (fun i : Nat => |(i : ℤ) - (y : ℤ)| ≤ 1)).card
          * ((Finset.range g.cols).filter (fun i : Nat => |(i : ℤ) - (x : ℤ)| ≤ 1)).card := by
  have hnot : (y, x) ∉ neighborhood g 1 y x := by
    intro h
    exact ((mem_neighborhood g 1 y x (y, x)).mp h).2.2.2.2 ⟨rfl, rfl⟩
  rw [← Finset.card_insert_of_not_mem hnot, ← Finset.card_product]
  congr 1
  ext p
  simp only [Finset.mem_insert, mem_neighborhood, isNeighbor, Finset.mem_product,
    Finset.mem_filter, Finset.mem_range, Prod.ext_iff]
  constructor
  · rintro (⟨h1, h2⟩ | ⟨h1, h2, h3, h4, -⟩)
    · rw [h1, h2]
      exact ⟨⟨hy, by simp⟩, ⟨hx, by simp⟩⟩
    · exact ⟨⟨h1, h3⟩, ⟨h2, h4⟩⟩
  · rintro ⟨⟨h1, h3⟩, ⟨h2, h4⟩⟩
    by_cases hc : p.1 = y ∧ p.2 = x
    · exact Or.inl hc
    · exact Or.inr ⟨h1, h2, h3, h4, hc⟩

theorem neighborhood_card_le (g : Mat ℚ) (y x : Nat) : (neighborhood g 1 y x).card ≤ 8 := by
  by_cases hb : y < g.rows ∧ x < g.cols
  · have h := neighborhood_card g hb.1 hb.2
    have h1 := span_card_le g.rows y hb.1
    have h2 := span_card_le g.cols x hb.2
    have h3 : ((Finset.range g.rows).filter (fun i : Nat => |(i : ℤ) - (y : ℤ)| ≤ 1)).card
        * ((Finset.range g.cols).filter (fun i : Nat => |(i : ℤ) - (x : ℤ)| ≤ 1)).card
        ≤ 3 * 3 := Nat.mul_le_mul h1 h2
    omega
  · have hsub : neighborhood g 1 y x
        ⊆ ((Finset.Icc (y - 1) (y + 1)) ×ˢ (Finset.Icc (x - 1) (x + 1))).erase (y, x) := by
      intro p hp
      obtain ⟨-, -, h3, h4, h5⟩ := (mem_neighborhood g 1 y x p).mp hp
      rw [abs_le] at h3 h4
      simp only [Finset.mem_erase, Finset.mem_product, Finset.mem_Icc, ne_eq, Prod.ext_iff]
      exact ⟨h5, ⟨by omega, by omega⟩, ⟨by omega, by omega⟩⟩
    have hc := Finset.card_le_card hsub
    have hmem : (y, x) ∈ (Finset.Icc (y - 1) (y + 1)) ×ˢ (Finset.Icc (x - 1) (x + 1)) := by
      simp only [Finset.mem_product, Finset.mem_Icc]
      omega
    rw [Finset.card_erase_of_mem hmem, Finset.card_product, Nat.card_Icc, Nat.card_Icc] at hc
    have h1 : y + 1 + 1 - (y - 1) ≤ 3 := by omega
    have h2 : x + 1 + 1 - (x - 1) ≤ 3 := by omega
    have h3 : (y + 1 + 1 - (y - 1)) * (x + 1 + 1 - (x - 1)) ≤ 3 * 3 := Nat.mul_le_mul h1 h2
    omega

theorem neighborhood_card_edge_row (g : Mat ℚ) {y x : Nat} (hr : 2 ≤ g.rows)
    (hy : y = 0 ∨ y + 1 = g.rows) (hx0 : 0 < x) (hx1 : x + 1 < g.cols) :
    (neighborhood g 1 y x).card = 5 := by
  have h := neighborhood_card g (show y < g.rows by omega) (show x < g.cols by omega)
  rw [span_card_border g.rows y hr hy, span_card_inner g.cols x hx0 hx1] at h
  omega

theorem floor_le_cvRound (x : ℚ) : ⌊x⌋ ≤ cvRound x := by
  simp only [cvRound]
  split_ifs <;> omega

theorem cvRound_le_floor_add_one (x : ℚ) : cvRound x ≤ ⌊x⌋ + 1 := by
  simp only [cvRound]
  split_ifs <;> omega

theorem cvRound_mono {x y : ℚ} (h : x ≤ y) : cvRound x ≤ cvRound y := by
  have hf : ⌊x⌋ ≤ ⌊y⌋ := Int.floor_mono h
  rcases lt_or_eq_of_le hf with hlt | heq
  · have h1 := cvRound_le_floor_add_one x
    have h2 := floor_le_cvRound y
    omega
  · have hd : x - (⌊x⌋ : ℚ) ≤ y - (⌊x⌋ : ℚ) := by linarith
    simp only [cvRound, ← heq]
    split_ifs with a1 a2 a3 a4 a5 a6 a7 a8 <;> first | omega | (exfalso; linarith)

theorem saturate_cast_mono {a b : ℤ} (h : a ≤ b) : saturate_cast a ≤ saturate_cast b := by
  unfold saturate_cast
  split_ifs <;> omega

theorem convert_mono {p q : ℚ} (h : p ≤ q) :
    saturate_cast (cvRound p) ≤ saturate_cast (cvRound q) :=
  saturate_cast_mono (cvRound_mono h)

/-! ## Clipping and normalisation -/

theorem clipped_mono {image1 image2 : Mat ℚ} (a b : Mat ℚ) {y x : Nat}
    (h : image1.at_ y x ≤ image2.at_ y x) :
    (clipped image1 a b).at_ y x ≤ (clipped image2 a b).at_ y x := by
  rw [clipped_at, clipped_at]
  exact min_le_min (max_le_max h (le_refl _)) (le_refl _)

theorem normalized_mono {image1 image2 : Mat ℚ} (a b : Mat ℚ) {y x : Nat}
    (h : image1.at_ y x ≤ image2.at_ y x) :
    (normalized image1 a b).at_ y x ≤ (normalized image2 a b).at_ y x := by
  rw [normalized_at, normalized_at]
  have h1 := clipped_mono a b h
  have h2 : 0 ≤ 1 / (denom a b).at_ y x := by
    have := denom_pos a b y x
    positivity
  have h3 : ((clipped image1 a b).at_ y x - (minF a b).at_ y x) * (1 / (denom a b).at_ y x)
      ≤ ((clipped image2 a b).at_ y x - (minF a b).at_ y x) * (1 / (denom a b).at_ y x) :=
    mul_le_mul_of_nonneg_right (by linarith) h2
  linarith

theorem normalized_low (image a b : Mat ℚ) {y x : Nat}
    (h : image.at_ y x ≤ (minF a b).at_ y x) : (normalized image a b).at_ y x = 0 := by
  have hc : (clipped image a b).at_ y x = (minF a b).at_ y x := by
    rw [clipped_at, max_eq_right h, min_eq_left (minF_le_maxF a b y x)]
  rw [normalized_at, hc]
  ring

theorem normalized_high (image a b : Mat ℚ) {y x : Nat}
    (hr : epsilon ≤ (maxF a b).at_ y x - (minF a b).at_ y x)
    (h : (maxF a b).at_ y x ≤ image.at_ y x) : (normalized image a b).at_ y x = 255 := by
  have hc : (clipped image a b).at_ y x = (maxF a b).at_ y x := by
    rw [clipped_at, min_eq_right]
    exact le_trans h (le_max_left _ _)
  have hd : (denom a b).at_ y x = (maxF a b).at_ y x - (minF a b).at_ y x := by
    rw [denom_at, if_neg (not_lt.mpr hr)]
  have hpos : (maxF a b).at_ y x - (minF a b).at_ y x ≠ 0 := by
    have : (0 : ℚ) < epsilon := by norm_num [epsilon]
    linarith
  rw [normalized_at, hc, hd, mul_one_div, div_self hpos]
  ring

theorem convert_zero : saturate_cast (cvRound 0) = 0 := by
  have h : cvRound (0 : ℚ) = 0 := by
    have := cvRound_intCast 0
    simpa using this
  rw [h]
  rfl

theorem convert_full : saturate_cast (cvRound 255) = 255 := by
  have h : cvRound (255 : ℚ) = 255 := by
    have := cvRound_intCast 255
    simpa using this
  rw [h]
  rfl

/-- C17. Clipping endpoints of the Rescaler: with fields of the size of the
image the Rescaler returns an image that is `0` at every pixel whose image
sample is at most `minF`, and `255` at every pixel whose range `maxF - minF`
is at least `1e-6` and whose image sample is at least `maxF`; and for the same
fields, a second image whose sample at a pixel is at least that of the first
gets an output sample at that pixel that is at least that of the first. -/
theorem clipping_endpoints (image minField maxField : Mat ℚ)
    (hmin : Mat.sameSize image minField = true) (hmax : Mat.sameSize image maxField = true) :
    ∃ out, rescaleImageWithFields image minField maxField = some out
      ∧ (∀ y x, (minF minField maxField).at_ y x ≤ (maxF minField maxField).at_ y x)
      ∧ (∀ y x, image.at_ y x ≤ (minF minField maxField).at_ y x → out.at_ y x = 0)
      ∧ (∀ y x, epsilon ≤ (maxF minField maxField).at_ y x - (minF minField maxField).at_ y x →
          (maxF minField maxField).at_ y x ≤ image.at_ y x → out.at_ y x = 255)
      ∧ (∀ image2 : Mat ℚ, Mat.sameSize image2 minField = true →
          Mat.sameSize image2 maxField = true →
          ∃ out2, rescaleImageWithFields image2 minField maxField = some out2
            ∧ ∀ y x, image.at_ y x ≤ image2.at_ y x → out.at_ y x ≤ out2.at_ y x) := by
  refine ⟨_, rescale_eq_some hmin hmax, minF_le_maxF _ _, ?_, ?_, ?_⟩
  · intro y x h
    rw [convertTo8U_at, normalized_low image minField maxField h]
    exact convert_zero
  · intro y x hr h
    rw [convertTo8U_at, normalized_high image minField maxField hr h]
    exact convert_full
  · intro image2 h1 h2
    refine ⟨_, rescale_eq_some h1 h2, ?_⟩
    intro y x h
    rw [convertTo8U_at, convertTo8U_at]
    exact convert_mono (normalized_mono minField maxField h)

/-- C17, at a concrete input: 2x2 images of value 5 and 300 between the
fields 10 and 200. -/
theorem clipping_endpoints_witness :
    ∃ out out2,
      rescaleImageWithFields (Mat.const 2 2 5) (Mat.const 2 2 10) (Mat.const 2 2 200) = some out
        ∧ rescaleImageWithFields (Mat.const 2 2 300) (Mat.const 2 2 10) (Mat.const 2 2 200)
            = some out2
        ∧ out.at_ 0 0 = 0 ∧ out2.at_ 0 0 = 255 ∧ out.at_ 0 0 ≤ out2.at_ 0 0 := by
  obtain ⟨out, ho, -, hlow, -, hmono⟩ :=
    clipping_endpoints (Mat.const 2 2 5) (Mat.const 2 2 10) (Mat.const 2 2 200) rfl rfl
  obtain ⟨out2, ho2, hle⟩ := hmono (Mat.const 2 2 300) rfl rfl
  obtain ⟨out3, ho3, -, -, hhigh, -⟩ :=
    clipping_endpoints (Mat.const 2 2 300) (Mat.const 2 2 10) (Mat.const 2 2 200) rfl rfl
  rw [ho2] at ho3
  cases ho3
  refine ⟨out, out2, ho, ho2, hlow 0 0 ?_, hhigh 0 0 ?_ ?_, hle 0 0 ?_⟩
  · norm_num [minF, Mat.min, Mat.zipWith, Mat.const]
  · norm_num [maxF, minF, Mat.max, Mat.min, Mat.zipWith, Mat.const, epsilon]
  · norm_num [maxF, Mat.max, Mat.zipWith, Mat.const]
  · norm_num [Mat.const]

/-- C18. Saturation is never needed in the Rescaler: for every image and
every pair of fields, ordered or inverted and of any range, the value
`normalized = (clipped - minF) * (1 / denom) * 255` before the 8-bit conversion
lies in `[0, 255]` at every pixel, its rounding lies in `[0, 255]`, and so the
output sample is the rounding itself, unclamped. -/
theorem saturation_never_needed (image minField maxField : Mat ℚ) (y x : Nat) :
    (normalized image minField maxField).at_ y x
        = ((clipped image minField maxField).at_ y x - (minF minField maxField).at_ y x)
            * (1 / (denom minField maxField).at_ y x) * 255
      ∧ 0 ≤ (normalized image minField maxField).at_ y x
      ∧ (normalized image minField maxField).at_ y x ≤ 255
      ∧ 0 ≤ cvRound ((normalized image minField maxField).at_ y x)
      ∧ cvRound ((normalized image minField maxField).at_ y x) ≤ 255
      ∧ (∀ out, rescaleImageWithFields image minField maxField = some out →
          out.at_ y x = cvRound ((normalized image minField maxField).at_ y x)) := by
  have h0 := normalized_nonneg image minField maxField y x
  have h1 := normalized_le image minField maxField y x
  have c0 : 0 ≤ cvRound ((normalized image minField maxField).at_ y x) := by
    have := cvRound_mono h0
    have e : cvRound (0 : ℚ) = 0 := by simpa using cvRound_intCast 0
    rw [e] at this
    exact this
  have c1 : cvRound ((normalized image minField maxField).at_ y x) ≤ 255 := by
    have := cvRound_mono h1
    have e : cvRound (255 : ℚ) = 255 := by simpa using cvRound_intCast 255
    rw [e] at this
    exact this
  refine ⟨normalized_at image minField maxField y x, h0, h1, c0, c1, ?_⟩
  intro out ho
  unfold rescaleImageWithFields at ho
  split_ifs at ho
  cases ho
  rw [convertTo8U_at, saturate_cast_of_range c0 c1]

/-! ## Diffusion stays within the extremes of the grid -/

theorem pos_of_not_empty {g : Mat ℚ} (h : g.empty = false) : 0 < g.rows ∧ 0 < g.cols := by
  simp only [Mat.empty, beq_eq_false_iff_ne, ne_eq, Nat.mul_eq_zero, not_or] at h
  omega

theorem le_largest (g : Mat ℚ) {y x : Nat} (hy : y < g.rows) (hx : x < g.cols) :
    g.at_ y x ≤ largest g := by
  have h := mem_roi_of_lt g 0 0 hy hx
  simp only [Nat.zero_add] at h
  exact le_maxVal_of_mem h

theorem smallest_le (g : Mat ℚ) {y x : Nat} (hy : y < g.rows) (hx : x < g.cols) :
    smallest g ≤ g.at_ y x := by
  have h := mem_roi_of_lt g 0 0 hy hx
  simp only [Nat.zero_add] at h
  exact minVal_le_of_mem h

theorem largest_attained (g : Mat ℚ) (hne : g.empty = false) :
    ∃ y x, y < g.rows ∧ x < g.cols ∧ largest g = g.at_ y x := by
  obtain ⟨hr, hc⟩ := pos_of_not_empty hne
  obtain ⟨dy, dx, hdy, hdx, he⟩ := mem_roi (maxVal_mem (roi_ne_nil g 0 0 hc hr))
  simp only [Nat.zero_add] at he
  exact ⟨dy, dx, hdy, hdx, he⟩

theorem smallest_attained (g : Mat ℚ) (hne : g.empty = false) :
    ∃ y x, y < g.rows ∧ x < g.cols ∧ smallest g = g.at_ y x := by
  obtain ⟨hr, hc⟩ := pos_of_not_empty hne
  obtain ⟨dy, dx, hdy, hdx, he⟩ := mem_roi (minVal_mem (roi_ne_nil g 0 0 hc hr))
  simp only [Nat.zero_add] at he
  exact ⟨dy, dx, hdy, hdx, he⟩

theorem largest_unique (g : Mat ℚ) (hne : g.empty = false) {m : ℚ}
    (hub : ∀ y x, y < g.rows → x < g.cols → g.at_ y x ≤ m)
    (hat : ∃ y x, y < g.rows ∧ x < g.cols ∧ m ≤ g.at_ y x) : largest g = m := by
  obtain ⟨y, x, hy, hx, he⟩ := largest_attained g hne
  obtain ⟨y1, x1, hy1, hx1, he1⟩ := hat
  apply le_antisymm
  · rw [he]
    exact hub y x hy hx
  · exact le_trans he1 (le_largest g hy1 hx1)

theorem smallest_unique (g : Mat ℚ) (hne : g.empty = false) {m : ℚ}
    (hlb : ∀ y x, y < g.rows → x < g.cols → m ≤ g.at_ y x)
    (hat : ∃ y x, y < g.rows ∧ x < g.cols ∧ g.at_ y x ≤ m) : smallest g = m := by
  obtain ⟨y, x, hy, hx, he⟩ := smallest_attained g hne
  obtain ⟨y1, x1, hy1, hx1, he1⟩ := hat
  apply le_antisymm
  · exact le_trans (smallest_le g hy1 hx1) he1
  · rw [he]
    exact hlb y x hy hx

/-! ## Suppression moves a cell towards the mean of its neighbours -/

theorem cvRound_eq_of_close {t : ℚ} {m : ℤ} (h1 : (m : ℚ) - 1 / 2 < t) (h2 : t < (m : ℚ) + 1 / 2) :
    cvRound t = m := by
  by_cases hc : (m : ℚ) ≤ t
  · have hf : ⌊t⌋ = m := by
      rw [Int.floor_eq_iff]
      exact ⟨hc, by linarith⟩
    simp only [cvRound, hf]
    rw [if_pos (by linarith)]
  · have hf : ⌊t⌋ = m - 1 := by
      rw [Int.floor_eq_iff]
      push_cast
      exact ⟨by linarith, by linarith [not_le.mp hc]⟩
    simp only [cvRound, hf]
    push_cast
    rw [if_neg (by linarith), if_pos (by linarith)]
    omega

theorem cvRound_neg (t : ℚ) : cvRound (-t) = -cvRound t := by
  by_cases hint : (⌊t⌋ : ℚ) = t
  · rw [← hint, ← Int.cast_neg, cvRound_intCast, cvRound_intCast]
  · have hlt : (⌊t⌋ : ℚ) < t := lt_of_le_of_ne (Int.floor_le t) hint
    have hlt2 : t < (⌊t⌋ : ℚ) + 1 := Int.lt_floor_add_one t
    have hf : ⌊-t⌋ = -⌊t⌋ - 1 := by
      rw [Int.floor_eq_iff]
      push_cast
      constructor <;> linarith
    simp only [cvRound, hf]
    push_cast
    split_ifs with a1 a2 a3 a4 a5 a6 a7 a8 a9 <;> first | omega | (exfalso; linarith)

theorem two_zpow_pos (e : ℤ) : (0 : ℚ) < (2 : ℚ) ^ e := by positivity

theorem exponent_eq {x : ℚ} {e : ℤ} (he : -1074 ≤ e) (h1 : (2 : ℚ) ^ (e + 52) ≤ |x|)
    (h2 : |x| < (2 : ℚ) ^ (e + 53)) : Binary64.exponent x = e := by
  have hpos : 0 < |x| := lt_of_lt_of_le (two_zpow_pos _) h1
  have hl : Int.log 2 |x| = e + 52 := by
    apply le_antisymm
    · have := (Int.lt_zpow_iff_log_lt (R := ℚ) (b := 2) (by norm_num) (x := e + 53) hpos).mp
        (by simpa using h2)
      omega
    · exact (Int.zpow_le_iff_le_log (R := ℚ) (b := 2) (by norm_num) hpos).mp (by simpa using h1)
  unfold Binary64.exponent
  rw [hl]
  omega

theorem round_eq_of {x : ℚ} {e m : ℤ} (he : -1074 ≤ e) (h1 : (2 : ℚ) ^ (e + 52) ≤ |x|)
    (h2 : |x| < (2 : ℚ) ^ (e + 53)) (hm : cvRound (x / (2 : ℚ) ^ e) = m) :
    Binary64.round x = (m : ℚ) * (2 : ℚ) ^ e := by
  have hpos : 0 < |x| := lt_of_lt_of_le (two_zpow_pos _) h1
  have hx : x ≠ 0 := abs_pos.mp hpos
  unfold Binary64.round
  rw [if_neg hx, exponent_eq he h1 h2, hm]

theorem round_zero : Binary64.round 0 = 0 := by
  simp [Binary64.round]

theorem exponent_neg (x : ℚ) : Binary64.exponent (-x) = Binary64.exponent x := by
  simp [Binary64.exponent]

theorem round_neg (x : ℚ) : Binary64.round (-x) = -Binary64.round x := by
  unfold Binary64.round
  by_cases hx : x = 0
  · simp [hx]
  · rw [if_neg hx, if_neg (neg_ne_zero.mpr hx), exponent_neg, neg_div, cvRound_neg]
    push_cast
    ring

theorem cvRound_zero : cvRound 0 = 0 := by
  simpa using cvRound_intCast 0

theorem round_nonneg {x : ℚ} (hx : 0 ≤ x) : 0 ≤ Binary64.round x := by
  unfold Binary64.round
  split_ifs
  · exact le_refl _
  · have h : 0 ≤ x / (2 : ℚ) ^ Binary64.exponent x := div_nonneg hx (two_zpow_pos _).le
    have hc : (0 : ℤ) ≤ cvRound (x / (2 : ℚ) ^ Binary64.exponent x) := by
      have := cvRound_mono h
      rwa [cvRound_zero] at this
    have hq : (0 : ℚ) ≤ (cvRound (x / (2 : ℚ) ^ Binary64.exponent x) : ℚ) := by exact_mod_cast hc
    exact mul_nonneg hq (two_zpow_pos _).le

theorem round_nonpos {x : ℚ} (hx : x ≤ 0) : Binary64.round x ≤ 0 := by
  have h := round_nonneg (neg_nonneg.mpr hx)
  rw [round_neg] at h
  linarith

theorem exponent_le_of_lt {x : ℚ} {e : ℤ} (hx : x ≠ 0) (he : -1074 ≤ e)
    (h : |x| < (2 : ℚ) ^ (e + 53)) : Binary64.exponent x ≤ e := by
  have hpos : 0 < |x| := abs_pos.mpr hx
  have := (Int.lt_zpow_iff_log_lt (R := ℚ) (b := 2) (by norm_num) (x := e + 53) hpos).mp
    (by simpa using h)
  unfold Binary64.exponent
  omega

theorem round_of_parts {m e : ℤ} (he : -1074 ≤ e) (hm : |(m : ℚ)| < (2 : ℚ) ^ (53 : ℤ)) :
    Binary64.round ((m : ℚ) * (2 : ℚ) ^ e) = (m : ℚ) * (2 : ℚ) ^ e := by
  by_cases hx : (m : ℚ) * (2 : ℚ) ^ e = 0
  · rw [hx, round_zero]
  · have habs : |(m : ℚ) * (2 : ℚ) ^ e| < (2 : ℚ) ^ (e + 53) := by
      rw [abs_mul, abs_of_pos (two_zpow_pos e), zpow_add₀ (by norm_num : (2 : ℚ) ≠ 0),
        mul_comm]
      exact mul_lt_mul_of_pos_left hm (two_zpow_pos e)
    have hd := exponent_le_of_lt hx he habs
    obtain ⟨k, hk⟩ : ∃ k : ℕ, e - Binary64.exponent ((m : ℚ) * (2 : ℚ) ^ e) = (k : ℤ) :=
      ⟨(e - Binary64.exponent ((m : ℚ) * (2 : ℚ) ^ e)).toNat, by omega⟩
    have hq : (m : ℚ) * (2 : ℚ) ^ e / (2 : ℚ) ^ Binary64.exponent ((m : ℚ) * (2 : ℚ) ^ e)
        = ((m * 2 ^ k : ℤ) : ℚ) := by
      rw [mul_div_assoc, ← zpow_sub₀ (by norm_num : (2 : ℚ) ≠ 0), hk]
      push_cast
      rw [zpow_natCast]
    unfold Binary64.round
    rw [if_neg hx, hq, cvRound_intCast, ← hq]
    field_simp

theorem round_int {n : ℤ} (hn : |(n : ℚ)| < (2 : ℚ) ^ (53 : ℤ)) :
    Binary64.round (n : ℚ) = (n : ℚ) := by
  have h := round_of_parts (m := n) (e := 0) (by norm_num) hn
  simpa using h

theorem exponent_mono {x y : ℚ} (hx : 0 < x) (h : x ≤ y) :
    Binary64.exponent x ≤ Binary64.exponent y := by
  have hl : Int.log 2 |x| ≤ Int.log 2 |y| := by
    rw [abs_of_pos hx, abs_of_pos (lt_of_lt_of_le hx h)]
    exact Int.log_mono_right hx h
  unfold Binary64.exponent
  omega

theorem round_pos_eq {x : ℚ} (hx : 0 < x) :
    Binary64.round x = (cvRound (x / (2 : ℚ) ^ Binary64.exponent x) : ℚ) * (2 : ℚ) ^ Binary64.exponent x := by
  unfold Binary64.round
  rw [if_neg (ne_of_gt hx)]

theorem round_le_pow {x : ℚ} (hx : 0 < x) :
    Binary64.round x ≤ (2 : ℚ) ^ (Binary64.exponent x + 53) := by
  have h1 : x < (2 : ℚ) ^ (Int.log 2 |x| + 1) := by
    have := Int.lt_zpow_succ_log_self (R := ℚ) (b := 2) (by norm_num) |x|
    rw [abs_of_pos hx] at this ⊢
    simpa using this
  have h2 : (2 : ℚ) ^ (Int.log 2 |x| + 1) ≤ (2 : ℚ) ^ (Binary64.exponent x + 53) := by
    apply zpow_le_zpow_right₀ (by norm_num)
    unfold Binary64.exponent
    omega
  have h3 : x / (2 : ℚ) ^ Binary64.exponent x ≤ (((2 : ℤ) ^ 53 : ℤ) : ℚ) := by
    rw [div_le_iff₀ (two_zpow_pos _)]
    have : (2 : ℚ) ^ (Binary64.exponent x + 53) = (2 : ℚ) ^ (53 : ℤ) * (2 : ℚ) ^ Binary64.exponent x := by
      rw [add_comm, zpow_add₀ (by norm_num : (2 : ℚ) ≠ 0)]
    have h4 : (((2 : ℤ) ^ 53 : ℤ) : ℚ) = (2 : ℚ) ^ (53 : ℤ) := by norm_num
    rw [this] at h2
    rw [h4]
    linarith
  have h5 := cvRound_mono h3
  rw [cvRound_intCast] at h5
  have h6 : (cvRound (x / (2 : ℚ) ^ Binary64.exponent x) : ℚ) ≤ (2 : ℚ) ^ (53 : ℤ) := by
    have : ((cvRound (x / (2 : ℚ) ^ Binary64.exponent x) : ℤ) : ℚ) ≤ (((2 : ℤ) ^ 53 : ℤ) : ℚ) := by
      exact_mod_cast h5
    have h4 : (2 : ℚ) ^ (53 : ℤ) = (((2 : ℤ) ^ 53 : ℤ) : ℚ) := by norm_num
    rw [h4]
    exact this
  rw [round_pos_eq hx, add_comm, zpow_add₀ (by norm_num : (2 : ℚ) ≠ 0)]
  exact mul_le_mul_of_nonneg_right h6 (two_zpow_pos _).le

theorem pow_le_round {y : ℚ} (hy : 0 < y) (hd : -1074 < Binary64.exponent y) :
    (2 : ℚ) ^ (Binary64.exponent y + 52) ≤ Binary64.round y := by
  have hde : Binary64.exponent y = Int.log 2 |y| - 52 := by
    unfold Binary64.exponent at hd ⊢
    omega
  have h1 : (2 : ℚ) ^ (Binary64.exponent y + 52) ≤ y := by
    have := Int.zpow_log_le_self (R := ℚ) (b := 2) (by norm_num) (abs_pos.mpr (ne_of_gt hy))
    rw [abs_of_pos hy] at this hde
    rw [hde]
    simpa using this
  have h3 : (((2 : ℤ) ^ 52 : ℤ) : ℚ) ≤ y / (2 : ℚ) ^ Binary64.exponent y := by
    rw [le_div_iff₀ (two_zpow_pos _)]
    have : (2 : ℚ) ^ (Binary64.exponent y + 52) = (2 : ℚ) ^ (52 : ℤ) * (2 : ℚ) ^ Binary64.exponent y := by
      rw [add_comm, zpow_add₀ (by norm_num : (2 : ℚ) ≠ 0)]
    rw [this] at h1
    have h4 : (2 : ℚ) ^ (52 : ℤ) = (((2 : ℤ) ^ 52 : ℤ) : ℚ) := by norm_num
    rw [← h4]
    exact h1
  have h5 := cvRound_mono h3
  rw [cvRound_intCast] at h5
  have h6 : (2 : ℚ) ^ (52 : ℤ) ≤ (cvRound (y / (2 : ℚ) ^ Binary64.exponent y) : ℚ) := by
    have : (((2 : ℤ) ^ 52 : ℤ) : ℚ) ≤ ((cvRound (y / (2 : ℚ) ^ Binary64.exponent y) : ℤ) : ℚ) := by
      exact_mod_cast h5
    have h4 : (2 : ℚ) ^ (52 : ℤ) = (((2 : ℤ) ^ 52 : ℤ) : ℚ) := by norm_num
    rw [h4]
    exact this
  rw [round_pos_eq hy, add_comm, zpow_add₀ (by norm_num : (2 : ℚ) ≠ 0)]
  exact mul_le_mul_of_nonneg_right h6 (two_zpow_pos _).le

theorem round_mono_pos {x y : ℚ} (hx : 0 < x) (h : x ≤ y) : Binary64.round x ≤ Binary64.round y := by
  have hy : 0 < y := lt_of_lt_of_le hx h
  have he := exponent_mono hx h
  rcases lt_or_eq_of_le he with hlt | heq
  · have h1 := round_le_pow hx
    have hd : -1074 < Binary64.exponent y := by
      have : -1074 ≤ Binary64.exponent x := by
        unfold Binary64.exponent
        omega
      omega
    have h2 := pow_le_round hy hd
    have h3 : (2 : ℚ) ^ (Binary64.exponent x + 53) ≤ (2 : ℚ) ^ (Binary64.exponent y + 52) :=
      zpow_le_zpow_right₀ (by norm_num) (by omega)
    linarith
  · rw [round_pos_eq hx, round_pos_eq hy, heq]
    have h1 : x / (2 : ℚ) ^ Binary64.exponent y ≤ y / (2 : ℚ) ^ Binary64.exponent y :=
      div_le_div_of_nonneg_right h (two_zpow_pos _).le
    have h2 := cvRound_mono h1
    have h3 : (cvRound (x / (2 : ℚ) ^ Binary64.exponent y) : ℚ)
        ≤ (cvRound (y / (2 : ℚ) ^ Binary64.exponent y) : ℚ) := by exact_mod_cast h2
    exact mul_le_mul_of_nonneg_right h3 (two_zpow_pos _).le

theorem round_mono {x y : ℚ} (h : x ≤ y) : Binary64.round x ≤ Binary64.round y := by
  rcases lt_trichotomy x 0 with hx | hx | hx
  · rcases le_or_lt 0 y with hy | hy
    · exact le_trans (round_nonpos hx.le) (round_nonneg hy)
    · have := round_mono_pos (neg_pos.mpr hy) (neg_le_neg h)
      rw [round_neg, round_neg] at this
      linarith
  · rw [hx, round_zero]
    exact round_nonneg (hx ▸ h)
  · exact round_mono_pos hx h

theorem cvRound_eq_of_half_below {t : ℚ} {m : ℤ} (h : t = (m : ℚ) - 1 / 2) (hm : m % 2 = 0) :
    cvRound t = m := by
  have hf : ⌊t⌋ = m - 1 := by
    rw [Int.floor_eq_iff]
    push_cast
    constructor <;> linarith
  simp only [cvRound, hf]
  push_cast
  rw [if_neg (by linarith), if_neg (by linarith), if_neg (by omega)]
  omega

theorem cvRound_eq_of_half_above {t : ℚ} {m : ℤ} (h : t = (m : ℚ) + 1 / 2) (hm : m % 2 = 0) :
    cvRound t = m := by
  have hf : ⌊t⌋ = m := by
    rw [Int.floor_eq_iff]
    constructor <;> linarith
  simp only [cvRound, hf]
  rw [if_neg (by linarith), if_neg (by linarith), if_pos hm]

theorem round_eq_of_pos {x : ℚ} {e m : ℤ} (he : -1074 ≤ e) (h1 : (2 : ℚ) ^ (e + 52) ≤ x)
    (h2 : x < (2 : ℚ) ^ (e + 53)) (hm : cvRound (x / (2 : ℚ) ^ e) = m) :
    Binary64.round x = (m : ℚ) * (2 : ℚ) ^ e := by
  have hpos : 0 < x := lt_of_lt_of_le (two_zpow_pos _) h1
  apply round_eq_of he
  · rwa [abs_of_pos hpos]
  · rwa [abs_of_pos hpos]
  · exact hm

/-! ## Facts about sums and means in binary64 -/

theorem accumulate64_succ (k : Nat) (c : ℚ) :
    Binary64.accumulate (List.replicate (k + 1) c) 0
      = Binary64.add (Binary64.accumulate (List.replicate k c) 0) c := by
  simp [Binary64.accumulate, List.replicate_succ', List.foldl_append]

theorem accumulate64_replicate_int (n : ℤ) (k : Nat)
    (h : (k : ℚ) * |(n : ℚ)| < (2 : ℚ) ^ (53 : ℤ)) :
    Binary64.accumulate (List.replicate k (n : ℚ)) 0 = (k : ℚ) * (n : ℚ) := by
  induction k with
  | zero => simp [Binary64.accumulate]
  | succ k ih =>
    have hk : (k : ℚ) * |(n : ℚ)| < (2 : ℚ) ^ (53 : ℤ) := by
      have h0 : (0 : ℚ) ≤ |(n : ℚ)| := abs_nonneg _
      push_cast at h
      linarith
    rw [accumulate64_succ, ih hk, Binary64.add]
    have e : (k : ℚ) * (n : ℚ) + (n : ℚ) = ((((k : ℤ) + 1) * n : ℤ) : ℚ) := by
      push_cast
      ring
    rw [e, round_int]
    · push_cast
      ring
    · push_cast
      rw [abs_mul]
      have hpos : |(k : ℚ) + 1| = (k : ℚ) + 1 := abs_of_nonneg (by positivity)
      rw [hpos]
      push_cast at h
      exact h

theorem meanVal64_replicate_int (n : ℤ) {k : Nat} (hk : 1 ≤ k)
    (h : (k : ℚ) * |(n : ℚ)| < (2 : ℚ) ^ (53 : ℤ)) :
    Binary64.meanVal (List.replicate k (n : ℚ)) = (n : ℚ) := by
  have hk0 : (k : ℚ) ≠ 0 := by
    have : k ≠ 0 := by omega
    exact_mod_cast this
  have hn : |(n : ℚ)| < (2 : ℚ) ^ (53 : ℤ) := by
    have h1 : (1 : ℚ) ≤ (k : ℚ) := by exact_mod_cast hk
    have h0 : (0 : ℚ) ≤ |(n : ℚ)| := abs_nonneg _
    nlinarith
  rw [Binary64.meanVal, accumulate64_replicate_int n k h, List.length_replicate, Binary64.div,
    mul_div_cancel_left₀ _ hk0, round_int hn]

theorem accumulate64_mono {l : List ℚ} {m : ℚ} (h : ∀ w ∈ l, w ≤ m) {i j : ℚ} (hij : i ≤ j) :
    l.foldl Binary64.add i ≤ (List.replicate l.length m).foldl Binary64.add j := by
  induction l generalizing i j with
  | nil => simpa using hij
  | cons a l ih =>
    simp only [List.foldl_cons, List.length_cons, List.replicate_succ]
    apply ih (fun w hw => h w (List.mem_cons_of_mem a hw))
    exact round_mono (add_le_add hij (h a (List.mem_cons_self a l)))

theorem accumulate64_mono_ge {l : List ℚ} {m : ℚ} (h : ∀ w ∈ l, m ≤ w) {i j : ℚ} (hij : j ≤ i) :
    (List.replicate l.length m).foldl Binary64.add j ≤ l.foldl Binary64.add i := by
  induction l generalizing i j with
  | nil => simpa using hij
  | cons a l ih =>
    simp only [List.foldl_cons, List.length_cons, List.replicate_succ]
    apply ih (fun w hw => h w (List.mem_cons_of_mem a hw))
    exact round_mono (add_le_add hij (h a (List.mem_cons_self a l)))

theorem neighbors_uniform_replicate {g : Mat ℚ} {c : ℚ}
    (hg : ∀ y x, y < g.rows → x < g.cols → g.at_ y x = c) (distance : ℤ) (y x : Nat) :
    neighbors g distance y x = List.replicate (neighbors g distance y x).length c :=
  List.eq_replicate_length.mpr (neighbors_uniform hg distance y x)

theorem neighbors_length_le (g : Mat ℚ) (distance : ℤ) (y x : Nat) :
    (neighbors g distance y x).length ≤ g.rows * g.cols := by
  rw [neighbors_length, neighborhood]
  refine le_trans (Finset.card_filter_le _ _) ?_
  rw [Finset.card_product, Finset.card_range, Finset.card_range]

/-! ## Facts about the grid passes in binary64 -/

theorem localExtremaSuppression64_max (g : Mat ℚ) (d : ℤ) (t : ℚ) :
    Binary64.localExtremaSuppression g d t "max" = some (Binary64.suppressed g d t "max") := by
  simp [Binary64.localExtremaSuppression]

theorem localExtremaSuppression64_min (g : Mat ℚ) (d : ℤ) (t : ℚ) :
    Binary64.localExtremaSuppression g d t "min" = some (Binary64.suppressed g d t "min") := by
  simp [Binary64.localExtremaSuppression]

theorem messagePassing64_increase (g : Mat ℚ) :
    Binary64.messagePassing g "increase" = some (Binary64.passed g "increase") := by
  simp [Binary64.messagePassing]

theorem messagePassing64_decrease (g : Mat ℚ) :
    Binary64.messagePassing g "decrease" = some (Binary64.passed g "decrease") := by
  simp [Binary64.messagePassing]

theorem suppressCell64_max (g : Mat ℚ) (distance : ℤ) (threshold : ℚ) (y x : Nat) :
    Binary64.suppressCell g distance threshold "max" y x
      = if neighbors g distance y x ≠ []
            ∧ max_element (neighbors g distance y x) ≤ g.at_ y x
            ∧ threshold < Binary64.sub (g.at_ y x) (Binary64.meanVal (neighbors g distance y x))
        then Binary64.add (Binary64.meanVal (neighbors g distance y x)) threshold
        else g.at_ y x := by
  simp only [Binary64.suppressCell, List.isEmpty_iff, if_true, ge_iff_le, gt_iff_lt]
  by_cases hne : neighbors g distance y x = []
  · simp [hne]
  · simp [hne]

theorem suppressCell64_min (g : Mat ℚ) (distance : ℤ) (threshold : ℚ) (y x : Nat) :
    Binary64.suppressCell g distance threshold "min" y x
      = if neighbors g distance y x ≠ []
            ∧ g.at_ y x ≤ min_element (neighbors g distance y x)
            ∧ threshold < Binary64.sub (Binary64.meanVal (neighbors g distance y x)) (g.at_ y x)
        then Binary64.sub (Binary64.meanVal (neighbors g distance y x)) threshold
        else g.at_ y x := by
  have hd : ¬ ("min" = "max") := by decide
  simp only [Binary64.suppressCell, List.isEmpty_iff, hd, if_false, ge_iff_le, gt_iff_lt]
  by_cases hne : neighbors g distance y x = []
  · simp [hne]
  · simp [hne]

theorem suppressed64_at (g : Mat ℚ) (distance : ℤ) (threshold : ℚ) (extrema : String)
    {y x : Nat} (hy : y < g.rows) (hx : x < g.cols) :
    (Binary64.suppressed g distance threshold extrema).at_ y x
      = Binary64.suppressCell g distance threshold extrema y x := by
  simp [Binary64.suppressed, hy, hx]

theorem passed64_at (g : Mat ℚ) (direction : String) {y x : Nat} (hy : y < g.rows)
    (hx : x < g.cols) :
    (Binary64.passed g direction).at_ y x = Binary64.passCell g direction y x := by
  simp [Binary64.passed, hy, hx]

theorem sub64_self (c : ℚ) : Binary64.sub c c = 0 := by
  rw [Binary64.sub, sub_self, round_zero]

theorem meanVal64_uniform {g : Mat ℚ} {c : ℚ}
    (hg : ∀ y x, y < g.rows → x < g.cols → g.at_ y x = c) (distance : ℤ) (y x : Nat) {bound : Nat}
    (hb : (neighbors g distance y x).length ≤ bound)
    (hmean : ∀ k, 1 ≤ k → k ≤ bound → Binary64.meanVal (List.replicate k c) = c)
    (hne : neighbors g distance y x ≠ []) :
    Binary64.meanVal (neighbors g distance y x) = c := by
  rw [neighbors_uniform_replicate hg distance y x]
  apply hmean _ _ hb
  have : (neighbors g distance y x).length ≠ 0 := fun h0 => hne (List.length_eq_zero.mp h0)
  omega

theorem meanVal64_of_all {l : List ℚ} {c : ℚ} (hall : ∀ w ∈ l, w = c) (hne : l ≠ [])
    {bound : Nat} (hb : l.length ≤ bound)
    (hmean : ∀ k, 1 ≤ k → k ≤ bound → Binary64.meanVal (List.replicate k c) = c) :
    Binary64.meanVal l = c := by
  rw [List.eq_replicate_length.mpr hall]
  apply hmean _ _ hb
  have : l.length ≠ 0 := fun h0 => hne (List.length_eq_zero.mp h0)
  omega

/-! ## Sums and means of the doubles nearest to 0.1 and 0.7 -/

theorem tenth_sum2 :
    Binary64.round (tenth + tenth) = 3602879701896397 / 18014398509481984 := by
  have h := round_eq_of_pos (x := tenth + tenth) (e := -55) (m := 7205759403792794)
    (by norm_num) (by norm_num [tenth]) (by norm_num [tenth])
    (cvRound_eq_of_close (by norm_num [tenth]) (by norm_num [tenth]))
  rw [h]
  norm_num

theorem tenth_sum3 :
    Binary64.round (3602879701896397 / 18014398509481984 + tenth) = 1351079888211149 / 4503599627370496 := by
  have h := round_eq_of_pos (x := 3602879701896397 / 18014398509481984 + tenth) (e := -54) (m := 5404319552844596)
    (by norm_num) (by norm_num [tenth]) (by norm_num [tenth])
    (cvRound_eq_of_half_below (by norm_num [tenth]) (by norm_num))
  rw [h]
  norm_num

theorem tenth_sum4 :
    Binary64.round (1351079888211149 / 4503599627370496 + tenth) = 3602879701896397 / 9007199254740992 := by
  have h := round_eq_of_pos (x := 1351079888211149 / 4503599627370496 + tenth) (e := -54) (m := 7205759403792794)
    (by norm_num) (by norm_num [tenth]) (by norm_num [tenth])
    (cvRound_eq_of_half_above (by norm_num [tenth]) (by norm_num))
  rw [h]
  norm_num

theorem tenth_sum5 :
    Binary64.round (3602879701896397 / 9007199254740992 + tenth) = 1 / 2 := by
  have h := round_eq_of_pos (x := 3602879701896397 / 9007199254740992 + tenth) (e := -53) (m := 4503599627370496)
    (by norm_num) (by norm_num [tenth]) (by norm_num [tenth])
    (cvRound_eq_of_close (by norm_num [tenth]) (by norm_num [tenth]))
  rw [h]
  norm_num

theorem tenth_sum6 :
    Binary64.round (1 / 2 + tenth) = 5404319552844595 / 9007199254740992 := by
  have h := round_eq_of_pos (x := 1 / 2 + tenth) (e := -53) (m := 5404319552844595)
    (by norm_num) (by norm_num [tenth]) (by norm_num [tenth])
    (cvRound_eq_of_close (by norm_num [tenth]) (by norm_num [tenth]))
  rw [h]
  norm_num

theorem tenth_mean3 :
    Binary64.round (1351079888211149 / 4503599627370496 / 3) = 7205759403792795 / 72057594037927936 := by
  have h := round_eq_of_pos (x := 1351079888211149 / 4503599627370496 / 3) (e := -56) (m := 7205759403792795)
    (by norm_num) (by norm_num) (by norm_num)
    (cvRound_eq_of_close (by norm_num) (by norm_num))
  rw [h]
  norm_num

theorem tenth_mean6 :
    Binary64.round (5404319552844595 / 9007199254740992 / 6) = 7205759403792793 / 72057594037927936 := by
  have h := round_eq_of_pos (x := 5404319552844595 / 9007199254740992 / 6) (e := -56) (m := 7205759403792793)
    (by norm_num) (by norm_num) (by norm_num)
    (cvRound_eq_of_close (by norm_num) (by norm_num))
  rw [h]
  norm_num

theorem sevenTenths_sum2 :
    Binary64.round (sevenTenths + sevenTenths) = 3152519739159347 / 2251799813685248 := by
  have h := round_eq_of_pos (x := sevenTenths + sevenTenths) (e := -52) (m := 6305039478318694)
    (by norm_num) (by norm_num [sevenTenths]) (by norm_num [sevenTenths])
    (cvRound_eq_of_close (by norm_num [sevenTenths]) (by norm_num [sevenTenths]))
  rw [h]
  norm_num

theorem sevenTenths_sum3 :
    Binary64.round (3152519739159347 / 2251799813685248 + sevenTenths) = 1182194902184755 / 562949953421312 := by
  have h := round_eq_of_pos (x := 3152519739159347 / 2251799813685248 + sevenTenths) (e := -51) (m := 4728779608739020)
    (by norm_num) (by norm_num [sevenTenths]) (by norm_num [sevenTenths])
    (cvRound_eq_of_half_above (by norm_num [sevenTenths]) (by norm_num))
  rw [h]
  norm_num

theorem sevenTenths_mean3 :
    Binary64.round (1182194902184755 / 562949953421312 / 3) = 6305039478318693 / 9007199254740992 := by
  have h := round_eq_of_pos (x := 1182194902184755 / 562949953421312 / 3) (e := -53) (m := 6305039478318693)
    (by norm_num) (by norm_num) (by norm_num)
    (cvRound_eq_of_close (by norm_num) (by norm_num))
  rw [h]
  norm_num

theorem tenth_sum1 : Binary64.round (0 + tenth) = tenth := by
  have h := round_of_parts (m := 3602879701896397) (e := -55) (by norm_num) (by norm_num)
  have e : (0 : ℚ) + tenth = ((3602879701896397 : ℤ) : ℚ) * (2 : ℚ) ^ (-55 : ℤ) := by
    norm_num [tenth]
  rw [e, h, ← e, zero_add]

theorem sevenTenths_sum1 : Binary64.round (0 + sevenTenths) = sevenTenths := by
  have h := round_of_parts (m := 3152519739159347) (e := -52) (by norm_num) (by norm_num)
  have e : (0 : ℚ) + sevenTenths = ((3152519739159347 : ℤ) : ℚ) * (2 : ℚ) ^ (-52 : ℤ) := by
    norm_num [sevenTenths]
  rw [e, h, ← e, zero_add]

/-! ## Suppression of a single spike in binary64 -/

/-- C3 as stated fails in the arithmetic of the code: in the 2x2 grid that
holds 1000 in its first cell and the double nearest to 0.1 elsewhere, with
`distance = 1` and `threshold = 0`, the three neighbours of the spike sum to
`0.30000000000000004` and their mean is `0.10000000000000002`, so the spike is
replaced by `0.10000000000000002` and not by `c + threshold`, the double
nearest to 0.1. -/
theorem selectivity_counterexample :
    (∀ y x, y < tenthSpike.rows → x < tenthSpike.cols →
        tenthSpike.at_ y x = if y = 0 ∧ x = 0 then 1000 else tenth)
      ∧ (0 : ℚ) < 1000 - tenth
      ∧ ∃ out, Binary64.localExtremaSuppression tenthSpike 1 0 "max" = some out
          ∧ out.at_ 0 0 = 7205759403792795 / 72057594037927936
          ∧ out.at_ 0 0 ≠ tenth + 0 := by
  have hnb : neighbors tenthSpike 1 0 0 = [tenth, tenth, tenth] := by
    simp [neighbors, offsets, tenthSpike, List.range, List.range.loop]
  have hmean : Binary64.meanVal [tenth, tenth, tenth]
      = 7205759403792795 / 72057594037927936 := by
    simp only [Binary64.meanVal, Binary64.accumulate, List.foldl_cons, List.foldl_nil,
      Binary64.add, Binary64.div, List.length_cons, List.length_nil]
    rw [tenth_sum1, tenth_sum2, tenth_sum3]
    have e3 : ((0 + 1 + 1 + 1 : Nat) : ℚ) = 3 := by norm_num
    rw [e3, tenth_mean3]
  have hround : Binary64.round (7205759403792795 / 72057594037927936 + 0)
      = 7205759403792795 / 72057594037927936 := by
    have h := round_of_parts (m := 7205759403792795) (e := -56) (by norm_num) (by norm_num)
    have e : (7205759403792795 : ℚ) / 72057594037927936 + 0
        = ((7205759403792795 : ℤ) : ℚ) * (2 : ℚ) ^ (-56 : ℤ) := by norm_num
    rw [e, h, ← e, add_zero]
  have hsub : (0 : ℚ) < Binary64.sub 1000 (7205759403792795 / 72057594037927936) := by
    have h1 : Binary64.round ((1 : ℤ) : ℚ) = ((1 : ℤ) : ℚ) := round_int (by norm_num)
    have h2 : Binary64.round ((1 : ℤ) : ℚ)
        ≤ Binary64.round (1000 - 7205759403792795 / 72057594037927936) :=
      round_mono (by norm_num)
    rw [h1] at h2
    have h3 : (0 : ℚ) < ((1 : ℤ) : ℚ) := by norm_num
    exact lt_of_lt_of_le h3 h2
  have hcell : Binary64.suppressCell tenthSpike 1 0 "max" 0 0
      = 7205759403792795 / 72057594037927936 := by
    rw [suppressCell64_max, hnb, hmean, if_pos]
    · exact hround
    · refine ⟨List.cons_ne_nil _ _, ?_, ?_⟩
      · norm_num [max_element, tenthSpike, tenth]
      · simpa [tenthSpike] using hsub
  refine ⟨fun _ _ _ _ => rfl, by norm_num [tenth], _,
    localExtremaSuppression64_max tenthSpike 1 0, ?_, ?_⟩
  · rw [suppressed64_at tenthSpike 1 0 "max" (by decide) (by decide)]
    exact hcell
  · rw [suppressed64_at tenthSpike 1 0 "max" (by decide) (by decide), hcell]
    norm_num [tenth]

/-- C3, amended. In the binary64 arithmetic of the code: in a grid whose
cells all equal `c` except the cell `(y0, x0)` holding `v`, with
`distance ≥ 1`, more than one cell in the grid, `threshold ≥ 0`, the computed
difference `v - c` above `threshold`, and the computed mean of `k` cells equal
to `c` equal to `c` for every `k` up to the number of grid cells,
`localExtremaSuppression` in `max` mode returns the grid of the same size in
which `(y0, x0)` holds the computed sum `c + threshold` and every other cell
still holds `c`. -/
theorem selectivity_in_binary64 (g : Mat ℚ) (distance : ℤ) (threshold c v : ℚ)
    (y0 x0 : Nat)
    (hg : ∀ y x, y < g.rows → x < g.cols → g.at_ y x = if y = y0 ∧ x = x0 then v else c)
    (hd : 1 ≤ distance) (hsize : 1 < g.rows ∨ 1 < g.cols)
    (ht : 0 ≤ threshold) (hv : threshold < Binary64.sub v c)
    (hmean : ∀ k, 1 ≤ k → k ≤ g.rows * g.cols →
      Binary64.meanVal (List.replicate k c) = c) :
    ∃ out, Binary64.localExtremaSuppression g distance threshold "max" = some out
      ∧ out.rows = g.rows ∧ out.cols = g.cols
      ∧ ∀ y x, y < g.rows → x < g.cols →
          out.at_ y x = if y = y0 ∧ x = x0 then Binary64.add c threshold else c := by
  refine ⟨_, localExtremaSuppression64_max g distance threshold, rfl, rfl, ?_⟩
  intro y x hy hx
  rw [suppressed64_at g distance threshold "max" hy hx, suppressCell64_max, hg y x hy hx]
  have hval : ∀ w ∈ neighbors g distance y x, w = c ∨ (w = v ∧ ¬(y = y0 ∧ x = x0)) := by
    intro w hw
    obtain ⟨ny, nx, ⟨h1, h2, -, -, h5⟩, rfl⟩ := (mem_neighbors g distance y x w).mp hw
    rw [hg ny nx h1 h2]
    split_ifs with hc
    · refine Or.inr ⟨rfl, ?_⟩
      rintro ⟨e1, e2⟩
      exact h5 ⟨hc.1.trans e1.symm, hc.2.trans e2.symm⟩
    · exact Or.inl rfl
  have hcv : c < v := by
    by_contra hle
    have h1 : Binary64.sub v c ≤ 0 := round_nonpos (by linarith [not_lt.mp hle])
    linarith
  have hlen := neighbors_length_le g distance y x
  by_cases hcell : y = y0 ∧ x = x0
  · have hall : ∀ w ∈ neighbors g distance y x, w = c := by
      intro w hw
      rcases hval w hw with h | h
      · exact h
      · exact absurd hcell h.2
    have hne : neighbors g distance y x ≠ [] :=
      (neighbors_ne_nil_iff g distance y x).mpr
        (exists_neighbor_of_size g distance hy hx hd hsize)
    have hm := meanVal64_of_all hall hne hlen hmean
    have hmax : max_element (neighbors g distance y x) = c := hall _ (max_element_mem hne)
    rw [if_pos hcell, if_pos hcell, hm, hmax, if_pos ⟨hne, hcv.le, hv⟩]
  · rw [if_neg hcell, if_neg hcell, if_neg]
    rintro ⟨hne, hmax, hthr⟩
    have hall : ∀ w ∈ neighbors g distance y x, w = c := by
      intro w hw
      rcases hval w hw with h | h
      · exact h
      · have := (max_element_le_iff hne c).mp hmax w hw
        rw [h.1] at this
        linarith
    rw [meanVal64_of_all hall hne hlen hmean, sub64_self] at hthr
    linarith

/-- C3 amended, at the input of the specification: the 5x5 grid of value 10
with 1000 at the centre, `distance = 2`, `threshold = 50`, gives 60 at the
centre and 10 everywhere else. -/
theorem selectivity_in_binary64_witness :
    ∃ out, Binary64.localExtremaSuppression spikeGrid 2 50 "max" = some out
      ∧ out.rows = 5 ∧ out.cols = 5
      ∧ ∀ y x, y < 5 → x < 5 → out.at_ y x = if y = 2 ∧ x = 2 then 60 else 10 := by
  have hsub : Binary64.sub 1000 10 = 990 := by
    have h : Binary64.round ((990 : ℤ) : ℚ) = ((990 : ℤ) : ℚ) := round_int (by norm_num)
    have e : (1000 : ℚ) - 10 = ((990 : ℤ) : ℚ) := by norm_num
    rw [Binary64.sub, e, h]
    norm_num
  have hadd : Binary64.add 10 50 = 60 := by
    have h : Binary64.round ((60 : ℤ) : ℚ) = ((60 : ℤ) : ℚ) := round_int (by norm_num)
    have e : (10 : ℚ) + 50 = ((60 : ℤ) : ℚ) := by norm_num
    rw [Binary64.add, e, h]
    norm_num
  have hmean : ∀ k, 1 ≤ k → k ≤ spikeGrid.rows * spikeGrid.cols →
      Binary64.meanVal (List.replicate k 10) = 10 := by
    intro k hk hle
    have hle25 : k ≤ 25 := hle
    have hq : (k : ℚ) ≤ 25 := by exact_mod_cast hle25
    have h := meanVal64_replicate_int 10 hk (by
      have : |((10 : ℤ) : ℚ)| = 10 := by norm_num
      rw [this]
      norm_num
      linarith)
    simpa using h
  have h := selectivity_in_binary64 spikeGrid 2 50 10 1000 2 2
    (fun _ _ _ _ => rfl) (by norm_num) (Or.inl (by decide)) (by norm_num)
    (by rw [hsub]; norm_num) hmean
  rw [hadd] at h
  exact h

/-! ## Uniform images in binary64 -/

theorem neighborhood_card_le_two (g : Mat ℚ) (y x : Nat) :
    (neighborhood g 2 y x).card ≤ 24 := by
  have hsub : neighborhood g 2 y x
      ⊆ ((Finset.Icc (y - 2) (y + 2)) ×ˢ (Finset.Icc (x - 2) (x + 2))).erase (y, x) := by
    intro p hp
    obtain ⟨-, -, h3, h4, h5⟩ := (mem_neighborhood g 2 y x p).mp hp
    rw [abs_le] at h3 h4
    simp only [Finset.mem_erase, Finset.mem_product, Finset.mem_Icc, ne_eq, Prod.ext_iff]
    exact ⟨h5, ⟨by omega, by omega⟩, ⟨by omega, by omega⟩⟩
  have hc := Finset.card_le_card hsub
  have hmem : (y, x) ∈ (Finset.Icc (y - 2) (y + 2)) ×ˢ (Finset.Icc (x - 2) (x + 2)) := by
    simp only [Finset.mem_product, Finset.mem_Icc]
    omega
  rw [Finset.card_erase_of_mem hmem, Finset.card_product, Nat.card_Icc, Nat.card_Icc] at hc
  have h1 : y + 2 + 1 - (y - 2) ≤ 5 := by omega
  have h2 : x + 2 + 1 - (x - 2) ≤ 5 := by omega
  have h3 : (y + 2 + 1 - (y - 2)) * (x + 2 + 1 - (x - 2)) ≤ 5 * 5 := Nat.mul_le_mul h1 h2
  omega

theorem suppressed64_uniform {g : Mat ℚ} {c : ℚ}
    (hg : ∀ y x, y < g.rows → x < g.cols → g.at_ y x = c) (distance : ℤ) {threshold : ℚ}
    (ht : 0 ≤ threshold) (extrema : String) (hmode : extrema = "max" ∨ extrema = "min")
    {bound : Nat} (hb : ∀ y x, (neighbors g distance y x).length ≤ bound)
    (hmean : ∀ k, 1 ≤ k → k ≤ bound → Binary64.meanVal (List.replicate k c) = c) :
    Binary64.suppressed g distance threshold extrema = g := by
  have key : ∀ y x, (Binary64.suppressed g distance threshold extrema).at_ y x = g.at_ y x := by
    intro y x
    by_cases hbd : y < g.rows ∧ x < g.cols
    · rw [suppressed64_at g distance threshold extrema hbd.1 hbd.2]
      rcases hmode with rfl | rfl
      · rw [suppressCell64_max, if_neg]
        rintro ⟨hne, -, hthr⟩
        rw [meanVal64_uniform hg distance y x (hb y x) hmean hne, hg y x hbd.1 hbd.2,
          sub64_self] at hthr
        linarith
      · rw [suppressCell64_min, if_neg]
        rintro ⟨hne, -, hthr⟩
        rw [meanVal64_uniform hg distance y x (hb y x) hmean hne, hg y x hbd.1 hbd.2,
          sub64_self] at hthr
        linarith
    · simp only [Binary64.suppressed, if_neg hbd]
  cases g with
  | mk rows cols f =>
    simp only [Binary64.suppressed, Mat.mk.injEq, true_and]
    funext y x
    exact key y x

theorem passCell64_replicate {g : Mat ℚ} {c : ℚ} {y x k : Nat} (direction : String)
    (hnb : neighbors g 1 y x = List.replicate (k + 1) c) (hv : g.at_ y x = c) :
    Binary64.passCell g direction y x
      = if direction = "increase" then
          (if Binary64.meanVal (List.replicate (k + 2) c) < c then c
            else Binary64.meanVal (List.replicate (k + 2) c))
        else
          (if c < Binary64.meanVal (List.replicate (k + 2) c) then c
            else Binary64.meanVal (List.replicate (k + 2) c)) := by
  have hm : Binary64.div (Binary64.add (Binary64.accumulate (List.replicate (k + 1) c) 0) c)
      ((k + 1 + 1 : Nat) : ℚ) = Binary64.meanVal (List.replicate (k + 2) c) := by
    rw [← accumulate64_succ, Binary64.meanVal, List.length_replicate]
  have hne : ¬ (List.replicate (k + 1) c = []) := by simp
  simp only [Binary64.passCell, hnb, hv, List.isEmpty_iff, hne, if_false, List.length_replicate,
    hm]

theorem passCell64_uniform {g : Mat ℚ} {c : ℚ}
    (hg : ∀ y x, y < g.rows → x < g.cols → g.at_ y x = c) (direction : String)
    (hmean : ∀ k, 1 ≤ k → k ≤ 9 → Binary64.meanVal (List.replicate k c) = c) {y x : Nat}
    (hy : y < g.rows) (hx : x < g.cols) : Binary64.passCell g direction y x = g.at_ y x := by
  have hrep := neighbors_uniform_replicate hg 1 y x
  have hlen : (neighbors g 1 y x).length ≤ 8 := by
    rw [neighbors_length]
    exact neighborhood_card_le g y x
  cases hk : (neighbors g 1 y x).length with
  | zero =>
    have hnil : neighbors g 1 y x = [] := List.length_eq_zero.mp hk
    simp [Binary64.passCell, hnil]
  | succ k =>
    rw [hk] at hrep hlen
    rw [passCell64_replicate direction hrep (hg y x hy hx), hmean (k + 2) (by omega) (by omega),
      hg y x hy hx]
    simp

theorem passed64_uniform {g : Mat ℚ} {c : ℚ}
    (hg : ∀ y x, y < g.rows → x < g.cols → g.at_ y x = c) (direction : String)
    (hmean : ∀ k, 1 ≤ k → k ≤ 9 → Binary64.meanVal (List.replicate k c) = c) :
    Binary64.passed g direction = g := by
  cases g with
  | mk rows cols f =>
    simp only [Binary64.passed, Mat.mk.injEq, true_and]
    funext y x
    split_ifs with hb
    · exact passCell64_uniform hg direction hmean hb.1 hb.2
    · rfl

theorem messagePassingN64_uniform {g : Mat ℚ} {c : ℚ}
    (hg : ∀ y x, y < g.rows → x < g.cols → g.at_ y x = c) (direction : String)
    (hdir : direction = "increase" ∨ direction = "decrease")
    (hmean : ∀ k, 1 ≤ k → k ≤ 9 → Binary64.meanVal (List.replicate k c) = c) (n : Nat) :
    Binary64.messagePassingN direction n g = some g := by
  induction n with
  | zero => rfl
  | succ n ih =>
    simp [Binary64.messagePassingN, Binary64.messagePassing, hdir,
      passed64_uniform hg direction hmean, ih]

theorem diffuse64_uniform {a b : Mat ℚ} {c : ℚ}
    (ha : ∀ y x, y < a.rows → x < a.cols → a.at_ y x = c)
    (hb : ∀ y x, y < b.rows → x < b.cols → b.at_ y x = c)
    (hmean : ∀ k, 1 ≤ k → k ≤ 9 → Binary64.meanVal (List.replicate k c) = c) (n : Nat) :
    Binary64.diffuse n (a, b) = some (a, b) := by
  induction n with
  | zero => rfl
  | succ n ih =>
    simp [Binary64.diffuse, messagePassing64_decrease, messagePassing64_increase,
      passed64_uniform ha "decrease" hmean, passed64_uniform hb "increase" hmean, ih]

/-- C8 as stated fails in the arithmetic of the code: for the 8x8 image whose
samples all equal the double nearest to 0.1 the min grid is uniform, but its
cell `(0, 1)` has five neighbours, the six values sum to `0.6` and their
computed mean is `0.09999999999999999`, so the first `decrease` step lowers
that cell instead of returning the grid unchanged. -/
theorem uniform_image_counterexample :
    (8 ≤ (Mat.const 8 8 tenth).rows ∧ 8 ≤ (Mat.const 8 8 tenth).cols)
      ∧ (∀ y x, (Mat.const 8 8 tenth).at_ y x = tenth)
      ∧ (gridwiseMin (Mat.const 8 8 tenth) 8 8).at_ 0 1 = tenth
      ∧ ∃ out, Binary64.messagePassing (gridwiseMin (Mat.const 8 8 tenth) 8 8) "decrease"
            = some out
          ∧ out.at_ 0 1 = 7205759403792793 / 72057594037927936
          ∧ out.at_ 0 1 ≠ (gridwiseMin (Mat.const 8 8 tenth) 8 8).at_ 0 1 := by
  have hg : ∀ y x, y < (gridwiseMin (Mat.const 8 8 tenth) 8 8).rows →
      x < (gridwiseMin (Mat.const 8 8 tenth) 8 8).cols →
      (gridwiseMin (Mat.const 8 8 tenth) 8 8).at_ y x = tenth :=
    fun y x hy hx =>
      @gridwiseMin_uniform (Mat.const 8 8 tenth) tenth (by decide) (by decide)
        (fun _ _ _ _ => rfl) y x hy hx
  have h01 := hg 0 1 (by decide) (by decide)
  have hlen : (neighbors (gridwiseMin (Mat.const 8 8 tenth) 8 8) 1 0 1).length = 5 := by
    rw [neighbors_length]
    exact neighborhood_card_edge_row _ (by decide) (Or.inl rfl) (by decide) (by decide)
  have hrep := neighbors_uniform_replicate hg 1 0 1
  rw [hlen] at hrep
  have hmean : Binary64.meanVal (List.replicate 6 tenth)
      = 7205759403792793 / 72057594037927936 := by
    simp only [Binary64.meanVal, Binary64.accumulate, List.replicate, List.foldl_cons,
      List.foldl_nil, Binary64.add, Binary64.div, List.length_cons, List.length_nil]
    rw [tenth_sum1, tenth_sum2, tenth_sum3, tenth_sum4, tenth_sum5, tenth_sum6]
    have e6 : ((0 + 1 + 1 + 1 + 1 + 1 + 1 : Nat) : ℚ) = 6 := by norm_num
    rw [e6, tenth_mean6]
  have hcell : Binary64.passCell (gridwiseMin (Mat.const 8 8 tenth) 8 8) "decrease" 0 1
      = 7205759403792793 / 72057594037927936 := by
    rw [passCell64_replicate "decrease" hrep h01, hmean]
    have hd : ¬ ("decrease" = "increase") := by decide
    rw [if_neg hd, if_neg]
    norm_num [tenth]
  refine ⟨⟨by decide, by decide⟩, fun _ _ => rfl, h01, _,
    messagePassing64_decrease _, ?_, ?_⟩
  · rw [passed64_at _ "decrease" (by decide) (by decide)]
    exact hcell
  · rw [passed64_at _ "decrease" (by decide) (by decide), hcell, h01]
    norm_num [tenth]

/-- C8, amended. In the binary64 arithmetic of the code: for an image of size
at least 8x8 whose samples all equal `c`, where the computed mean of `k`
cells equal to `c` is `c` for every `k` from 1 to 24, with non-negative
thresholds and any iteration count, `gridwiseMin` and `gridwiseMax` give 8x8
grids with every cell equal to `c`; both suppression passes, every
`messagePassing` step and the whole diffusion loop return the grids
unchanged; if the resize primitive maps an 8x8 grid of value `c` to a field
of value `c`, both raw fields equal `c` at every pixel; and the Rescaler,
given fields equal to `c` at every pixel, returns an image that is `0` at
every pixel. -/
theorem uniform_image_in_binary64 (P : Primitives) (self : Fieldscale) (img : Mat ℚ) (c : ℚ)
    (hrows : 8 ≤ img.rows) (hcols : 8 ≤ img.cols)
    (himg : ∀ y x, y < img.rows → x < img.cols → img.at_ y x = c)
    (hmax : 0 ≤ self.maxDiff_) (hmin : 0 ≤ self.minDiff_)
    (hmean : ∀ k, 1 ≤ k → k ≤ 24 → Binary64.meanVal (List.replicate k c) = c)
    (hresize : ∀ g : Mat ℚ, g.rows = 8 → g.cols = 8 →
      (∀ y x, y < 8 → x < 8 → g.at_ y x = c) →
      ∀ rows cols y x, y < rows → x < cols → P.resize g rows cols y x = c) :
    ((gridwiseMin img 8 8).rows = 8 ∧ (gridwiseMin img 8 8).cols = 8
        ∧ ∀ y x, y < 8 → x < 8 → (gridwiseMin img 8 8).at_ y x = c)
      ∧ ((gridwiseMax img 8 8).rows = 8 ∧ (gridwiseMax img 8 8).cols = 8
        ∧ ∀ y x, y < 8 → x < 8 → (gridwiseMax img 8 8).at_ y x = c)
      ∧ Binary64.localExtremaSuppression (gridwiseMax img 8 8) 2 self.maxDiff_ "max"
          = some (gridwiseMax img 8 8)
      ∧ Binary64.localExtremaSuppression (gridwiseMax img 8 8) 2 self.minDiff_ "min"
          = some (gridwiseMax img 8 8)
      ∧ (∀ n, Binary64.messagePassingN "decrease" n (gridwiseMin img 8 8)
          = some (gridwiseMin img 8 8))
      ∧ (∀ n, Binary64.messagePassingN "increase" n (gridwiseMax img 8 8)
          = some (gridwiseMax img 8 8))
      ∧ (∀ n, Binary64.diffuse n (gridwiseMin img 8 8, gridwiseMax img 8 8)
          = some (gridwiseMin img 8 8, gridwiseMax img 8 8))
      ∧ (∃ raw, Binary64.rawFields P self img = some raw
          ∧ Mat.sameSize img raw.1 = true ∧ Mat.sameSize img raw.2 = true
          ∧ ∀ y x, y < img.rows → x < img.cols → raw.1.at_ y x = c ∧ raw.2.at_ y x = c)
      ∧ (∀ minField maxField : Mat ℚ, Mat.sameSize img minField = true →
          Mat.sameSize img maxField = true →
          (∀ y x, y < img.rows → x < img.cols → minField.at_ y x = c ∧ maxField.at_ y x = c) →
          ∃ out, rescaleImageWithFields img minField maxField = some out
            ∧ out.rows = img.rows ∧ out.cols = img.cols
            ∧ ∀ y x, y < img.rows → x < img.cols → out.at_ y x = 0) := by
  have hgmin : ∀ y x, y < (gridwiseMin img 8 8).rows → x < (gridwiseMin img 8 8).cols →
      (gridwiseMin img 8 8).at_ y x = c :=
    fun y x hy hx => gridwiseMin_uniform hrows hcols himg hy hx
  have hgmax : ∀ y x, y < (gridwiseMax img 8 8).rows → x < (gridwiseMax img 8 8).cols →
      (gridwiseMax img 8 8).at_ y x = c :=
    fun y x hy hx => gridwiseMax_uniform hrows hcols himg hy hx
  have hmean9 : ∀ k, 1 ≤ k → k ≤ 9 → Binary64.meanVal (List.replicate k c) = c :=
    fun k h1 h2 => hmean k h1 (by omega)
  have hb : ∀ y x, (neighbors (gridwiseMax img 8 8) 2 y x).length ≤ 24 := by
    intro y x
    rw [neighbors_length]
    exact neighborhood_card_le_two _ y x
  have hs1 := suppressed64_uniform hgmax 2 hmax "max" (Or.inl rfl) hb hmean
  have hs2 := suppressed64_uniform hgmax 2 hmin "min" (Or.inr rfl) hb hmean
  refine ⟨⟨rfl, rfl, hgmin⟩, ⟨rfl, rfl, hgmax⟩, ?_, ?_, ?_, ?_, ?_, ?_, ?_⟩
  · rw [localExtremaSuppression64_max, hs1]
  · rw [localExtremaSuppression64_min, hs2]
  · exact messagePassingN64_uniform hgmin "decrease" (Or.inr rfl) hmean9
  · exact messagePassingN64_uniform hgmax "increase" (Or.inl rfl) hmean9
  · exact diffuse64_uniform hgmin hgmax hmean9
  · refine ⟨(resize P (gridwiseMin img 8 8) img.rows img.cols,
        resize P (gridwiseMax img 8 8) img.rows img.cols), ?_, ?_, ?_, ?_⟩
    · simp only [Binary64.rawFields, localExtremaSuppression64_max,
        localExtremaSuppression64_min, Option.some_bind, hs1, hs2,
        diffuse64_uniform hgmin hgmax hmean9]
    · simp [Mat.sameSize, resize]
    · simp [Mat.sameSize, resize]
    · intro y x hy hx
      exact ⟨hresize _ rfl rfl hgmin _ _ y x hy hx, hresize _ rfl rfl hgmax _ _ y x hy hx⟩
  · intro minField maxField h1 h2 hf
    refine ⟨_, rescale_eq_some h1 h2, rfl, rfl, ?_⟩
    intro y x hy hx
    apply dark_of_small_range
    rw [maxF_at, minF_at, (hf y x hy hx).1, (hf y x hy hx).2]
    norm_num [epsilon]

/-- C8 amended, at the input of the specification: a 64x64 image of value
1000 under the default configuration with the sample primitives. -/
theorem uniform_image_in_binary64_witness :
    (∀ n, Binary64.diffuse n
        (gridwiseMin (Mat.const 64 64 1000) 8 8, gridwiseMax (Mat.const 64 64 1000) 8 8)
        = some (gridwiseMin (Mat.const 64 64 1000) 8 8, gridwiseMax (Mat.const 64 64 1000) 8 8))
      ∧ ∃ out, rescaleImageWithFields (Mat.const 64 64 1000) (Mat.const 64 64 1000)
            (Mat.const 64 64 1000) = some out
          ∧ ∀ y x, y < 64 → x < 64 → out.at_ y x = 0 := by
  have hmean : ∀ k, 1 ≤ k → k ≤ 24 → Binary64.meanVal (List.replicate k 1000) = 1000 := by
    intro k hk hle
    have hq : (k : ℚ) ≤ 24 := by exact_mod_cast hle
    have h := meanVal64_replicate_int 1000 hk (by
      have : |((1000 : ℤ) : ℚ)| = 1000 := by norm_num
      rw [this]
      norm_num
      linarith)
    simpa using h
  have h := uniform_image_in_binary64 samplePrimitives (new 400 400 7 (3 / 2) true false)
    (Mat.const 64 64 1000) 1000 (by decide) (by decide) (fun _ _ _ _ => rfl)
    (by norm_num [new]) (by norm_num [new]) hmean
    (by
      intro g hr hc hg rows cols y x hy hx
      simp only [samplePrimitives, hr, hc]
      exact hg _ _ (Nat.div_lt_of_lt_mul (by omega)) (Nat.div_lt_of_lt_mul (by omega)))
  obtain ⟨out, ho, -, -, hz⟩ := h.2.2.2.2.2.2.2.2 (Mat.const 64 64 1000) (Mat.const 64 64 1000)
    rfl rfl (fun _ _ _ _ => ⟨rfl, rfl⟩)
  exact ⟨h.2.2.2.2.2.2.1, out, ho, hz⟩

/-! ## Extremes under diffusion in binary64 -/

theorem passCell64_increase_ge (g : Mat ℚ) (y x : Nat) :
    g.at_ y x ≤ Binary64.passCell g "increase" y x := by
  simp only [Binary64.passCell]
  split_ifs with h1 h2
  · exact le_refl _
  · exact le_refl _
  · exact not_lt.mp h2

theorem passCell64_decrease_le (g : Mat ℚ) (y x : Nat) :
    Binary64.passCell g "decrease" y x ≤ g.at_ y x := by
  have hd : ¬ ("decrease" = "increase") := by decide
  simp only [Binary64.passCell, hd, if_false]
  split_ifs with h1 h2
  · exact le_refl _
  · exact le_refl _
  · exact not_lt.mp h2

theorem mean64_le_of_le {l : List ℚ} {v m : ℚ} (hv : v ≤ m) (hn : ∀ w ∈ l, w ≤ m) :
    Binary64.div (Binary64.add (Binary64.accumulate l 0) v) ((l.length + 1 : Nat) : ℚ)
      ≤ Binary64.meanVal (List.replicate (l.length + 1) m) := by
  rw [Binary64.meanVal, accumulate64_succ, List.length_replicate]
  have h1 : Binary64.accumulate l 0 ≤ Binary64.accumulate (List.replicate l.length m) 0 :=
    accumulate64_mono hn (le_refl 0)
  have h2 : Binary64.add (Binary64.accumulate l 0) v
      ≤ Binary64.add (Binary64.accumulate (List.replicate l.length m) 0) m :=
    round_mono (add_le_add h1 hv)
  have hpos : (0 : ℚ) ≤ ((l.length + 1 : Nat) : ℚ) := by positivity
  exact round_mono (div_le_div_of_nonneg_right h2 hpos)

theorem mean64_ge_of_ge {l : List ℚ} {v m : ℚ} (hv : m ≤ v) (hn : ∀ w ∈ l, m ≤ w) :
    Binary64.meanVal (List.replicate (l.length + 1) m)
      ≤ Binary64.div (Binary64.add (Binary64.accumulate l 0) v) ((l.length + 1 : Nat) : ℚ) := by
  rw [Binary64.meanVal, accumulate64_succ, List.length_replicate]
  have h1 : Binary64.accumulate (List.replicate l.length m) 0 ≤ Binary64.accumulate l 0 :=
    accumulate64_mono_ge hn (le_refl 0)
  have h2 : Binary64.add (Binary64.accumulate (List.replicate l.length m) 0) m
      ≤ Binary64.add (Binary64.accumulate l 0) v :=
    round_mono (add_le_add h1 hv)
  have hpos : (0 : ℚ) ≤ ((l.length + 1 : Nat) : ℚ) := by positivity
  exact round_mono (div_le_div_of_nonneg_right h2 hpos)

theorem passCell64_increase_le_bound (g : Mat ℚ) (y x : Nat) {m : ℚ} (hv : g.at_ y x ≤ m)
    (hn : ∀ w ∈ neighbors g 1 y x, w ≤ m) :
    Binary64.passCell g "increase" y x
      ≤ max m (Binary64.meanVal (List.replicate ((neighborhood g 1 y x).card + 1) m)) := by
  rw [← neighbors_length]
  simp only [Binary64.passCell, if_true]
  split_ifs with h1 h2
  · exact le_trans hv (le_max_left _ _)
  · exact le_trans hv (le_max_left _ _)
  · exact le_trans (mean64_le_of_le hv hn) (le_max_right _ _)

theorem passCell64_decrease_ge_bound (g : Mat ℚ) (y x : Nat) {m : ℚ} (hv : m ≤ g.at_ y x)
    (hn : ∀ w ∈ neighbors g 1 y x, m ≤ w) :
    min m (Binary64.meanVal (List.replicate ((neighborhood g 1 y x).card + 1) m))
      ≤ Binary64.passCell g "decrease" y x := by
  rw [← neighbors_length]
  have hd : ¬ ("decrease" = "increase") := by decide
  simp only [Binary64.passCell, hd, if_false]
  split_ifs with h1 h2
  · exact le_trans (min_le_left _ _) hv
  · exact le_trans (min_le_left _ _) hv
  · exact le_trans (min_le_right _ _) (mean64_ge_of_ge hv hn)

theorem block_bound_neighbors {g : Mat ℚ} {y x : Nat} {m : ℚ}
    (h : ∀ by_ bx, inBlock g y x by_ bx → g.at_ by_ bx ≤ m) :
    ∀ w ∈ neighbors g 1 y x, w ≤ m := by
  intro w hw
  obtain ⟨ny, nx, hnb, rfl⟩ := (mem_neighbors g 1 y x w).mp hw
  exact h ny nx ⟨hnb.1, hnb.2.1, hnb.2.2.1, hnb.2.2.2.1⟩

theorem block_bound_neighbors_ge {g : Mat ℚ} {y x : Nat} {m : ℚ}
    (h : ∀ by_ bx, inBlock g y x by_ bx → m ≤ g.at_ by_ bx) :
    ∀ w ∈ neighbors g 1 y x, m ≤ w := by
  intro w hw
  obtain ⟨ny, nx, hnb, rfl⟩ := (mem_neighbors g 1 y x w).mp hw
  exact h ny nx ⟨hnb.1, hnb.2.1, hnb.2.2.1, hnb.2.2.2.1⟩

theorem passed64_empty (g : Mat ℚ) (direction : String) :
    (Binary64.passed g direction).empty = g.empty := rfl

theorem passed64_increase_largest (g : Mat ℚ) (hne : g.empty = false)
    (hm : ∀ k, 1 ≤ k → k ≤ 9 →
      Binary64.meanVal (List.replicate k (largest g)) ≤ largest g) :
    largest (Binary64.passed g "increase") = largest g := by
  apply largest_unique _ (by rw [passed64_empty]; exact hne)
  · intro y x hy hx
    have hy1 : y < g.rows := hy
    have hx1 : x < g.cols := hx
    rw [passed64_at g "increase" hy1 hx1]
    have hb := passCell64_increase_le_bound g y x (le_largest g hy1 hx1) (by
      intro w hw
      obtain ⟨ny, nx, hnb, rfl⟩ := (mem_neighbors g 1 y x w).mp hw
      exact le_largest g hnb.1 hnb.2.1)
    have hcard := neighborhood_card_le g y x
    exact le_trans hb (max_le (le_refl _) (hm _ (by omega) (by omega)))
  · obtain ⟨y, x, hy, hx, he⟩ := largest_attained g hne
    refine ⟨y, x, hy, hx, ?_⟩
    rw [passed64_at g "increase" hy hx, he]
    exact passCell64_increase_ge g y x

theorem passed64_decrease_smallest (g : Mat ℚ) (hne : g.empty = false)
    (hm : ∀ k, 1 ≤ k → k ≤ 9 →
      smallest g ≤ Binary64.meanVal (List.replicate k (smallest g))) :
    smallest (Binary64.passed g "decrease") = smallest g := by
  apply smallest_unique _ (by rw [passed64_empty]; exact hne)
  · intro y x hy hx
    have hy1 : y < g.rows := hy
    have hx1 : x < g.cols := hx
    rw [passed64_at g "decrease" hy1 hx1]
    have hb := passCell64_decrease_ge_bound g y x (smallest_le g hy1 hx1) (by
      intro w hw
      obtain ⟨ny, nx, hnb, rfl⟩ := (mem_neighbors g 1 y x w).mp hw
      exact smallest_le g hnb.1 hnb.2.1)
    have hcard := neighborhood_card_le g y x
    exact le_trans (le_min (le_refl _) (hm _ (by omega) (by omega))) hb
  · obtain ⟨y, x, hy, hx, he⟩ := smallest_attained g hne
    refine ⟨y, x, hy, hx, ?_⟩
    rw [passed64_at g "decrease" hy hx, he]
    exact passCell64_decrease_le g y x

theorem messagePassingN64_increase_largest (n : Nat) (g : Mat ℚ) (hne : g.empty = false)
    (hm : ∀ k, 1 ≤ k → k ≤ 9 →
      Binary64.meanVal (List.replicate k (largest g)) ≤ largest g) :
    ∃ gn, Binary64.messagePassingN "increase" n g = some gn ∧ largest gn = largest g := by
  induction n generalizing g with
  | zero => exact ⟨g, rfl, rfl⟩
  | succ n ih =>
    have hl := passed64_increase_largest g hne hm
    obtain ⟨gn, h, hgn⟩ := ih (Binary64.passed g "increase")
      (by rw [passed64_empty]; exact hne) (by rw [hl]; exact hm)
    refine ⟨gn, ?_, hgn.trans hl⟩
    simp [Binary64.messagePassingN, messagePassing64_increase, h]

theorem messagePassingN64_decrease_smallest (n : Nat) (g : Mat ℚ) (hne : g.empty = false)
    (hm : ∀ k, 1 ≤ k → k ≤ 9 →
      smallest g ≤ Binary64.meanVal (List.replicate k (smallest g))) :
    ∃ gn, Binary64.messagePassingN "decrease" n g = some gn ∧ smallest gn = smallest g := by
  induction n generalizing g with
  | zero => exact ⟨g, rfl, rfl⟩
  | succ n ih =>
    have hl := passed64_decrease_smallest g hne hm
    obtain ⟨gn, h, hgn⟩ := ih (Binary64.passed g "decrease")
      (by rw [passed64_empty]; exact hne) (by rw [hl]; exact hm)
    refine ⟨gn, ?_, hgn.trans hl⟩
    simp [Binary64.messagePassingN, messagePassing64_decrease, h]

theorem tenth_mean_of_three :
    Binary64.meanVal (List.replicate 3 tenth) = 7205759403792795 / 72057594037927936 := by
  simp only [Binary64.meanVal, Binary64.accumulate, List.replicate, List.foldl_cons,
    List.foldl_nil, Binary64.add, Binary64.div, List.length_cons, List.length_nil]
  rw [tenth_sum1, tenth_sum2, tenth_sum3]
  have e3 : ((0 + 1 + 1 + 1 : Nat) : ℚ) = 3 := by norm_num
  rw [e3, tenth_mean3]

theorem sevenTenths_mean_of_three :
    Binary64.meanVal (List.replicate 3 sevenTenths) = 6305039478318693 / 9007199254740992 := by
  simp only [Binary64.meanVal, Binary64.accumulate, List.replicate, List.foldl_cons,
    List.foldl_nil, Binary64.add, Binary64.div, List.length_cons, List.length_nil]
  rw [sevenTenths_sum1, sevenTenths_sum2, sevenTenths_sum3]
  have e3 : ((0 + 1 + 1 + 1 : Nat) : ℚ) = 3 := by norm_num
  rw [e3, sevenTenths_mean3]

theorem row_neighbors (c : ℚ) : neighbors (Mat.const 1 3 c) 1 0 1 = List.replicate (1 + 1) c := by
  simp [neighbors, offsets, Mat.const, List.range, List.range.loop, List.replicate]

/-- C19 as stated fails in the arithmetic of the code: in the 1x3 grid whose
cells all equal the double nearest to 0.1, one `increase` step gives the
middle cell the computed mean `0.10000000000000002` of the three cells, above
every cell of its block, so the largest cell value grows; in the 1x3 grid of
the double nearest to 0.7, one `decrease` step gives the middle cell
`0.6999999999999998`, below every cell of its block. -/
theorem extremes_counterexample :
    (Mat.const 1 3 tenth).empty = false
      ∧ (∃ out, Binary64.messagePassing (Mat.const 1 3 tenth) "increase" = some out
          ∧ out.at_ 0 1 = 7205759403792795 / 72057594037927936
          ∧ (∀ by_ bx, inBlock (Mat.const 1 3 tenth) 0 1 by_ bx →
              (Mat.const 1 3 tenth).at_ by_ bx < out.at_ 0 1)
          ∧ largest (Mat.const 1 3 tenth) < largest out)
      ∧ (∃ out, Binary64.messagePassing (Mat.const 1 3 sevenTenths) "decrease" = some out
          ∧ out.at_ 0 1 = 6305039478318693 / 9007199254740992
          ∧ (∀ by_ bx, inBlock (Mat.const 1 3 sevenTenths) 0 1 by_ bx →
              out.at_ 0 1 < (Mat.const 1 3 sevenTenths).at_ by_ bx)
          ∧ smallest out < smallest (Mat.const 1 3 sevenTenths)) := by
  have hup : Binary64.passCell (Mat.const 1 3 tenth) "increase" 0 1
      = 7205759403792795 / 72057594037927936 := by
    rw [passCell64_replicate "increase" (row_neighbors tenth) rfl, tenth_mean_of_three,
      if_pos rfl, if_neg]
    norm_num [tenth]
  have hdown : Binary64.passCell (Mat.const 1 3 sevenTenths) "decrease" 0 1
      = 6305039478318693 / 9007199254740992 := by
    have hd : ¬ ("decrease" = "increase") := by decide
    rw [passCell64_replicate "decrease" (row_neighbors sevenTenths) rfl,
      sevenTenths_mean_of_three, if_neg hd, if_neg]
    norm_num [sevenTenths]
  have hlarge : largest (Mat.const 1 3 tenth) = tenth :=
    largest_unique (Mat.const 1 3 tenth) rfl (fun _ _ _ _ => le_refl _)
      ⟨0, 0, by decide, by decide, le_refl _⟩
  have hsmall : smallest (Mat.const 1 3 sevenTenths) = sevenTenths :=
    smallest_unique (Mat.const 1 3 sevenTenths) rfl (fun _ _ _ _ => le_refl _)
      ⟨0, 0, by decide, by decide, le_refl _⟩
  refine ⟨rfl, ⟨_, messagePassing64_increase _, ?_, ?_, ?_⟩,
    ⟨_, messagePassing64_decrease _, ?_, ?_, ?_⟩⟩
  · rw [passed64_at _ "increase" (by decide) (by decide)]
    exact hup
  · intro by_ bx _
    rw [passed64_at _ "increase" (by decide) (by decide), hup]
    norm_num [Mat.const, tenth]
  · have h := le_largest (Binary64.passed (Mat.const 1 3 tenth) "increase")
      (y := 0) (x := 1) (by decide) (by decide)
    rw [passed64_at _ "increase" (by decide) (by decide), hup] at h
    rw [hlarge]
    refine lt_of_lt_of_le ?_ h
    norm_num [tenth]
  · rw [passed64_at _ "decrease" (by decide) (by decide)]
    exact hdown
  · intro by_ bx _
    rw [passed64_at _ "decrease" (by decide) (by decide), hdown]
    norm_num [Mat.const, sevenTenths]
  · have h := smallest_le (Binary64.passed (Mat.const 1 3 sevenTenths) "decrease")
      (y := 0) (x := 1) (by decide) (by decide)
    rw [passed64_at _ "decrease" (by decide) (by decide), hdown] at h
    rw [hsmall]
    refine lt_of_le_of_lt h ?_
    norm_num [sevenTenths]

/-- C19, amended. In the binary64 arithmetic of the code, for a non-empty
grid: one `increase` step gives at every cell a value that is at most the
larger of `M` and the computed mean of `|N| + 1` cells equal to `M`, for every
upper bound `M` of the in-bounds 3x3 block around the cell (its maximum in
particular); one `decrease` step gives a value that is at least the smaller
of `m` and the computed mean of `|N| + 1` cells equal to `m`, for every lower
bound `m` of the block; the largest cell value is an upper bound of the grid
that is attained, the smallest a lower bound that is attained; and for every
`n`, if the computed mean of `k` cells equal to the largest cell value is not
above it for `k` from 1 to 9, the largest cell value after `n` `increase`
steps equals that of the input, and if the computed mean of `k` cells equal
to the smallest cell value is not below it, the smallest cell value after `n`
`decrease` steps equals that of the input. -/
theorem extremes_in_binary64 (g : Mat ℚ) (hne : g.empty = false) :
    (∃ out, Binary64.messagePassing g "increase" = some out
        ∧ ∀ y x, y < g.rows → x < g.cols → ∀ m : ℚ,
            (∀ by_ bx, inBlock g y x by_ bx → g.at_ by_ bx ≤ m) →
            out.at_ y x
              ≤ max m (Binary64.meanVal (List.replicate ((neighborhood g 1 y x).card + 1) m)))
      ∧ (∃ out, Binary64.messagePassing g "decrease" = some out
        ∧ ∀ y x, y < g.rows → x < g.cols → ∀ m : ℚ,
            (∀ by_ bx, inBlock g y x by_ bx → m ≤ g.at_ by_ bx) →
            min m (Binary64.meanVal (List.replicate ((neighborhood g 1 y x).card + 1) m))
              ≤ out.at_ y x)
      ∧ ((∀ y x, y < g.rows → x < g.cols → g.at_ y x ≤ largest g)
          ∧ ∃ y x, y < g.rows ∧ x < g.cols ∧ largest g = g.at_ y x)
      ∧ ((∀ y x, y < g.rows → x < g.cols → smallest g ≤ g.at_ y x)
          ∧ ∃ y x, y < g.rows ∧ x < g.cols ∧ smallest g = g.at_ y x)
      ∧ ((∀ k, 1 ≤ k → k ≤ 9 →
            Binary64.meanVal (List.replicate k (largest g)) ≤ largest g) →
          ∀ n, ∃ gn, Binary64.messagePassingN "increase" n g = some gn
            ∧ largest gn = largest g)
      ∧ ((∀ k, 1 ≤ k → k ≤ 9 →
            smallest g ≤ Binary64.meanVal (List.replicate k (smallest g))) →
          ∀ n, ∃ gn, Binary64.messagePassingN "decrease" n g = some gn
            ∧ smallest gn = smallest g) := by
  refine ⟨⟨_, messagePassing64_increase g, ?_⟩, ⟨_, messagePassing64_decrease g, ?_⟩,
    ⟨fun y x hy hx => le_largest g hy hx, largest_attained g hne⟩,
    ⟨fun y x hy hx => smallest_le g hy hx, smallest_attained g hne⟩,
    fun hm n => messagePassingN64_increase_largest n g hne hm,
    fun hm n => messagePassingN64_decrease_smallest n g hne hm⟩
  · intro y x hy hx m hb
    rw [passed64_at g "increase" hy hx]
    exact passCell64_increase_le_bound g y x (hb y x ⟨hy, hx, by simp, by simp⟩)
      (block_bound_neighbors hb)
  · intro y x hy hx m hb
    rw [passed64_at g "decrease" hy hx]
    exact passCell64_decrease_ge_bound g y x (hb y x ⟨hy, hx, by simp, by simp⟩)
      (block_bound_neighbors_ge hb)

/-- C19 amended, at a concrete input: the 5x5 grid of value 10 with 1000 at
the centre keeps its largest value 1000 under three `increase` steps and its
smallest value 10 under three `decrease` steps. -/
theorem extremes_in_binary64_witness :
    (∃ gn, Binary64.messagePassingN "increase" 3 spikeGrid = some gn ∧ largest gn = 1000)
      ∧ (∃ gn, Binary64.messagePassingN "decrease" 3 spikeGrid = some gn
          ∧ smallest gn = 10) := by
  have hl : largest spikeGrid = 1000 := by
    apply largest_unique spikeGrid rfl
    · intro y x _ _
      show (if y = 2 ∧ x = 2 then (1000 : ℚ) else 10) ≤ 1000
      split_ifs <;> norm_num
    · exact ⟨2, 2, by decide, by decide, by norm_num [spikeGrid]⟩
  have hs : smallest spikeGrid = 10 := by
    apply smallest_unique spikeGrid rfl
    · intro y x _ _
      show (10 : ℚ) ≤ (if y = 2 ∧ x = 2 then (1000 : ℚ) else 10)
      split_ifs <;> norm_num
    · exact ⟨0, 0, by decide, by decide, by norm_num [spikeGrid]⟩
  have hm1 : ∀ k, 1 ≤ k → k ≤ 9 →
      Binary64.meanVal (List.replicate k (largest spikeGrid)) ≤ largest spikeGrid := by
    intro k hk hle
    have hq : (k : ℚ) ≤ 9 := by exact_mod_cast hle
    have h := meanVal64_replicate_int 1000 hk (by
      have : |((1000 : ℤ) : ℚ)| = 1000 := by norm_num
      rw [this]
      norm_num
      linarith)
    rw [hl]
    have e : ((1000 : ℤ) : ℚ) = 1000 := by norm_num
    rw [e] at h
    rw [h]
  have hm2 : ∀ k, 1 ≤ k → k ≤ 9 →
      smallest spikeGrid ≤ Binary64.meanVal (List.replicate k (smallest spikeGrid)) := by
    intro k hk hle
    have hq : (k : ℚ) ≤ 9 := by exact_mod_cast hle
    have h := meanVal64_replicate_int 10 hk (by
      have : |((10 : ℤ) : ℚ)| = 10 := by norm_num
      rw [this]
      norm_num
      linarith)
    rw [hs]
    have e : ((10 : ℤ) : ℚ) = 10 := by norm_num
    rw [e] at h
    rw [h]
  obtain ⟨g1, h1, e1⟩ := (extremes_in_binary64 spikeGrid rfl).2.2.2.2.1 hm1 3
  obtain ⟨g2, h2, e2⟩ := (extremes_in_binary64 spikeGrid rfl).2.2.2.2.2 hm2 3
  exact ⟨⟨g1, h1, e1.trans hl⟩, ⟨g2, h2, e2.trans hs⟩⟩

end Fieldscale
